import Mathlib

/-!
# MetaSound branch nodes: a shallow embedding of the four operators

The four operators of `Source/MetasoundBranches/Private` are embedded as pure
functions on explicit operator states.

* Audio samples (`float`) are exact rationals `ℚ`; the cross-router, which needs
  `cos` and `sin`, is generic in its sample type and takes the two engine
  functions and the constant `HALF_PI` as parameters.
* Buffers (`TArray<float>`, `FAudioBuffer`) are lists.  Every indexed read and
  write is bounds-checked and the enclosing function returns `none` when an
  index is out of range.
* `for (i = 0; i < n; ++i)` loops are recursions on the number of remaining
  iterations, carrying the current index.
* `int32` values are integers; no computation in the sources can leave the
  `int32` range on the inputs the theorems cover (every index is bounded by a
  buffer length).
* The wave asset and its decoder are engine objects; they enter `Initialize` as
  a record of what their calls deliver.
* The wave reader converts `int32` values to `float` in two places.  The
  conversion is an argument of its lookup: `castToFloat` rounds to the nearest
  value with a 24-bit significand, as the conversion to single precision does,
  and `exactCast` is the conversion of exact arithmetic.
-/

namespace Metasound

/-! ## Buffers -/

/-- Bounds-checked store `xs[i] = v`; `none` is an out-of-range store. -/
def writeAt {α : Type} (xs : List α) (i : Nat) (v : α) : Option (List α) :=
  if i < xs.length then some (xs.set i v) else none

/-! ## SaH Bank (`MetasoundSahBankNode.cpp`) -/

/-- The buffers and the control value the host binds to the input pins of a
SaH bank; the host refreshes their contents before every block. -/
structure FSahBankInputs where
  InputSignals : List (List ℚ)
  InputTriggers : List (List ℚ)
  InputThreshold : ℚ

/-- The members a SaH bank owns: output buffers and the two per-channel arrays. -/
structure FSahBankOperator where
  OutputSignals : List (List ℚ)
  SampledValues : List ℚ
  PreviousTriggerValues : List ℚ
deriving DecidableEq

/-- The constructor `FSahBankOperator::FSahBankOperator` (lines 39-56): both
state arrays are zeroed with one slot per signal, and each output buffer gets
the length of the matching signal buffer. -/
def FSahBankOperator.Construct (InSignals : List (List ℚ)) : FSahBankOperator :=
  { OutputSignals := InSignals.map (fun s => List.replicate s.length 0)
    SampledValues := List.replicate InSignals.length 0
    PreviousTriggerValues := List.replicate InSignals.length 0 }

/-- What the frame loop of one channel reads and writes: the channel's output
buffer (`OutputData`) and the two state arrays. -/
structure SahLoopState where
  OutputData : List ℚ
  SampledValues : List ℚ
  PreviousTriggerValues : List ℚ
deriving DecidableEq

/-- Body of the frame loop (lines 194-202) for channel `channel` at frame `i`. -/
def FSahBankOperator.frameBody (Threshold : ℚ) (channel : Nat) (SignalData TriggerData : List ℚ)
    (i : Nat) (s : SahLoopState) : Option SahLoopState :=
  (TriggerData[i]?).bind fun CurrentTriggerValue =>
  (s.PreviousTriggerValues[channel]?).bind fun Previous =>
  (if Previous < Threshold ∧ CurrentTriggerValue ≥ Threshold then
      (SignalData[i]?).bind fun v => writeAt s.SampledValues channel v
    else some s.SampledValues).bind fun Sampled =>
  (Sampled[channel]?).bind fun Held =>
  (writeAt s.OutputData i Held).bind fun Out =>
  (writeAt s.PreviousTriggerValues channel CurrentTriggerValue).bind fun Prev =>
  some { OutputData := Out, SampledValues := Sampled, PreviousTriggerValues := Prev }

/-- The frame loop `for (i = ...; i < NumFrames; ++i)`: `n` iterations remain
and the next one is frame `i`. -/
def FSahBankOperator.frameLoop (Threshold : ℚ) (channel : Nat) (SignalData TriggerData : List ℚ) :
    Nat → Nat → SahLoopState → Option SahLoopState
  | 0, _, s => some s
  | n + 1, i, s =>
    (FSahBankOperator.frameBody Threshold channel SignalData TriggerData i s).bind
      (FSahBankOperator.frameLoop Threshold channel SignalData TriggerData n (i + 1))

/-- Body of the channel loop (lines 188-203): fetch the three buffers of
`channel`, run the frame loop from frame 0, and keep what it wrote. -/
def FSahBankOperator.channelBody (inp : FSahBankInputs) (NumFrames channel : Nat)
    (st : FSahBankOperator) : Option FSahBankOperator :=
  (inp.InputSignals[channel]?).bind fun SignalData =>
  (inp.InputTriggers[channel]?).bind fun TriggerData =>
  (st.OutputSignals[channel]?).bind fun OutputData =>
  (FSahBankOperator.frameLoop inp.InputThreshold channel SignalData TriggerData NumFrames 0
      { OutputData := OutputData
        SampledValues := st.SampledValues
        PreviousTriggerValues := st.PreviousTriggerValues }).bind fun s =>
  some { OutputSignals := st.OutputSignals.set channel s.OutputData
         SampledValues := s.SampledValues
         PreviousTriggerValues := s.PreviousTriggerValues }

/-- The channel loop `for (channel = ...; channel < NumChannels; ++channel)`:
`n` iterations remain and the next one is `channel`. -/
def FSahBankOperator.channelLoop (inp : FSahBankInputs) (NumFrames : Nat) :
    Nat → Nat → FSahBankOperator → Option FSahBankOperator
  | 0, _, st => some st
  | n + 1, channel, st =>
    (FSahBankOperator.channelBody inp NumFrames channel st).bind
      (FSahBankOperator.channelLoop inp NumFrames n (channel + 1))

/-- `FSahBankOperator::Execute` (lines 180-205).  The frame count is read from
`InputSignals[0]` before the channel loop is entered. -/
def FSahBankOperator.Execute (st : FSahBankOperator) (inp : FSahBankInputs) :
    Option FSahBankOperator :=
  (inp.InputSignals[0]?).bind fun First =>
  let NumFrames := First.length
  let NumChannels := inp.InputSignals.length
  FSahBankOperator.channelLoop inp NumFrames NumChannels 0 st

/-- Successive `Execute` calls, one per block; the result lists the operator
after each block. -/
def FSahBankOperator.ExecuteBlocks :
    FSahBankOperator → List FSahBankInputs → Option (List FSahBankOperator)
  | _, [] => some []
  | st, inp :: rest =>
    (FSahBankOperator.Execute st inp).bind fun st1 =>
    (FSahBankOperator.ExecuteBlocks st1 rest).map fun sts => st1 :: sts

/-! ### One channel of the bank, frame by frame -/

/-- What one pass of the frame-loop body does to the pair
`(SampledValues[channel], PreviousTriggerValues[channel])` on a frame
`x = (Threshold, SignalData[i], TriggerData[i])`. -/
def sahStep (st : ℚ × ℚ) (x : ℚ × ℚ × ℚ) : ℚ × ℚ :=
  (if st.2 < x.1 ∧ x.2.2 ≥ x.1 then x.2.1 else st.1, x.2.2)

/-- The samples a channel writes to its output over the frames `xs`, starting
from the pair `st`. -/
def sahTrace : ℚ × ℚ → List (ℚ × ℚ × ℚ) → List ℚ
  | _, [] => []
  | st, x :: xs => (sahStep st x).1 :: sahTrace (sahStep st x) xs

/-- The frames `(threshold, signal, comparator)` channel `c` sees in one block. -/
def FSahBankInputs.channelFrames (inp : FSahBankInputs) (c : Nat) : List (ℚ × ℚ × ℚ) :=
  List.zipWith (fun s t => (inp.InputThreshold, s, t))
    ((inp.InputSignals[c]?).getD []) ((inp.InputTriggers[c]?).getD [])

/-- Every frame channel `c` sees over a sequence of blocks, in time order. -/
def lifetimeFrames (blocks : List FSahBankInputs) (c : Nat) : List (ℚ × ℚ × ℚ) :=
  (blocks.map fun inp => inp.channelFrames c).flatten

/-- Every sample channel `c` emitted over a sequence of blocks, in time order;
`states` lists the operator after each block. -/
def lifetimeOutput (states : List FSahBankOperator) (c : Nat) : List ℚ :=
  (states.map fun st => (st.OutputSignals[c]?).getD []).flatten

/-- The bank has `n` channels and every buffer bound to it holds `N` frames. -/
def FSahBankInputs.Shaped (n N : Nat) (inp : FSahBankInputs) : Prop :=
  inp.InputSignals.length = n ∧ inp.InputTriggers.length = n ∧
  (∀ s ∈ inp.InputSignals, s.length = N) ∧ (∀ t ∈ inp.InputTriggers, t.length = N)

/-- The comparator sample that precedes lifetime frame `k`; before the very
first frame it is the constructed value 0. -/
def prevComparator (xs : List (ℚ × ℚ × ℚ)) : Nat → ℚ
  | 0 => 0
  | k + 1 => ((xs[k]?).map fun x => x.2.2).getD 0

/-- A rising edge is detected at lifetime frame `k`: the preceding comparator
sample is below the threshold of the block of `k` and the comparator sample at
`k` is at or above it. -/
def RisingEdgeAt (xs : List (ℚ × ℚ × ℚ)) (k : Nat) : Prop :=
  ∃ x, xs[k]? = some x ∧ prevComparator xs k < x.1 ∧ x.2.2 ≥ x.1

/-- The signal sample at lifetime frame `k`. -/
def signalAt (xs : List (ℚ × ℚ × ℚ)) (k : Nat) : Option ℚ :=
  (xs[k]?).map fun x => x.2.1

/-- The operator has `n` channels and every output buffer holds `N` frames. -/
def FSahBankOperator.Shaped (n N : Nat) (st : FSahBankOperator) : Prop :=
  st.OutputSignals.length = n ∧ (∀ o ∈ st.OutputSignals, o.length = N) ∧
  st.SampledValues.length = n ∧ st.PreviousTriggerValues.length = n

/-- The sample-and-hold contract in the words of the specification: `out` has
one sample per frame of `xs`, and the sample at frame `i` is the signal sample
at the most recent frame `k ≤ i` with a rising edge, or 0 when no frame up to
`i` has one. -/
def HoldsLatestEdge (xs : List (ℚ × ℚ × ℚ)) (out : List ℚ) : Prop :=
  out.length = xs.length ∧
  ∀ i, i < xs.length →
    (∃ k, k ≤ i ∧ RisingEdgeAt xs k ∧ (∀ j, k < j → j ≤ i → ¬ RisingEdgeAt xs j) ∧
      out[i]? = signalAt xs k) ∨
    ((∀ k, k ≤ i → ¬ RisingEdgeAt xs k) ∧ out[i]? = some 0)

/-- The scenario of the specification: one channel, signal `[10,20,30,40]`,
comparator `[0,1,1,0]`, threshold `0.5`. -/
def sahScenario : FSahBankInputs :=
  { InputSignals := [[10, 20, 30, 40]]
    InputTriggers := [[0, 1, 1, 0]]
    InputThreshold := 1 / 2 }

/-! ## Click (`MetasoundClickNode.cpp`) -/

/-- Bounds-checked store through a signed (`int32`) index; a negative index is
out of range. -/
def writeAtInt {α : Type} (xs : List α) (i : Int) (v : α) : Option (List α) :=
  if 0 ≤ i then writeAt xs i.toNat v else none

/-- The members a click operator owns: its output buffer and the polarity flag. -/
structure FClickOperator where
  OutputImpulse : List ℚ
  SignalIsPositive : Bool
deriving DecidableEq

/-- The constructor `FClickOperator::FClickOperator` (lines 30-39): a fresh
output buffer of one block and `SignalIsPositive(true)`. -/
def FClickOperator.Construct (NumFramesPerBlock : Nat) : FClickOperator :=
  { OutputImpulse := List.replicate NumFramesPerBlock 0
    SignalIsPositive := true }

/-- The on-trigger lambda of `Execute` (lines 146-160), called with the frame
of one trigger event. -/
def FClickOperator.onTrigger (InputBiPolar : Bool) (NumFrames : Int) (st : FClickOperator)
    (TriggerFrame : Int) : Option FClickOperator :=
  if TriggerFrame < NumFrames then
    if InputBiPolar then
      (writeAtInt st.OutputImpulse TriggerFrame (if st.SignalIsPositive then 1 else -1)).map
        fun Out => { OutputImpulse := Out, SignalIsPositive := !st.SignalIsPositive }
    else
      (writeAtInt st.OutputImpulse TriggerFrame 1).map
        fun Out => { OutputImpulse := Out, SignalIsPositive := st.SignalIsPositive }
  else some st

/-- Modelled from the spec: the engine's `FTrigger::ExecuteBlock` is not part
of the sources; by the trigger-event interface it walks the finite, forward-only
sequence of the block's trigger frames and calls the on-trigger callback once
per event, in order.  The pre-trigger callback of `Execute` is empty and is
left out. -/
def FTrigger.ExecuteBlock {σ : Type} (OnTrigger : σ → Int → Option σ) : List Int → σ → Option σ
  | [], st => some st
  | TriggerFrame :: rest, st => (OnTrigger st TriggerFrame).bind (FTrigger.ExecuteBlock OnTrigger rest)

/-- `FClickOperator::Execute` (lines 130-162): zero the whole output buffer,
then apply the trigger events of the block. -/
def FClickOperator.Execute (st : FClickOperator) (InputTrigger : List Int) (InputBiPolar : Bool) :
    Option FClickOperator :=
  let NumFrames : Int := st.OutputImpulse.length
  FTrigger.ExecuteBlock (FClickOperator.onTrigger InputBiPolar NumFrames) InputTrigger
    { OutputImpulse := List.replicate st.OutputImpulse.length 0
      SignalIsPositive := st.SignalIsPositive }

/-- Successive `Execute` calls, one per block `(trigger frames, bipolar)`; the
result lists the operator after each block. -/
def FClickOperator.ExecuteBlocks :
    FClickOperator → List (List Int × Bool) → Option (List FClickOperator)
  | _, [] => some []
  | st, blk :: rest =>
    (FClickOperator.Execute st blk.1 blk.2).bind fun st1 =>
    (FClickOperator.ExecuteBlocks st1 rest).map fun sts => st1 :: sts

/-- The impulses of a stretch of output: its non-zero samples, in time order. -/
def impulses (out : List ℚ) : List ℚ :=
  out.filter fun x => x ≠ 0

/-- Every sample a click operator emitted over a sequence of blocks, in time
order; `states` lists the operator after each block. -/
def clickLifetimeOutput (states : List FClickOperator) : List ℚ :=
  (states.map fun st => st.OutputImpulse).flatten

/-- The value of an impulse of the given polarity. -/
def impulseValue (positive : Bool) : ℚ :=
  if positive then 1 else -1

/-- The alternating train of `m` impulses that starts with the given polarity. -/
def alternating : Bool → Nat → List ℚ
  | _, 0 => []
  | b, m + 1 => impulseValue b :: alternating (!b) m

/-- The polarity flag after `m` bipolar impulses. -/
def polarityAfter : Bool → Nat → Bool
  | b, 0 => b
  | b, m + 1 => polarityAfter (!b) m

/-! ## Wave Reader (`MetasoundWaveReaderNode.cpp`) -/

/-- Bounds-checked load through a signed (`int32`) index; a negative index is
out of range. -/
def readAtInt {α : Type} (xs : List α) (i : Int) : Option α :=
  if 0 ≤ i then xs[i.toNat]? else none

/-- Engine `FMath::Max(A, B)`: `(B < A) ? A : B`. -/
def FMath.Max {α : Type} [LT α] [DecidableRel (fun a b : α => a < b)] (A B : α) : α :=
  if B < A then A else B

/-- Engine `FMath::Min(A, B)`: `(A < B) ? A : B`. -/
def FMath.Min {α : Type} [LT α] [DecidableRel (fun a b : α => a < b)] (A B : α) : α :=
  if A < B then A else B

/-- Engine `FMath::Clamp(X, MinValue, MaxValue)`: `Max(Min(X, MaxValue), MinValue)`. -/
def FMath.Clamp {α : Type} [LT α] [DecidableRel (fun a b : α => a < b)] (X MinValue MaxValue : α) : α :=
  FMath.Max (FMath.Min X MaxValue) MinValue

/-- Engine `FMath::FloorToInt`: the greatest integer not above the argument. -/
def FMath.FloorToInt (X : ℚ) : Int :=
  ⌊X⌋

/-- Engine `FMath::Lerp(A, B, Alpha)`: `A + Alpha * (B - A)`. -/
def FMath.Lerp {α : Type} [Add α] [Sub α] [Mul α] (A B Alpha : α) : α :=
  A + Alpha * (B - A)

/-- `FMemory::Memzero` over the first `n` samples of a buffer. -/
def memzero (xs : List ℚ) (n : Nat) : Option (List ℚ) :=
  if n ≤ xs.length then some (List.replicate n 0 ++ xs.drop n) else none

/-- How many low bits a natural number loses when it is stored with the 24-bit
significand of single precision: its bit length less 24. -/
def lostBits (n : Nat) : Nat :=
  (Nat.log2 n + 1) - 24

/-- The natural number nearest to `n` that fits a 24-bit significand, ties going
to the even significand. -/
def roundSingle (n : Nat) : Nat :=
  let s := lostBits n
  let q := n / 2 ^ s
  let r := n % 2 ^ s
  if 2 ^ s < 2 * r ∨ (2 * r = 2 ^ s ∧ q % 2 = 1) then (q + 1) * 2 ^ s else q * 2 ^ s

/-- The conversion `(float)n` of an `int32` to single precision: round to
nearest, ties to even.  It is exact up to `2 ^ 24` in absolute value. -/
def castToFloat (n : Int) : ℚ :=
  if 0 ≤ n then (roundSingle n.toNat : ℚ) else -(roundSingle (-n).toNat : ℚ)

/-- The conversion of an integer over exact arithmetic: nothing is rounded. -/
def exactCast (n : Int) : ℚ :=
  n

/-- The rational `q` is a single-precision value: a significand below `2 ^ 24`
in absolute value times a power of two. -/
def IsSingle (q : ℚ) : Prop :=
  ∃ (m : Int) (e : Int), |m| < 2 ^ 24 ∧ q = (m : ℚ) * (2 : ℚ) ^ e

/-- The members of a wave reader: the block size of its operator settings, its
output buffer, and what `Initialize` decoded. -/
structure FWaveReaderOperator where
  NumFramesPerBlock : Nat
  OutputSignal : List ℚ
  InterleavedWaveData : List ℚ
  DeinterleavedWaveData : List (List ℚ)
  NumChannels : Int
  WaveSampleRate : Int
  TotalNumFrames : Int
deriving DecidableEq

/-- `FWaveReaderOperator::GetSampleAtPosition` (lines 230-247).  `ToFloat` is
the conversion of an `int32` to `float`, used by `(float)TotalNumFrames` in the
range test and by `static_cast<float>(Index1)` in the fraction. -/
def FWaveReaderOperator.GetSampleAtPosition (st : FWaveReaderOperator) (ToFloat : Int → ℚ)
    (PositionInFrames : ℚ) : Option ℚ :=
  if PositionInFrames < 0 ∨ PositionInFrames ≥ ToFloat st.TotalNumFrames then some 0
  else
    (st.DeinterleavedWaveData[0]?).bind fun ChannelData =>
    let Index1 := FMath.Clamp (FMath.FloorToInt PositionInFrames) 0 (st.TotalNumFrames - 1)
    let Index2 := FMath.Min (Index1 + 1) (st.TotalNumFrames - 1)
    let Fraction := PositionInFrames - ToFloat Index1
    (readAtInt ChannelData Index1).bind fun A =>
    (readAtInt ChannelData Index2).bind fun B =>
    some (FMath.Lerp A B Fraction)

/-- The frame loop of `Execute` (lines 132-141): `n` iterations remain and the
next one is `FrameIndex`. -/
def FWaveReaderOperator.frameLoop (st : FWaveReaderOperator) (ToFloat : Int → ℚ)
    (PositionData : List ℚ) : Nat → Nat → List ℚ → Option (List ℚ)
  | 0, _, OutputData => some OutputData
  | n + 1, FrameIndex, OutputData =>
    (PositionData[FrameIndex]?).bind fun PositionInFrames =>
    (st.GetSampleAtPosition ToFloat PositionInFrames).bind fun SampleValue =>
    (writeAt OutputData FrameIndex SampleValue).bind
      (FWaveReaderOperator.frameLoop st ToFloat PositionData n (FrameIndex + 1))

/-- `FWaveReaderOperator::Execute` (lines 119-142). -/
def FWaveReaderOperator.Execute (st : FWaveReaderOperator) (ToFloat : Int → ℚ)
    (PositionData : List ℚ) : Option FWaveReaderOperator :=
  let NumFrames := st.NumFramesPerBlock
  if st.TotalNumFrames = 0 then
    (memzero st.OutputSignal NumFrames).map fun Out => { st with OutputSignal := Out }
  else
    (FWaveReaderOperator.frameLoop st ToFloat PositionData NumFrames 0 st.OutputSignal).map
      fun Out => { st with OutputSignal := Out }

/-- Successive `Execute` calls, one per position block; the result lists the
operator after each block. -/
def FWaveReaderOperator.ExecuteBlocks (ToFloat : Int → ℚ) :
    FWaveReaderOperator → List (List ℚ) → Option (List FWaveReaderOperator)
  | _, [] => some []
  | st, PositionData :: rest =>
    (FWaveReaderOperator.Execute st ToFloat PositionData).bind fun st1 =>
    (FWaveReaderOperator.ExecuteBlocks ToFloat st1 rest).map fun sts => st1 :: sts

/-- The state `Loaded`: at least one frame was decoded and channel 0 of the
table holds exactly `TotalNumFrames` samples. -/
def FWaveReaderOperator.Loaded (st : FWaveReaderOperator) : Prop :=
  1 ≤ st.TotalNumFrames ∧
  ∃ ch0, st.DeinterleavedWaveData[0]? = some ch0 ∧ (ch0.length : Int) = st.TotalNumFrames

/-- The state `Empty`: no frame was decoded. -/
def FWaveReaderOperator.Empty (st : FWaveReaderOperator) : Prop :=
  st.TotalNumFrames = 0

/-- The output buffer holds one block, as the constructor allocates it. -/
def FWaveReaderOperator.BlockSized (st : FWaveReaderOperator) : Prop :=
  st.OutputSignal.length = st.NumFramesPerBlock

/-- A wave reader in the state `Loaded` whose table is `[0, 10, 20]`, the
scenario of the specification, with blocks of two frames. -/
def waveScenario : FWaveReaderOperator :=
  { NumFramesPerBlock := 2
    OutputSignal := [0, 0]
    InterleavedWaveData := [0, 10, 20]
    DeinterleavedWaveData := [[0, 10, 20]]
    NumChannels := 1
    WaveSampleRate := 48000
    TotalNumFrames := 3 }

/-- A wave reader in the state `Empty` (nothing decoded) with blocks of two
frames and a stale output buffer. -/
def waveEmptyScenario : FWaveReaderOperator :=
  { NumFramesPerBlock := 2
    OutputSignal := [7, -3]
    InterleavedWaveData := []
    DeinterleavedWaveData := []
    NumChannels := 0
    WaveSampleRate := 0
    TotalNumFrames := 0 }

/-! ## Stereo CrossRouter (`MetasoundStereoCrossRouterNode.cpp`)

The operator is generic in its sample type `α`; the engine functions
`FMath::Cos`, `FMath::Sin` and the engine constant `HALF_PI` are parameters. -/

/-- The members a cross router owns: its four output buffers. -/
structure FCrossRouterOperator (α : Type) where
  OutputLeft1 : List α
  OutputRight1 : List α
  OutputLeft2 : List α
  OutputRight2 : List α

/-- The constructor (lines 29-42): four fresh output buffers of one block. -/
def FCrossRouterOperator.Construct {α : Type} [Zero α] (NumFramesPerBlock : Nat) :
    FCrossRouterOperator α :=
  { OutputLeft1 := List.replicate NumFramesPerBlock 0
    OutputRight1 := List.replicate NumFramesPerBlock 0
    OutputLeft2 := List.replicate NumFramesPerBlock 0
    OutputRight2 := List.replicate NumFramesPerBlock 0 }

/-- Line 144 of `Execute`: `CrossfadeFactor = FMath::Clamp(*InputCrossfade, 0.0f, 1.0f)`. -/
def FCrossRouterOperator.CrossfadeFactor {α : Type} [LinearOrderedField α] (InputCrossfade : α) : α :=
  FMath.Clamp InputCrossfade 0 1

/-- Line 146 of `Execute`: `Gain1 = FMath::Cos(CrossfadeFactor * HALF_PI)`. -/
def FCrossRouterOperator.Gain1 {α : Type} [LinearOrderedField α] (Cos : α → α) (HALF_PI : α)
    (InputCrossfade : α) : α :=
  Cos (FCrossRouterOperator.CrossfadeFactor InputCrossfade * HALF_PI)

/-- Line 147 of `Execute`: `Gain2 = FMath::Sin(CrossfadeFactor * HALF_PI)`. -/
def FCrossRouterOperator.Gain2 {α : Type} [LinearOrderedField α] (Sin : α → α) (HALF_PI : α)
    (InputCrossfade : α) : α :=
  Sin (FCrossRouterOperator.CrossfadeFactor InputCrossfade * HALF_PI)

/-- The frame loop of `Execute` (lines 149-155): `n` iterations remain and the
next one is frame `i`. -/
def FCrossRouterOperator.frameLoop {α : Type} [Mul α] (LeftData RightData : List α)
    (Gain1 Gain2 : α) : Nat → Nat → FCrossRouterOperator α → Option (FCrossRouterOperator α)
  | 0, _, st => some st
  | n + 1, i, st =>
    (LeftData[i]?).bind fun L =>
    (RightData[i]?).bind fun R =>
    (writeAt st.OutputLeft1 i (L * Gain1)).bind fun OutLeft1 =>
    (writeAt st.OutputRight1 i (R * Gain1)).bind fun OutRight1 =>
    (writeAt st.OutputLeft2 i (L * Gain2)).bind fun OutLeft2 =>
    (writeAt st.OutputRight2 i (R * Gain2)).bind fun OutRight2 =>
    FCrossRouterOperator.frameLoop LeftData RightData Gain1 Gain2 n (i + 1)
      { OutputLeft1 := OutLeft1, OutputRight1 := OutRight1
        OutputLeft2 := OutLeft2, OutputRight2 := OutRight2 }

/-- `FCrossRouterOperator::Execute` (lines 132-156). -/
def FCrossRouterOperator.Execute {α : Type} [LinearOrderedField α] (Cos Sin : α → α) (HALF_PI : α)
    (st : FCrossRouterOperator α) (LeftData RightData : List α) (InputCrossfade : α) :
    Option (FCrossRouterOperator α) :=
  let NumFrames := LeftData.length
  FCrossRouterOperator.frameLoop LeftData RightData
    (FCrossRouterOperator.Gain1 Cos HALF_PI InputCrossfade)
    (FCrossRouterOperator.Gain2 Sin HALF_PI InputCrossfade) NumFrames 0 st

/-- Both input buffers and the four output buffers hold `N` frames. -/
def FCrossRouterOperator.Shaped {α : Type} (N : Nat) (st : FCrossRouterOperator α)
    (LeftData RightData : List α) : Prop :=
  LeftData.length = N ∧ RightData.length = N ∧
  st.OutputLeft1.length = N ∧ st.OutputRight1.length = N ∧
  st.OutputLeft2.length = N ∧ st.OutputRight2.length = N

/-- The sample of a buffer just before frame `k`; before the first frame it is
`init`, the value carried over from the previous block. -/
def sampleBefore (init : ℚ) (xs : List ℚ) : Nat → ℚ
  | 0 => init
  | k + 1 => xs.getD k 0

/-- A bank with no signal/comparator pair at all. -/
def sahEmptyBank : FSahBankInputs :=
  { InputSignals := []
    InputTriggers := []
    InputThreshold := 0 }

/-- The block `A ++ B`: channel by channel the frames of `A` followed by the
frames of `B`, under the threshold of `A`. -/
def FSahBankInputs.append (A B : FSahBankInputs) : FSahBankInputs :=
  { InputSignals := List.zipWith (fun a b => a ++ b) A.InputSignals B.InputSignals
    InputTriggers := List.zipWith (fun a b => a ++ b) A.InputTriggers B.InputTriggers
    InputThreshold := A.InputThreshold }

/-- The first half of the scenario of the specification as a block of two
frames: signal `[10,20]`, comparator `[0,1]`, threshold `0.5`. -/
def sahBlockA : FSahBankInputs :=
  { InputSignals := [[10, 20]]
    InputTriggers := [[0, 1]]
    InputThreshold := 1 / 2 }

/-- The second half of the scenario: signal `[30,40]`, comparator `[1,0]`,
threshold `0.5`. -/
def sahBlockB : FSahBankInputs :=
  { InputSignals := [[30, 40]]
    InputTriggers := [[1, 0]]
    InputThreshold := 1 / 2 }

/-! ### Wave reader: decoding the asset -/

/-- Engine `TArray::SetNum(n)`: keep the first `n` elements and fill up with
default-constructed ones; a negative `n` is out of range. -/
def setNum {α : Type} (xs : List α) (n : Int) (dflt : α) : Option (List α) :=
  if 0 ≤ n then some (xs.take n.toNat ++ List.replicate (n.toNat - xs.length) dflt) else none

/-- The loop of lines 216-219: `DeinterleavedWaveData[ChannelIndex].SetNum(NumFrames)`
for every channel; `n` iterations remain and the next one is `ChannelIndex`. -/
def FWaveReaderOperator.sizeLoop (NumFrames : Int) :
    Nat → Nat → List (List ℚ) → Option (List (List ℚ))
  | 0, _, Table => some Table
  | n + 1, ChannelIndex, Table =>
    (Table[ChannelIndex]?).bind fun Row =>
    (setNum Row NumFrames 0).bind fun Row1 =>
    FWaveReaderOperator.sizeLoop NumFrames n (ChannelIndex + 1) (Table.set ChannelIndex Row1)

/-- The inner loop of lines 223-226 at frame `FrameIndex`:
`DeinterleavedWaveData[ChannelIndex][FrameIndex] =
InterleavedWaveData[FrameIndex * NumChannels + ChannelIndex]`; `n` iterations
remain and the next one is `ChannelIndex`. -/
def FWaveReaderOperator.deinterleaveChannelLoop (Interleaved : List ℚ) (NumChannels : Int)
    (FrameIndex : Nat) : Nat → Nat → List (List ℚ) → Option (List (List ℚ))
  | 0, _, Table => some Table
  | n + 1, ChannelIndex, Table =>
    (readAtInt Interleaved ((FrameIndex : Int) * NumChannels + (ChannelIndex : Int))).bind
      fun Sample =>
    (Table[ChannelIndex]?).bind fun Row =>
    (writeAt Row FrameIndex Sample).bind fun Row1 =>
    FWaveReaderOperator.deinterleaveChannelLoop Interleaved NumChannels FrameIndex n
      (ChannelIndex + 1) (Table.set ChannelIndex Row1)

/-- The outer loop of lines 221-227; `n` iterations remain and the next one is
`FrameIndex`. -/
def FWaveReaderOperator.deinterleaveFrameLoop (Interleaved : List ℚ) (NumChannels : Int) :
    Nat → Nat → List (List ℚ) → Option (List (List ℚ))
  | 0, _, Table => some Table
  | n + 1, FrameIndex, Table =>
    (FWaveReaderOperator.deinterleaveChannelLoop Interleaved NumChannels FrameIndex
      NumChannels.toNat 0 Table).bind
      (FWaveReaderOperator.deinterleaveFrameLoop Interleaved NumChannels n (FrameIndex + 1))

/-- `FWaveReaderOperator::DeinterleaveWaveData` (lines 204-228).  The division
of two `int32` truncates. -/
def FWaveReaderOperator.DeinterleaveWaveData (st : FWaveReaderOperator) :
    Option FWaveReaderOperator :=
  let NumSamples : Int := st.InterleavedWaveData.length
  if st.NumChannels = 0 then some st
  else
    let NumFrames := Int.tdiv NumSamples st.NumChannels
    (setNum st.DeinterleavedWaveData st.NumChannels []).bind fun Table0 =>
    (FWaveReaderOperator.sizeLoop NumFrames st.NumChannels.toNat 0 Table0).bind fun Table1 =>
    (FWaveReaderOperator.deinterleaveFrameLoop st.InterleavedWaveData st.NumChannels
      NumFrames.toNat 0 Table1).map fun Table2 =>
    { st with TotalNumFrames := NumFrames, DeinterleavedWaveData := Table2 }

/-- Modelled from the spec: what one streaming pull of the decoder delivers, by
the wave-asset interface "a streaming pull operation returning a chunk of
interleaved samples and an end/failure signal": the value `PopAudio` returns,
the content of `TempBuffer` after the call, and `HasFailed()` after the call. -/
structure FDecodedChunk where
  NumFramesRead : Int
  TempBuffer : List ℚ
  HasFailed : Bool

/-- Modelled from the spec: the wave asset handle with its decoder, which are
engine objects outside the sources.  By the wave-asset interface it exposes a
validity check (of the proxy and of the reader created from it), the finite
sequence of chunks its streaming pulls deliver, and a channel count and sample
rate.  Once the chunks are used up a pull delivers no frames and no failure. -/
structure FWaveAsset where
  ProxyIsValid : Bool
  ReaderIsValid : Bool
  Chunks : List FDecodedChunk
  NumChannels : Int
  SampleRate : Int

/-- The decode loop of `Initialize` (lines 173-188), `do ... while
(NumFramesRead > 0)`, over the chunks still to come: the result is whether the
loop left through `HasFailed()` and the interleaved data collected. -/
def FWaveReaderOperator.popLoop : List FDecodedChunk → List ℚ → Bool × List ℚ
  | [], Interleaved => (false, Interleaved)
  | Chunk :: rest, Interleaved =>
    let Interleaved1 :=
      if Chunk.NumFramesRead > 0 then Interleaved ++ Chunk.TempBuffer else Interleaved
    if Chunk.HasFailed then (true, Interleaved1)
    else if Chunk.NumFramesRead > 0 then FWaveReaderOperator.popLoop rest Interleaved1
    else (false, Interleaved1)

/-- `FWaveReaderOperator::Initialize` (lines 145-202). -/
def FWaveReaderOperator.Initialize (st : FWaveReaderOperator) (InputWaveAsset : FWaveAsset) :
    Option FWaveReaderOperator :=
  if InputWaveAsset.ProxyIsValid then
    if !InputWaveAsset.ReaderIsValid then
      some { st with NumChannels := 0, TotalNumFrames := 0 }
    else
      let Popped := FWaveReaderOperator.popLoop InputWaveAsset.Chunks []
      if Popped.1 then
        some { st with InterleavedWaveData := Popped.2, NumChannels := 0, TotalNumFrames := 0 }
      else
        FWaveReaderOperator.DeinterleaveWaveData
          { st with InterleavedWaveData := Popped.2
                    NumChannels := InputWaveAsset.NumChannels
                    WaveSampleRate := InputWaveAsset.SampleRate }
  else
    some { st with NumChannels := 0, TotalNumFrames := 0 }

/-- The members of a reader when the body of its constructor is entered: an
output buffer of one block (`CreateNew(InSettings)`) and the member defaults of
lines 258-262. -/
def FWaveReaderOperator.Defaults (NumFramesPerBlock : Nat) : FWaveReaderOperator :=
  { NumFramesPerBlock := NumFramesPerBlock
    OutputSignal := List.replicate NumFramesPerBlock 0
    InterleavedWaveData := []
    DeinterleavedWaveData := []
    NumChannels := 0
    WaveSampleRate := 0
    TotalNumFrames := 0 }

/-- The constructor `FWaveReaderOperator::FWaveReaderOperator` (lines 28-38):
the members are set up, then `Initialize()` runs. -/
def FWaveReaderOperator.Construct (NumFramesPerBlock : Nat) (InWaveAsset : FWaveAsset) :
    Option FWaveReaderOperator :=
  FWaveReaderOperator.Initialize (FWaveReaderOperator.Defaults NumFramesPerBlock) InWaveAsset

/-- The sample of channel `c` at frame `f` of a table, when both are in range. -/
def cell (Table : List (List ℚ)) (c f : Nat) : Option ℚ :=
  (Table[c]?).bind fun Row => Row[f]?

/-- A table of `C` channel arrays of `F` samples each. -/
def RowsShaped (C F : Nat) (Table : List (List ℚ)) : Prop :=
  Table.length = C ∧ ∀ Row ∈ Table, Row.length = F

/-- A stereo asset whose decoder delivers five samples in two chunks. -/
def waveStereoAsset : FWaveAsset :=
  { ProxyIsValid := true
    ReaderIsValid := true
    Chunks := [{ NumFramesRead := 2, TempBuffer := [1, 2, 3, 4], HasFailed := false },
               { NumFramesRead := 1, TempBuffer := [5], HasFailed := false },
               { NumFramesRead := 0, TempBuffer := [], HasFailed := false }]
    NumChannels := 2
    SampleRate := 48000 }

/-- A valid stereo asset that decodes without failure to no sample at all. -/
def waveSilentStereoAsset : FWaveAsset :=
  { ProxyIsValid := true
    ReaderIsValid := true
    Chunks := [{ NumFramesRead := 0, TempBuffer := [], HasFailed := false }]
    NumChannels := 2
    SampleRate := 48000 }

/-- A reader about to de-interleave five decoded samples of a stereo asset. -/
def waveInterleavedScenario : FWaveReaderOperator :=
  { NumFramesPerBlock := 2
    OutputSignal := [0, 0]
    InterleavedWaveData := [1, 2, 3, 4, 5]
    DeinterleavedWaveData := []
    NumChannels := 2
    WaveSampleRate := 48000
    TotalNumFrames := 0 }

/-- A stereo asset whose decoder reports a failure at its second chunk. -/
def waveFailingAsset : FWaveAsset :=
  { ProxyIsValid := true
    ReaderIsValid := true
    Chunks := [{ NumFramesRead := 2, TempBuffer := [1, 2, 3, 4], HasFailed := false },
               { NumFramesRead := 1, TempBuffer := [5, 6], HasFailed := true },
               { NumFramesRead := 0, TempBuffer := [], HasFailed := false }]
    NumChannels := 2
    SampleRate := 48000 }

end Metasound

/-! # Theorems -/

namespace Metasound

/-! ## List facts used by the loop lemmas -/

theorem take_succ_set {α : Type} (l : List α) (i : Nat) (v : α) (h : i < l.length) :
    (l.set i v).take (i + 1) = l.take i ++ [v] := by
  induction l generalizing i with
  | nil => simp at h
  | cons a l ih =>
    cases i with
    | zero => simp
    | succ i => simp at h; simp [ih i h]

theorem drop_succ_set {α : Type} (l : List α) (i : Nat) (v : α) :
    (l.set i v).drop (i + 1) = l.drop (i + 1) := by
  induction l generalizing i with
  | nil => simp
  | cons a l ih =>
    cases i with
    | zero => simp
    | succ i => simp [ih i]

theorem writeAt_eq {α : Type} (xs : List α) (i : Nat) (v : α) (h : i < xs.length) :
    writeAt xs i v = some (xs.set i v) := by
  simp [writeAt, h]

/-! ## SaH bank: the frame loop -/

theorem sahTrace_length (st : ℚ × ℚ) (xs : List (ℚ × ℚ × ℚ)) :
    (sahTrace st xs).length = xs.length := by
  induction xs generalizing st with
  | nil => rfl
  | cons x xs ih => simp [sahTrace, ih]

theorem sahTrace_append (st : ℚ × ℚ) (xs ys : List (ℚ × ℚ × ℚ)) :
    sahTrace st (xs ++ ys) = sahTrace st xs ++ sahTrace (xs.foldl sahStep st) ys := by
  induction xs generalizing st with
  | nil => rfl
  | cons x xs ih => simp [sahTrace, ih]

/-- One pass of the frame-loop body, all indices in range. -/
theorem frameBody_eq (thr : ℚ) (c : Nat) (sig trig : List ℚ) (i : Nat) (s : SahLoopState)
    (h p a b : ℚ)
    (hh : s.SampledValues[c]? = some h) (hp : s.PreviousTriggerValues[c]? = some p)
    (ha : sig[i]? = some a) (hb : trig[i]? = some b) (ho : i < s.OutputData.length) :
    FSahBankOperator.frameBody thr c sig trig i s =
      some { OutputData := s.OutputData.set i (sahStep (h, p) (thr, a, b)).1
             SampledValues := s.SampledValues.set c (sahStep (h, p) (thr, a, b)).1
             PreviousTriggerValues := s.PreviousTriggerValues.set c (sahStep (h, p) (thr, a, b)).2 } := by
  have hc1 : c < s.SampledValues.length := by
    by_contra hlt
    rw [List.getElem?_eq_none (by omega)] at hh
    cases hh
  have hc2 : c < s.PreviousTriggerValues.length := by
    by_contra hlt
    rw [List.getElem?_eq_none (by omega)] at hp
    cases hp
  have hself : s.SampledValues.set c h = s.SampledValues := by
    apply List.ext_getElem?
    intro j
    by_cases hj : c = j
    · subst hj; simp [List.getElem?_set, hc1, hh]
    · simp [List.getElem?_set, hj]
  unfold FSahBankOperator.frameBody
  simp only [hb, hp, ha, Option.some_bind, Option.bind_eq_bind]
  by_cases hedge : p < thr ∧ b ≥ thr
  · simp [sahStep, hedge, writeAt_eq, hc1, hc2, ho]
  · simp only [hedge, if_false, sahStep, Option.some_bind, hh, hself]
    simp [writeAt_eq, hc2, ho]

theorem set_getElem?_self {α : Type} (l : List α) (c : Nat) (h : α) (hh : l[c]? = some h) :
    l.set c h = l := by
  apply List.ext_getElem?
  intro j
  by_cases hj : c = j
  · subst hj
    have hc : c < l.length := by
      by_contra hlt
      rw [List.getElem?_eq_none (by omega)] at hh
      cases hh
    simp [List.getElem?_set, hc, hh]
  · simp [List.getElem?_set, hj]

theorem getElem?_lt_length {α : Type} (l : List α) (c : Nat) (h : α) (hh : l[c]? = some h) :
    c < l.length := by
  by_contra hlt
  rw [List.getElem?_eq_none (by omega)] at hh
  cases hh

/-- The frames of one channel: the threshold paired with the two buffers. -/
theorem frames_drop (thr : ℚ) (sig trig : List ℚ) (i : Nat) (a b : ℚ)
    (ha : sig[i]? = some a) (hb : trig[i]? = some b) :
    (List.zipWith (fun s t => (thr, s, t)) sig trig).drop i =
      (thr, a, b) :: (List.zipWith (fun s t => (thr, s, t)) sig trig).drop (i + 1) := by
  have h1 := getElem?_lt_length _ _ _ ha
  have h2 := getElem?_lt_length _ _ _ hb
  have hlen : i < (List.zipWith (fun s t => (thr, s, t)) sig trig).length := by
    simp [List.length_zipWith]; omega
  rw [List.drop_eq_getElem_cons hlen]
  congr 1
  rw [List.getElem?_eq_getElem h1] at ha
  rw [List.getElem?_eq_getElem h2] at hb
  simp only [Option.some.injEq] at ha hb
  simp [List.getElem_zipWith, ha, hb]

/-- The frame loop run to the end of the buffers: it overwrites the output from
frame `i` on with the trace of the channel and leaves the folded pair in slot
`c` of the two state arrays. -/
theorem frameLoop_eq (thr : ℚ) (c : Nat) (sig trig : List ℚ) (L : Nat)
    (hsig : sig.length = L) (htrig : trig.length = L) :
    ∀ (n i : Nat) (s : SahLoopState) (h p : ℚ), i + n = L → s.OutputData.length = L →
      s.SampledValues[c]? = some h → s.PreviousTriggerValues[c]? = some p →
      FSahBankOperator.frameLoop thr c sig trig n i s =
        some { OutputData := s.OutputData.take i ++
                 sahTrace (h, p) ((List.zipWith (fun s t => (thr, s, t)) sig trig).drop i)
               SampledValues := s.SampledValues.set c
                 (((List.zipWith (fun s t => (thr, s, t)) sig trig).drop i).foldl sahStep (h, p)).1
               PreviousTriggerValues := s.PreviousTriggerValues.set c
                 (((List.zipWith (fun s t => (thr, s, t)) sig trig).drop i).foldl sahStep (h, p)).2 } := by
  intro n
  induction n with
  | zero =>
    intro i s h p hi ho hh hp
    have hdrop : (List.zipWith (fun s t => (thr, s, t)) sig trig).drop i = [] := by
      apply List.drop_of_length_le
      simp [List.length_zipWith]; omega
    have htake : s.OutputData.take i = s.OutputData := List.take_of_length_le (by omega)
    simp [FSahBankOperator.frameLoop, hdrop, htake, sahTrace, set_getElem?_self _ _ _ hh,
      set_getElem?_self _ _ _ hp]
  | succ n ih =>
    intro i s h p hi ho hh hp
    have hia : i < sig.length := by omega
    have hib : i < trig.length := by omega
    have ha : sig[i]? = some sig[i] := List.getElem?_eq_getElem hia
    have hb : trig[i]? = some trig[i] := List.getElem?_eq_getElem hib
    have hc1 := getElem?_lt_length _ _ _ hh
    have hc2 := getElem?_lt_length _ _ _ hp
    rw [FSahBankOperator.frameLoop, frameBody_eq thr c sig trig i s h p _ _ hh hp ha hb (by omega)]
    simp only [Option.some_bind]
    rw [ih (i + 1) _ (sahStep (h, p) (thr, sig[i], trig[i])).1 (sahStep (h, p) (thr, sig[i], trig[i])).2
      (by omega) (by simp [ho]) (by simp [List.getElem?_set, hc1]) (by simp [List.getElem?_set, hc2])]
    rw [frames_drop thr sig trig i _ _ ha hb]
    simp [sahTrace, take_succ_set _ _ _ (show i < s.OutputData.length by omega), List.set_set]

/-! ## SaH bank: the channel loop and `Execute` -/

theorem mem_set_length {N : Nat} (l : List (List ℚ)) (c : Nat) (v : List ℚ)
    (hl : ∀ o ∈ l, o.length = N) (hv : v.length = N) : ∀ o ∈ l.set c v, o.length = N := by
  intro o ho
  rcases List.mem_or_eq_of_mem_set ho with h | h
  · exact hl o h
  · rw [h]; exact hv

/-- One pass of the channel-loop body on a well-shaped bank. -/
theorem channelBody_eq (n N : Nat) (inp : FSahBankInputs) (st : FSahBankOperator) (c : Nat)
    (h p : ℚ) (hinp : inp.Shaped n N) (hst : st.Shaped n N) (hc : c < n)
    (hh : st.SampledValues[c]? = some h) (hp : st.PreviousTriggerValues[c]? = some p) :
    FSahBankOperator.channelBody inp N c st =
      some { OutputSignals := st.OutputSignals.set c (sahTrace (h, p) (inp.channelFrames c))
             SampledValues := st.SampledValues.set c ((inp.channelFrames c).foldl sahStep (h, p)).1
             PreviousTriggerValues :=
               st.PreviousTriggerValues.set c ((inp.channelFrames c).foldl sahStep (h, p)).2 } := by
  obtain ⟨hs1, hs2, hs3, hs4⟩ := hinp
  obtain ⟨ho1, ho2, _, _⟩ := hst
  have hcs : c < inp.InputSignals.length := by omega
  have hct : c < inp.InputTriggers.length := by omega
  have hco : c < st.OutputSignals.length := by omega
  have e1 : inp.InputSignals[c]? = some inp.InputSignals[c] := List.getElem?_eq_getElem hcs
  have e2 : inp.InputTriggers[c]? = some inp.InputTriggers[c] := List.getElem?_eq_getElem hct
  have e3 : st.OutputSignals[c]? = some st.OutputSignals[c] := List.getElem?_eq_getElem hco
  have l1 : inp.InputSignals[c].length = N := hs3 _ (List.getElem_mem _)
  have l2 : inp.InputTriggers[c].length = N := hs4 _ (List.getElem_mem _)
  have l3 : st.OutputSignals[c].length = N := ho2 _ (List.getElem_mem _)
  unfold FSahBankOperator.channelBody
  simp only [e1, e2, e3, Option.some_bind]
  rw [frameLoop_eq inp.InputThreshold c _ _ N l1 l2 N 0 _ h p (by omega) l3 hh hp]
  simp [FSahBankInputs.channelFrames, e1, e2]

theorem channelBody_shaped (n N : Nat) (inp : FSahBankInputs) (st : FSahBankOperator) (c : Nat)
    (h p : ℚ) (hinp : inp.Shaped n N) (hst : st.Shaped n N) (hc : c < n) :
    FSahBankOperator.Shaped n N
      { OutputSignals := st.OutputSignals.set c (sahTrace (h, p) (inp.channelFrames c))
        SampledValues := st.SampledValues.set c ((inp.channelFrames c).foldl sahStep (h, p)).1
        PreviousTriggerValues :=
          st.PreviousTriggerValues.set c ((inp.channelFrames c).foldl sahStep (h, p)).2 } := by
  obtain ⟨hs1, hs2, hs3, hs4⟩ := hinp
  obtain ⟨ho1, ho2, ho3, ho4⟩ := hst
  have hcs : c < inp.InputSignals.length := by omega
  have hct : c < inp.InputTriggers.length := by omega
  have l1 : inp.InputSignals[c].length = N := hs3 _ (List.getElem_mem _)
  have l2 : inp.InputTriggers[c].length = N := hs4 _ (List.getElem_mem _)
  refine ⟨by simpa using ho1, ?_, by simpa using ho3, by simpa using ho4⟩
  apply mem_set_length _ _ _ ho2
  simp [sahTrace_length, FSahBankInputs.channelFrames, List.getElem?_eq_getElem hcs,
    List.getElem?_eq_getElem hct, l1, l2]

/-- The channel loop from channel `c0` to the last one: every channel from `c0`
on gets its trace and its folded pair, the channels below `c0` are untouched. -/
theorem channelLoop_eq (n N : Nat) (inp : FSahBankInputs) (hinp : inp.Shaped n N) :
    ∀ (m c0 : Nat) (st : FSahBankOperator), c0 + m = n → st.Shaped n N →
      ∃ st1, FSahBankOperator.channelLoop inp N m c0 st = some st1 ∧ st1.Shaped n N ∧
        ∀ c h p, st.SampledValues[c]? = some h → st.PreviousTriggerValues[c]? = some p →
          (c0 ≤ c →
            st1.OutputSignals[c]? = some (sahTrace (h, p) (inp.channelFrames c)) ∧
            st1.SampledValues[c]? = some ((inp.channelFrames c).foldl sahStep (h, p)).1 ∧
            st1.PreviousTriggerValues[c]? = some ((inp.channelFrames c).foldl sahStep (h, p)).2) ∧
          (c < c0 →
            st1.OutputSignals[c]? = st.OutputSignals[c]? ∧
            st1.SampledValues[c]? = some h ∧ st1.PreviousTriggerValues[c]? = some p) := by
  intro m
  induction m with
  | zero =>
    intro c0 st hc0 hst
    refine ⟨st, rfl, hst, ?_⟩
    intro c h p hh hp
    refine ⟨fun hle => ?_, fun _ => ⟨rfl, hh, hp⟩⟩
    have := getElem?_lt_length _ _ _ hh
    have := hst.2.2.1
    omega
  | succ m ih =>
    intro c0 st hc0 hst
    have hc0n : c0 < n := by omega
    have hl1 : c0 < st.SampledValues.length := by rw [hst.2.2.1]; exact hc0n
    have hl2 : c0 < st.PreviousTriggerValues.length := by rw [hst.2.2.2]; exact hc0n
    have hl3 : c0 < st.OutputSignals.length := by rw [hst.1]; exact hc0n
    have hh0 : st.SampledValues[c0]? = some st.SampledValues[c0] := List.getElem?_eq_getElem hl1
    have hp0 : st.PreviousTriggerValues[c0]? = some st.PreviousTriggerValues[c0] :=
      List.getElem?_eq_getElem hl2
    obtain ⟨st1, hrun, hshape, hpt⟩ := ih (c0 + 1) _ (by omega)
      (channelBody_shaped n N inp st c0 st.SampledValues[c0] st.PreviousTriggerValues[c0]
        hinp hst hc0n)
    refine ⟨st1, ?_, hshape, ?_⟩
    · rw [FSahBankOperator.channelLoop, channelBody_eq n N inp st c0 _ _ hinp hst hc0n hh0 hp0]
      exact hrun
    · intro c h p hh hp
      by_cases hcc : c = c0
      · subst hcc
        rw [hh0] at hh
        rw [hp0] at hp
        simp only [Option.some.injEq] at hh hp
        subst hh hp
        have := (hpt c ((inp.channelFrames c).foldl sahStep
            (st.SampledValues[c], st.PreviousTriggerValues[c])).1
          ((inp.channelFrames c).foldl sahStep
            (st.SampledValues[c], st.PreviousTriggerValues[c])).2
          (by simp [List.getElem?_set, hl1]) (by simp [List.getElem?_set, hl2])).2 (by omega)
        refine ⟨fun _ => ⟨?_, this.2.1, this.2.2⟩, fun hlt => absurd hlt (by omega)⟩
        rw [this.1]
        simp [List.getElem?_set, hl3]
      · have hne : ¬ c0 = c := fun e => hcc e.symm
        have := hpt c h p (by simp [List.getElem?_set, hne, hh]) (by simp [List.getElem?_set, hne, hp])
        refine ⟨fun hle => this.1 (by omega), fun hlt => ?_⟩
        have h2 := this.2 (by omega)
        refine ⟨?_, h2.2.1, h2.2.2⟩
        rw [h2.1]
        simp [List.getElem?_set, hne]

/-- `Execute` on a well-shaped bank with at least one channel returns, and every
channel gets its trace and its folded pair. -/
theorem Execute_eq (n N : Nat) (inp : FSahBankInputs) (st : FSahBankOperator)
    (hn : 0 < n) (hinp : inp.Shaped n N) (hst : st.Shaped n N) :
    ∃ st1, FSahBankOperator.Execute st inp = some st1 ∧ st1.Shaped n N ∧
      ∀ c h p, st.SampledValues[c]? = some h → st.PreviousTriggerValues[c]? = some p →
        st1.OutputSignals[c]? = some (sahTrace (h, p) (inp.channelFrames c)) ∧
        st1.SampledValues[c]? = some ((inp.channelFrames c).foldl sahStep (h, p)).1 ∧
        st1.PreviousTriggerValues[c]? = some ((inp.channelFrames c).foldl sahStep (h, p)).2 := by
  have h0 : 0 < inp.InputSignals.length := by rw [hinp.1]; exact hn
  have e0 : inp.InputSignals[0]? = some inp.InputSignals[0] := List.getElem?_eq_getElem h0
  have l0 : inp.InputSignals[0].length = N := hinp.2.2.1 _ (List.getElem_mem _)
  obtain ⟨st1, hrun, hshape, hpt⟩ := channelLoop_eq n N inp hinp n 0 st (by omega) hst
  refine ⟨st1, ?_, hshape, fun c h p hh hp => (hpt c h p hh hp).1 (Nat.zero_le _)⟩
  unfold FSahBankOperator.Execute
  simp only [e0, Option.some_bind, l0, hinp.1]
  exact hrun

/-! ## SaH bank: a lifetime of blocks -/

theorem Construct_shaped (n N : Nat) (InSignals : List (List ℚ))
    (hlen : InSignals.length = n) (hN : ∀ s ∈ InSignals, s.length = N) :
    (FSahBankOperator.Construct InSignals).Shaped n N := by
  refine ⟨by simp [FSahBankOperator.Construct, hlen], ?_,
    by simp [FSahBankOperator.Construct, hlen], by simp [FSahBankOperator.Construct, hlen]⟩
  intro o ho
  simp only [FSahBankOperator.Construct, List.mem_map] at ho
  obtain ⟨s, hs, rfl⟩ := ho
  simp [hN s hs]

/-- Over a run of well-shaped blocks every `Execute` returns, and what a channel
emits over the run is its trace over all the frames it saw. -/
theorem ExecuteBlocks_eq (n N : Nat) (hn : 0 < n) :
    ∀ (blocks : List FSahBankInputs) (st : FSahBankOperator), st.Shaped n N →
      (∀ b ∈ blocks, b.Shaped n N) →
      ∃ states, FSahBankOperator.ExecuteBlocks st blocks = some states ∧
        states.length = blocks.length ∧
        ∀ c h p, st.SampledValues[c]? = some h → st.PreviousTriggerValues[c]? = some p →
          lifetimeOutput states c = sahTrace (h, p) (lifetimeFrames blocks c) := by
  intro blocks
  induction blocks with
  | nil =>
    intro st _ _
    exact ⟨[], rfl, rfl, fun c h p _ _ => by simp [lifetimeOutput, lifetimeFrames, sahTrace]⟩
  | cons b rest ih =>
    intro st hst hall
    obtain ⟨st1, hrun, hshape, hpt⟩ :=
      Execute_eq n N b st hn (hall b (List.mem_cons_self _ _)) hst
    obtain ⟨states, hruns, hlen, hout⟩ :=
      ih st1 hshape (fun b1 hb1 => hall b1 (List.mem_cons_of_mem _ hb1))
    refine ⟨st1 :: states, ?_, by simp [hlen], ?_⟩
    · simp [FSahBankOperator.ExecuteBlocks, hrun, hruns]
    · intro c h p hh hp
      obtain ⟨h1, h2, h3⟩ := hpt c h p hh hp
      have := hout c _ _ h2 h3
      simp only [lifetimeOutput, lifetimeFrames, List.map_cons, List.flatten_cons] at this ⊢
      rw [sahTrace_append, this, h1]
      rfl

/-! ## SaH bank: the trace holds the signal sample of the latest rising edge -/

theorem sahTrace_getElem? (xs : List (ℚ × ℚ × ℚ)) :
    ∀ (st : ℚ × ℚ) (i : Nat), i < xs.length →
      (sahTrace st xs)[i]? = some ((xs.take (i + 1)).foldl sahStep st).1 := by
  induction xs with
  | nil => intro st i hi; simp at hi
  | cons x xs ih =>
    intro st i hi
    cases i with
    | zero => simp [sahTrace]
    | succ i =>
      simp only [List.length_cons, Nat.add_lt_add_iff_right] at hi
      simp [sahTrace, ih _ i hi]

theorem foldl_take_succ (xs : List (ℚ × ℚ × ℚ)) (st : ℚ × ℚ) (i : Nat) (hi : i < xs.length) :
    (xs.take (i + 1)).foldl sahStep st = sahStep ((xs.take i).foldl sahStep st) xs[i] := by
  rw [List.take_succ, List.foldl_append, List.getElem?_eq_getElem hi]
  rfl

theorem foldl_take_snd (xs : List (ℚ × ℚ × ℚ)) (h0 : ℚ) (i : Nat) (hi : i ≤ xs.length) :
    ((xs.take i).foldl sahStep (h0, 0)).2 = prevComparator xs i := by
  cases i with
  | zero => rfl
  | succ i =>
    have hi1 : i < xs.length := by omega
    rw [foldl_take_succ xs _ i hi1]
    simp [sahStep, prevComparator, List.getElem?_eq_getElem hi1]

theorem risingEdgeAt_iff (xs : List (ℚ × ℚ × ℚ)) (k : Nat) (hk : k < xs.length) :
    RisingEdgeAt xs k ↔ prevComparator xs k < xs[k].1 ∧ xs[k].2.2 ≥ xs[k].1 := by
  simp [RisingEdgeAt, List.getElem?_eq_getElem hk]

/-- The held value after frame `i`, from the constructed pair `(0, 0)`: the
signal sample of the latest rising edge at or before `i`, or 0 without one. -/
theorem held_after (xs : List (ℚ × ℚ × ℚ)) :
    ∀ i, i < xs.length →
      (∃ k, k ≤ i ∧ RisingEdgeAt xs k ∧ (∀ j, k < j → j ≤ i → ¬ RisingEdgeAt xs j) ∧
        some ((xs.take (i + 1)).foldl sahStep (0, 0)).1 = signalAt xs k) ∨
      ((∀ k, k ≤ i → ¬ RisingEdgeAt xs k) ∧ ((xs.take (i + 1)).foldl sahStep (0, 0)).1 = 0) := by
  intro i
  induction i with
  | zero =>
    intro hi
    rw [foldl_take_succ xs _ 0 hi]
    by_cases he : RisingEdgeAt xs 0
    · left
      refine ⟨0, le_refl _, he, fun j h1 h2 => absurd h1 (by omega), ?_⟩
      have he1 := (risingEdgeAt_iff xs 0 hi).1 he
      simp only [prevComparator] at he1
      have hval : (sahStep (0, 0) xs[0]).1 = xs[0].2.1 := if_pos he1
      simp only [List.take_zero, List.foldl_nil]
      rw [hval]
      simp [signalAt, List.getElem?_eq_getElem hi]
    · right
      refine ⟨fun k hk => by rwa [Nat.le_zero.1 hk], ?_⟩
      have he1 := fun h => he ((risingEdgeAt_iff xs 0 hi).2 h)
      simp only [prevComparator] at he1
      have hval : (sahStep (0, 0) xs[0]).1 = 0 := if_neg he1
      simpa using hval
  | succ i ih =>
    intro hi
    have hi1 : i < xs.length := by omega
    rw [foldl_take_succ xs _ (i + 1) hi]
    have hprev := foldl_take_snd xs 0 (i + 1) (by omega)
    by_cases he : RisingEdgeAt xs (i + 1)
    · left
      refine ⟨i + 1, le_refl _, he, fun j h1 h2 => absurd h1 (by omega), ?_⟩
      have he1 := (risingEdgeAt_iff xs (i + 1) hi).1 he
      rw [← hprev] at he1
      have hval : (sahStep ((xs.take (i + 1)).foldl sahStep (0, 0)) xs[i + 1]).1 =
          xs[i + 1].2.1 := if_pos he1
      rw [hval]
      simp [signalAt, List.getElem?_eq_getElem hi]
    · have he1 := fun h => he ((risingEdgeAt_iff xs (i + 1) hi).2 h)
      rw [← hprev] at he1
      have hkeep : (sahStep ((xs.take (i + 1)).foldl sahStep (0, 0)) xs[i + 1]).1 =
          ((xs.take (i + 1)).foldl sahStep (0, 0)).1 := by
        simp only [sahStep]
        rw [if_neg he1]
      rw [hkeep]
      rcases ih hi1 with ⟨k, hk, hek, hno, hval⟩ | ⟨hno, hval⟩
      · left
        refine ⟨k, by omega, hek, fun j h1 h2 => ?_, hval⟩
        rcases Nat.lt_or_ge j (i + 1) with hlt | hge
        · exact hno j h1 (by omega)
        · have : j = i + 1 := by omega
          rw [this]; exact he
      · right
        refine ⟨fun k hk => ?_, hval⟩
        rcases Nat.lt_or_ge k (i + 1) with hlt | hge
        · exact hno k (by omega)
        · have : k = i + 1 := by omega
          rw [this]; exact he

theorem sahTrace_holdsLatestEdge (xs : List (ℚ × ℚ × ℚ)) :
    HoldsLatestEdge xs (sahTrace (0, 0) xs) := by
  refine ⟨sahTrace_length _ _, fun i hi => ?_⟩
  rw [sahTrace_getElem? xs _ i hi]
  rcases held_after xs i hi with ⟨k, hk, hek, hno, hval⟩ | ⟨hno, hval⟩
  · exact Or.inl ⟨k, hk, hek, hno, hval⟩
  · exact Or.inr ⟨hno, by rw [hval]⟩

theorem lifetimeFrames_length (n N : Nat) (c : Nat) (hc : c < n) :
    ∀ blocks : List FSahBankInputs, (∀ b ∈ blocks, b.Shaped n N) →
      (lifetimeFrames blocks c).length = blocks.length * N := by
  intro blocks
  induction blocks with
  | nil => intro _; simp [lifetimeFrames]
  | cons b rest ih =>
    intro hall
    obtain ⟨h1, h2, h3, h4⟩ := hall b (List.mem_cons_self _ _)
    have hcs : c < b.InputSignals.length := by omega
    have hct : c < b.InputTriggers.length := by omega
    have l1 : b.InputSignals[c].length = N := h3 _ (List.getElem_mem _)
    have l2 : b.InputTriggers[c].length = N := h4 _ (List.getElem_mem _)
    have := ih (fun b1 hb1 => hall b1 (List.mem_cons_of_mem _ hb1))
    simp only [lifetimeFrames, List.map_cons, List.flatten_cons, List.length_append] at this ⊢
    rw [this]
    simp [FSahBankInputs.channelFrames, List.getElem?_eq_getElem hcs,
      List.getElem?_eq_getElem hct, l1, l2]
    ring

/-! ## C1 -/

/-- C1: a bank constructed for `n ≥ 1` channels of `N` frames and run over any
sequence of blocks returns from every `Execute`, and over the lifetime of the
instance every channel emits, at each frame `i`, the signal sample of the most
recent frame `k ≤ i` with a rising edge (preceding comparator sample below the
threshold of the block of `k`, comparator sample at `k` at or above it, the
sample before the first frame being 0), and 0 when there is no such frame. -/
theorem sah_output_is_latest_rising_edge (n N : Nat) (InSignals : List (List ℚ))
    (blocks : List FSahBankInputs) (hn : 0 < n)
    (hlen : InSignals.length = n) (hN : ∀ s ∈ InSignals, s.length = N)
    (hblocks : ∀ b ∈ blocks, b.Shaped n N) :
    ∃ states,
      FSahBankOperator.ExecuteBlocks (FSahBankOperator.Construct InSignals) blocks = some states ∧
      states.length = blocks.length ∧
      ∀ c, c < n →
        (lifetimeFrames blocks c).length = blocks.length * N ∧
        HoldsLatestEdge (lifetimeFrames blocks c) (lifetimeOutput states c) := by
  obtain ⟨states, hrun, hl, hout⟩ :=
    ExecuteBlocks_eq n N hn blocks _ (Construct_shaped n N InSignals hlen hN) hblocks
  refine ⟨states, hrun, hl, fun c hc => ⟨lifetimeFrames_length n N c hc blocks hblocks, ?_⟩⟩
  have hz : ∀ l : List ℚ, l = List.replicate n 0 → l[c]? = some 0 := by
    intro l hl0
    rw [hl0, List.getElem?_replicate]
    simp [hc]
  rw [hout c 0 0 (hz _ (by simp [FSahBankOperator.Construct, hlen]))
    (hz _ (by simp [FSahBankOperator.Construct, hlen]))]
  exact sahTrace_holdsLatestEdge _

/-- C1 at the scenario of the specification: signal `[10,20,30,40]`, comparator
`[0,1,1,0]`, threshold `0.5`: the rising edge is at frame 1 and the block
emitted is `[0,20,20,20]`. -/
theorem sah_output_is_latest_rising_edge_witness :
    (FSahBankOperator.Execute (FSahBankOperator.Construct [[0, 0, 0, 0]]) sahScenario).map
        (fun st => st.OutputSignals) = some [[0, 20, 20, 20]] ∧
    ∃ states,
      FSahBankOperator.ExecuteBlocks (FSahBankOperator.Construct [[0, 0, 0, 0]]) [sahScenario] =
        some states ∧
      states.length = [sahScenario].length ∧
      ∀ c, c < 1 →
        (lifetimeFrames [sahScenario] c).length = [sahScenario].length * 4 ∧
        HoldsLatestEdge (lifetimeFrames [sahScenario] c) (lifetimeOutput states c) := by
  refine ⟨?_, sah_output_is_latest_rising_edge 1 4 [[0, 0, 0, 0]] [sahScenario] (by decide)
    (by simp) (by simp) (by simp [FSahBankInputs.Shaped, sahScenario])⟩
  norm_num [FSahBankOperator.Execute, FSahBankOperator.Construct, FSahBankOperator.channelLoop,
    FSahBankOperator.channelBody, FSahBankOperator.frameLoop, FSahBankOperator.frameBody, writeAt,
    List.replicate, sahScenario]

/-! ## Click: one trigger event, one block -/

/-- The on-trigger lambda at a non-negative frame, for a buffer of `N` frames. -/
theorem onTrigger_eq (bip : Bool) (N : Nat) (st : FClickOperator) (f : Int)
    (hN : st.OutputImpulse.length = N) (h0 : 0 ≤ f) :
    FClickOperator.onTrigger bip N st f =
      some (if f < N then
          { OutputImpulse :=
              st.OutputImpulse.set f.toNat (if bip then impulseValue st.SignalIsPositive else 1)
            SignalIsPositive := if bip then !st.SignalIsPositive else st.SignalIsPositive }
        else st) := by
  unfold FClickOperator.onTrigger
  by_cases hf : f < N
  · have hlt : f.toNat < st.OutputImpulse.length := by
      rw [hN]; omega
    cases bip <;> simp [hf, writeAtInt, writeAt, h0, hlt, impulseValue]
  · simp [hf]

theorem impulseValue_cases (b : Bool) : impulseValue b = 1 ∨ impulseValue b = -1 := by
  cases b <;> simp [impulseValue]

/-- The events of one block applied to a buffer of `N` frames: the run returns,
frames without an event keep their sample, frames with an event hold `+1` or
`-1`, and in unipolar mode they hold `+1` and the polarity flag is untouched. -/
theorem executeBlock_pointwise (bip : Bool) (N : Nat) :
    ∀ (events : List Int) (st : FClickOperator), st.OutputImpulse.length = N →
      (∀ f ∈ events, 0 ≤ f) →
      ∃ st1, FTrigger.ExecuteBlock (FClickOperator.onTrigger bip N) events st = some st1 ∧
        st1.OutputImpulse.length = N ∧
        (∀ i : Nat, (i : Int) ∉ events → st1.OutputImpulse[i]? = st.OutputImpulse[i]?) ∧
        (∀ i : Nat, i < N → (i : Int) ∈ events →
          st1.OutputImpulse[i]? = some 1 ∨ st1.OutputImpulse[i]? = some (-1)) ∧
        (bip = false →
          (∀ i : Nat, i < N → (i : Int) ∈ events → st1.OutputImpulse[i]? = some 1) ∧
          st1.SignalIsPositive = st.SignalIsPositive) := by
  intro events
  induction events with
  | nil =>
    intro st hN _
    exact ⟨st, rfl, hN, fun _ _ => rfl, fun i _ h => absurd h (List.not_mem_nil _),
      fun _ => ⟨fun i _ h => absurd h (List.not_mem_nil _), rfl⟩⟩
  | cons f rest ih =>
    intro st hN hnn
    have h0 : 0 ≤ f := hnn f (List.mem_cons_self _ _)
    have hstep := onTrigger_eq bip N st f hN h0
    -- the operator after this event
    obtain ⟨st1, hst1, hlen1, hother, hhere, hflag⟩ :
        ∃ st1, FClickOperator.onTrigger bip N st f = some st1 ∧ st1.OutputImpulse.length = N ∧
          (∀ i : Nat, (i : Int) ≠ f → st1.OutputImpulse[i]? = st.OutputImpulse[i]?) ∧
          (∀ i : Nat, i < N → (i : Int) = f →
            st1.OutputImpulse[i]? = some (if bip then impulseValue st.SignalIsPositive else 1)) ∧
          (bip = false → st1.SignalIsPositive = st.SignalIsPositive) := by
      refine ⟨_, hstep, ?_, ?_, ?_, ?_⟩
      · split
        · simpa using hN
        · exact hN
      · intro i hi
        split
        · have : ¬ f.toNat = i := by omega
          simp [List.getElem?_set, this]
        · rfl
      · intro i hi hif
        have hfN : f < N := by omega
        have : f.toNat = i := by omega
        simp [hfN, List.getElem?_set, this, hN, hi]
      · intro hb
        subst hb
        split <;> rfl
    obtain ⟨st2, hrun, hlen2, hkeep, hpm, huni⟩ :=
      ih st1 hlen1 (fun g hg => hnn g (List.mem_cons_of_mem _ hg))
    refine ⟨st2, ?_, hlen2, ?_, ?_, ?_⟩
    · simp [FTrigger.ExecuteBlock, hst1, hrun]
    · intro i hi
      rw [List.mem_cons, not_or] at hi
      rw [hkeep i hi.2, hother i hi.1]
    · intro i hiN hi
      by_cases hr : (i : Int) ∈ rest
      · exact hpm i hiN hr
      · have hif : (i : Int) = f := by
          rcases List.mem_cons.1 hi with h | h
          · exact h
          · exact absurd h hr
        rw [hkeep i hr, hhere i hiN hif]
        cases bip
        · left; rfl
        · rcases impulseValue_cases st.SignalIsPositive with h | h
          · left; simp [h]
          · right; simp [h]
    · intro hb
      obtain ⟨hone, hsame⟩ := huni hb
      refine ⟨fun i hiN hi => ?_, by rw [hsame, hflag hb]⟩
      by_cases hr : (i : Int) ∈ rest
      · exact hone i hiN hr
      · have hif : (i : Int) = f := by
          rcases List.mem_cons.1 hi with h | h
          · exact h
          · exact absurd h hr
        rw [hkeep i hr, hhere i hiN hif, hb]
        rfl

/-! ## Click: the impulse train of a bipolar block -/

theorem replicate_set_zero (z k : Nat) (v : ℚ) (hk : k < z) :
    (List.replicate z (0 : ℚ)).set k v =
      List.replicate k 0 ++ v :: List.replicate (z - k - 1) 0 := by
  induction z generalizing k with
  | zero => omega
  | succ z ih =>
    cases k with
    | zero => simp [List.replicate_succ]
    | succ k =>
      have hk1 : k < z := by omega
      have : z + 1 - (k + 1) - 1 = z - k - 1 := by omega
      simp [List.replicate_succ, ih k hk1, this]

theorem impulses_append (xs ys : List ℚ) : impulses (xs ++ ys) = impulses xs ++ impulses ys := by
  simp [impulses]

theorem impulses_replicate_zero (k : Nat) : impulses (List.replicate k 0) = [] := by
  simp [impulses, List.filter_replicate]

theorem impulseValue_ne_zero (b : Bool) : impulseValue b ≠ 0 := by
  cases b <;> simp [impulseValue]

theorem impulses_singleton (b : Bool) : impulses [impulseValue b] = [impulseValue b] := by
  simp [impulses, impulseValue_ne_zero]

theorem alternating_append (m k : Nat) :
    ∀ b, alternating b m ++ alternating (polarityAfter b m) k = alternating b (m + k) := by
  induction m with
  | zero => intro b; simp [alternating, polarityAfter]
  | succ m ih =>
    intro b
    have : m + 1 + k = (m + k) + 1 := by omega
    rw [this]
    simp [alternating, polarityAfter, ih (!b)]

theorem polarityAfter_add (m k : Nat) :
    ∀ b, polarityAfter (polarityAfter b m) k = polarityAfter b (m + k) := by
  induction m with
  | zero => intro b; simp [polarityAfter]
  | succ m ih =>
    intro b
    have : m + 1 + k = (m + k) + 1 := by omega
    rw [this]
    simp [polarityAfter, ih (!b)]

/-- A bipolar block whose events are strictly increasing, applied to a buffer
that is zero from the first event on: the impulses already in the buffer are
followed by an alternating train with one impulse per event inside the block. -/
theorem executeBlock_train (N : Nat) :
    ∀ (events : List Int) (pre : List ℚ) (z : Nat) (b : Bool), pre.length + z = N →
      (∀ f ∈ events, (pre.length : Int) ≤ f) → events.Pairwise (fun f g => f < g) →
      ∃ st1, FTrigger.ExecuteBlock (FClickOperator.onTrigger true N) events
          { OutputImpulse := pre ++ List.replicate z 0, SignalIsPositive := b } = some st1 ∧
        st1.OutputImpulse.length = N ∧
        impulses st1.OutputImpulse =
          impulses pre ++ alternating b (events.countP fun f : Int => f < N) ∧
        st1.SignalIsPositive = polarityAfter b (events.countP fun f : Int => f < N) := by
  intro events
  induction events with
  | nil =>
    intro pre z b hN _ _
    refine ⟨_, rfl, by simp [hN], ?_, rfl⟩
    simp [impulses_append, impulses_replicate_zero, alternating]
  | cons f rest ih =>
    intro pre z b hN hlo hsorted
    rw [List.pairwise_cons] at hsorted
    have hf := hlo f (List.mem_cons_self _ _)
    have h0 : 0 ≤ f := by omega
    have hlen : (pre ++ List.replicate z (0 : ℚ)).length = N := by simp [hN]
    have hstep := onTrigger_eq true N
      { OutputImpulse := pre ++ List.replicate z 0, SignalIsPositive := b } f hlen h0
    by_cases hfN : f < N
    · have hk : f.toNat - pre.length < z := by omega
      have hge : pre.length ≤ f.toNat := by omega
      have hbuf : (pre ++ List.replicate z (0 : ℚ)).set f.toNat (impulseValue b) =
          (pre ++ List.replicate (f.toNat - pre.length) 0 ++ [impulseValue b]) ++
            List.replicate (z - (f.toNat - pre.length) - 1) 0 := by
        rw [List.set_append_right _ _ hge, replicate_set_zero _ _ _ hk]
        simp
      obtain ⟨st1, hrun, hl1, himp, hpol⟩ :=
        ih (pre ++ List.replicate (f.toNat - pre.length) 0 ++ [impulseValue b])
          (z - (f.toNat - pre.length) - 1) (!b)
          (by simp; omega)
          (fun g hg => by
            have := hsorted.1 g hg
            simp
            omega)
          hsorted.2
      refine ⟨st1, ?_, hl1, ?_, ?_⟩
      · simp only [FTrigger.ExecuteBlock, hstep, Option.some_bind, hfN, if_true]
        simp only [hbuf]
        exact hrun
      · rw [himp]
        simp [impulses_append, impulses_replicate_zero, impulses_singleton, List.countP_cons, hfN,
          alternating]
      · rw [hpol]
        simp [List.countP_cons, hfN, polarityAfter]
    · obtain ⟨st1, hrun, hl1, himp, hpol⟩ :=
        ih pre z b hN
          (fun g hg => by
            have := hsorted.1 g hg
            omega)
          hsorted.2
      refine ⟨st1, ?_, hl1, ?_, ?_⟩
      · simp only [FTrigger.ExecuteBlock, hstep, Option.some_bind, hfN, if_false]
        exact hrun
      · rw [himp]
        simp [List.countP_cons, hfN]
      · rw [hpol]
        simp [List.countP_cons, hfN]

/-! ## Click: `Execute` over one block and over a run of blocks -/

theorem onTrigger_beyond (bip : Bool) (N : Int) (st : FClickOperator) (f : Int) (hf : N ≤ f) :
    FClickOperator.onTrigger bip N st f = some st := by
  have : ¬ f < N := by omega
  simp [FClickOperator.onTrigger, this]

theorem onTrigger_negative (bip : Bool) (N : Nat) (st : FClickOperator) (f : Int) (hf : f < 0) :
    FClickOperator.onTrigger bip N st f = none := by
  have h1 : f < N := by omega
  have h2 : ¬ 0 ≤ f := by omega
  cases bip <;> simp [FClickOperator.onTrigger, h1, writeAtInt, h2]

/-- A block whose run returns has no event at a negative frame. -/
theorem executeBlock_some_nonneg (bip : Bool) (N : Nat) :
    ∀ (events : List Int) (st st1 : FClickOperator),
      FTrigger.ExecuteBlock (FClickOperator.onTrigger bip N) events st = some st1 →
      ∀ f ∈ events, 0 ≤ f := by
  intro events
  induction events with
  | nil => intro _ _ _ f hf; exact absurd hf (List.not_mem_nil _)
  | cons g rest ih =>
    intro st st1 hrun f hf
    simp only [FTrigger.ExecuteBlock] at hrun
    rcases Option.bind_eq_some.1 hrun with ⟨st2, h2, hrest⟩
    rcases List.mem_cons.1 hf with h | h
    · by_contra hneg
      rw [onTrigger_negative bip N st g (by omega)] at h2
      cases h2
    · exact ih st2 st1 hrest f h

/-- Events at or beyond the block length can be dropped without changing the
outcome of the block. -/
theorem executeBlock_filter (bip : Bool) (N : Int) :
    ∀ (events : List Int) (st : FClickOperator),
      FTrigger.ExecuteBlock (FClickOperator.onTrigger bip N) events st =
        FTrigger.ExecuteBlock (FClickOperator.onTrigger bip N)
          (events.filter fun f : Int => f < N) st := by
  intro events
  induction events with
  | nil => intro st; rfl
  | cons f rest ih =>
    intro st
    by_cases hf : f < N
    · simp only [FTrigger.ExecuteBlock, List.filter_cons, hf, decide_True, if_true]
      cases FClickOperator.onTrigger bip N st f with
      | none => rfl
      | some st1 => exact ih st1
    · simp only [FTrigger.ExecuteBlock, List.filter_cons, hf, decide_False]
      rw [onTrigger_beyond bip N st f (by omega)]
      exact ih st

theorem alternating_chain (m : Nat) :
    ∀ b, List.Chain' (fun x y : ℚ => y = -x) (alternating b m) := by
  induction m with
  | zero => intro b; simp [alternating]
  | succ m ih =>
    intro b
    rw [alternating, List.chain'_cons']
    refine ⟨?_, ih (!b)⟩
    intro y hy
    cases m with
    | zero => simp [alternating] at hy
    | succ m =>
      simp only [alternating, List.head?_cons, Option.mem_def, Option.some.injEq] at hy
      rw [← hy]
      cases b <;> simp [impulseValue]

theorem alternating_mem (m : Nat) : ∀ b, ∀ x ∈ alternating b m, x = 1 ∨ x = -1 := by
  induction m with
  | zero => intro b x hx; simp [alternating] at hx
  | succ m ih =>
    intro b x hx
    rw [alternating, List.mem_cons] at hx
    rcases hx with h | h
    · rw [h]; exact impulseValue_cases b
    · exact ih (!b) x h

theorem alternating_length (m : Nat) : ∀ b, (alternating b m).length = m := by
  induction m with
  | zero => intro b; rfl
  | succ m ih => intro b; simp [alternating, ih (!b)]

/-- One bipolar block with strictly increasing, non-negative event frames. -/
theorem Execute_bipolar_train (st : FClickOperator) (events : List Int)
    (hnn : ∀ f ∈ events, 0 ≤ f) (hsorted : events.Pairwise fun f g => f < g) :
    ∃ st1, FClickOperator.Execute st events true = some st1 ∧
      st1.OutputImpulse.length = st.OutputImpulse.length ∧
      impulses st1.OutputImpulse = alternating st.SignalIsPositive
        (events.countP fun f : Int => f < st.OutputImpulse.length) ∧
      st1.SignalIsPositive = polarityAfter st.SignalIsPositive
        (events.countP fun f : Int => f < st.OutputImpulse.length) := by
  obtain ⟨st1, hrun, hlen, himp, hpol⟩ := executeBlock_train st.OutputImpulse.length events []
    st.OutputImpulse.length st.SignalIsPositive (by simp) (by simpa using hnn) hsorted
  refine ⟨st1, ?_, hlen, by simpa [impulses] using himp, hpol⟩
  simpa [FClickOperator.Execute] using hrun

/-- A run of bipolar blocks emits one alternating train: it starts with the
polarity of the flag and has one impulse per event inside its block. -/
theorem ExecuteBlocks_bipolar_train :
    ∀ (blocks : List (List Int)) (st : FClickOperator),
      (∀ ev ∈ blocks, ∀ f ∈ ev, 0 ≤ f) → (∀ ev ∈ blocks, ev.Pairwise fun f g => f < g) →
      ∃ states, FClickOperator.ExecuteBlocks st (blocks.map fun ev => (ev, true)) = some states ∧
        states.length = blocks.length ∧
        impulses (clickLifetimeOutput states) = alternating st.SignalIsPositive
          (blocks.map fun ev =>
            ev.countP fun f : Int => f < st.OutputImpulse.length).sum := by
  intro blocks
  induction blocks with
  | nil =>
    intro st _ _
    exact ⟨[], rfl, rfl, by simp [clickLifetimeOutput, impulses, alternating]⟩
  | cons ev rest ih =>
    intro st hnn hsorted
    obtain ⟨st1, hrun, hlen, himp, hpol⟩ := Execute_bipolar_train st ev
      (hnn ev (List.mem_cons_self _ _)) (hsorted ev (List.mem_cons_self _ _))
    obtain ⟨states, hruns, hl, htrain⟩ := ih st1
      (fun e he => hnn e (List.mem_cons_of_mem _ he))
      (fun e he => hsorted e (List.mem_cons_of_mem _ he))
    refine ⟨st1 :: states, ?_, by simp [hl], ?_⟩
    · simp [FClickOperator.ExecuteBlocks, hrun, hruns]
    · simp only [clickLifetimeOutput, List.map_cons, List.flatten_cons, impulses_append,
        List.sum_cons] at htrain ⊢
      rw [himp, htrain, hpol, hlen, alternating_append]

/-! ## C2 -/

/-- C2: with `bipolar = true` on every block, for every sequence of blocks whose
trigger frames are non-negative and strictly increasing within each block,
every `Execute` returns and the non-zero output samples, read in time order
across all blocks, form one alternating train: each impulse is `+1` or `-1` and
is the negation of the impulse before it, however many blocks (also blocks
without events) lie in between.  The train has one impulse per event inside its
block and starts with the polarity the flag had before the first block. -/
theorem click_bipolar_impulses_alternate (st : FClickOperator) (blocks : List (List Int))
    (hnn : ∀ ev ∈ blocks, ∀ f ∈ ev, 0 ≤ f)
    (hsorted : ∀ ev ∈ blocks, ev.Pairwise fun f g => f < g) :
    ∃ states, FClickOperator.ExecuteBlocks st (blocks.map fun ev => (ev, true)) = some states ∧
      states.length = blocks.length ∧
      List.Chain' (fun x y : ℚ => y = -x) (impulses (clickLifetimeOutput states)) ∧
      (∀ x ∈ impulses (clickLifetimeOutput states), x = 1 ∨ x = -1) ∧
      impulses (clickLifetimeOutput states) = alternating st.SignalIsPositive
        (blocks.map fun ev => ev.countP fun f : Int => f < st.OutputImpulse.length).sum := by
  obtain ⟨states, hrun, hlen, htrain⟩ := ExecuteBlocks_bipolar_train blocks st hnn hsorted
  refine ⟨states, hrun, hlen, ?_, ?_, htrain⟩
  · rw [htrain]; exact alternating_chain _ _
  · rw [htrain]; exact alternating_mem _ _

/-- C2 at the scenario of the specification: block size 8, events at frames 2
and 5 give `[0,0,1,0,0,-1,0,0]`, and a following block with an event at frame 0
gives `[1,0,0,0,0,0,0,0]`. -/
theorem click_bipolar_impulses_alternate_witness :
    FClickOperator.ExecuteBlocks (FClickOperator.Construct 8) [([2, 5], true), ([0], true)] =
      some [{ OutputImpulse := [0, 0, 1, 0, 0, -1, 0, 0], SignalIsPositive := true },
            { OutputImpulse := [1, 0, 0, 0, 0, 0, 0, 0], SignalIsPositive := false }] ∧
    ∃ states, FClickOperator.ExecuteBlocks (FClickOperator.Construct 8)
        ([[2, 5], [0]].map fun ev => (ev, true)) = some states ∧
      states.length = [[2, 5], [0]].length ∧
      List.Chain' (fun x y : ℚ => y = -x) (impulses (clickLifetimeOutput states)) ∧
      (∀ x ∈ impulses (clickLifetimeOutput states), x = 1 ∨ x = -1) ∧
      impulses (clickLifetimeOutput states) = alternating (FClickOperator.Construct 8).SignalIsPositive
        ([[2, 5], [0]].map fun ev =>
          ev.countP fun f : Int => f < (FClickOperator.Construct 8).OutputImpulse.length).sum := by
  refine ⟨?_, click_bipolar_impulses_alternate (FClickOperator.Construct 8) [[2, 5], [0]]
    (by decide) (by decide)⟩
  simp [FClickOperator.ExecuteBlocks, FClickOperator.Execute, FTrigger.ExecuteBlock,
    FClickOperator.onTrigger, writeAtInt, writeAt, FClickOperator.Construct, List.replicate]

/-! ## C3 -/

/-- C3: with `bipolar = false`, for every stored polarity, every previous
content of the output buffer and every trigger-event sequence: whenever
`Execute` returns, the output sample at every trigger frame `f` with
`0 ≤ f < block length` is exactly `+1`, no output sample is `-1` (each is 0 or
`+1`), and the polarity flag is unchanged; and `Execute` does return whenever
no trigger frame is negative. -/
theorem click_unipolar_impulse_is_one (st : FClickOperator) (events : List Int) :
    (∀ st1, FClickOperator.Execute st events false = some st1 →
      st1.OutputImpulse.length = st.OutputImpulse.length ∧
      st1.SignalIsPositive = st.SignalIsPositive ∧
      (∀ f ∈ events, 0 ≤ f → f < st.OutputImpulse.length →
        st1.OutputImpulse[f.toNat]? = some 1) ∧
      (∀ x ∈ st1.OutputImpulse, x = 0 ∨ x = 1)) ∧
    ((∀ f ∈ events, 0 ≤ f) → ∃ st1, FClickOperator.Execute st events false = some st1) := by
  have key : (∀ f ∈ events, 0 ≤ f) →
      ∃ st1, FClickOperator.Execute st events false = some st1 ∧
        st1.OutputImpulse.length = st.OutputImpulse.length ∧
        st1.SignalIsPositive = st.SignalIsPositive ∧
        (∀ f ∈ events, 0 ≤ f → f < st.OutputImpulse.length →
          st1.OutputImpulse[f.toNat]? = some 1) ∧
        (∀ x ∈ st1.OutputImpulse, x = 0 ∨ x = 1) := by
    intro hnn
    obtain ⟨st1, hrun, hlen, hkeep, _, huni⟩ :=
      executeBlock_pointwise false st.OutputImpulse.length events
        { OutputImpulse := List.replicate st.OutputImpulse.length 0
          SignalIsPositive := st.SignalIsPositive } (by simp) hnn
    obtain ⟨hone, hflag⟩ := huni rfl
    refine ⟨st1, by simpa [FClickOperator.Execute] using hrun, hlen, hflag, ?_, ?_⟩
    · intro f hf h0 hfN
      have hcast : ((f.toNat : Nat) : Int) = f := Int.toNat_of_nonneg h0
      exact hone f.toNat (by omega) (by rw [hcast]; exact hf)
    · intro x hx
      obtain ⟨i, hi, hxi⟩ := List.getElem_of_mem hx
      have hget : st1.OutputImpulse[i]? = some x := by
        rw [List.getElem?_eq_getElem hi, hxi]
      by_cases hev : (i : Int) ∈ events
      · rw [hone i (by omega) hev] at hget
        right
        exact (Option.some.inj hget).symm
      · rw [hkeep i hev] at hget
        simp only [List.getElem?_replicate] at hget
        split at hget
        · left
          exact (Option.some.inj hget).symm
        · cases hget
  refine ⟨fun st1 hrun => ?_, fun hnn => ?_⟩
  · have hnn : ∀ f ∈ events, 0 ≤ f :=
      executeBlock_some_nonneg false st.OutputImpulse.length events _ st1
        (by simpa [FClickOperator.Execute] using hrun)
    obtain ⟨st2, hrun2, hrest⟩ := key hnn
    rw [hrun] at hrun2
    cases hrun2
    exact hrest
  · obtain ⟨st1, hrun, _⟩ := key hnn
    exact ⟨st1, hrun⟩

/-- C3 at a concrete block: 4 frames, stored polarity negative, a stale output
buffer, unipolar events at frames 1, 3 and 7 (the last beyond the block). -/
theorem click_unipolar_impulse_is_one_witness :
    FClickOperator.Execute { OutputImpulse := [5, -1, 0, 2], SignalIsPositive := false }
        [1, 3, 7] false =
      some { OutputImpulse := [0, 1, 0, 1], SignalIsPositive := false } ∧
    ∃ st1, FClickOperator.Execute { OutputImpulse := [5, -1, 0, 2], SignalIsPositive := false }
        [1, 3, 7] false = some st1 :=
  ⟨by simp [FClickOperator.Execute, FTrigger.ExecuteBlock, FClickOperator.onTrigger, writeAtInt,
      writeAt, List.replicate],
    (click_unipolar_impulse_is_one { OutputImpulse := [5, -1, 0, 2], SignalIsPositive := false }
      [1, 3, 7]).2 (by decide)⟩

/-! ## C4 -/

/-- C4: in either mode, for every previous content of the output buffer and
every trigger-event sequence with non-negative frames, `Execute` returns and
frame `i` of the block is non-zero if and only if some event has trigger frame
`i`; every sample is 0, `+1` or `-1`, so a frame without an event is exactly 0
whatever the buffer held before.  Events at or beyond the block length change
nothing: the on-trigger step returns the operator as it was, and the block ends
as it would without them. -/
theorem click_output_nonzero_iff_event (st : FClickOperator) (events : List Int) (bip : Bool)
    (hnn : ∀ f ∈ events, 0 ≤ f) :
    ∃ st1, FClickOperator.Execute st events bip = some st1 ∧
      st1.OutputImpulse.length = st.OutputImpulse.length ∧
      (∀ i : Nat, i < st.OutputImpulse.length →
        ((i : Int) ∈ events ↔ ∃ x, st1.OutputImpulse[i]? = some x ∧ x ≠ 0) ∧
        (st1.OutputImpulse[i]? = some 0 ∨ st1.OutputImpulse[i]? = some 1 ∨
          st1.OutputImpulse[i]? = some (-1))) ∧
      (∀ (s : FClickOperator) (f : Int), (st.OutputImpulse.length : Int) ≤ f →
        FClickOperator.onTrigger bip st.OutputImpulse.length s f = some s) ∧
      FClickOperator.Execute st (events.filter fun f : Int => f < st.OutputImpulse.length) bip =
        some st1 := by
  obtain ⟨st1, hrun, hlen, hkeep, hpm, _⟩ :=
    executeBlock_pointwise bip st.OutputImpulse.length events
      { OutputImpulse := List.replicate st.OutputImpulse.length 0
        SignalIsPositive := st.SignalIsPositive } (by simp) hnn
  have hexec : FClickOperator.Execute st events bip = some st1 := by
    simpa [FClickOperator.Execute] using hrun
  refine ⟨st1, hexec, hlen, ?_, fun s f hf => onTrigger_beyond bip _ s f hf, ?_⟩
  · intro i hi
    by_cases hev : (i : Int) ∈ events
    · rcases hpm i hi hev with h | h
      · exact ⟨⟨fun _ => ⟨1, h, by norm_num⟩, fun _ => hev⟩, Or.inr (Or.inl h)⟩
      · exact ⟨⟨fun _ => ⟨-1, h, by norm_num⟩, fun _ => hev⟩, Or.inr (Or.inr h)⟩
    · have h0 : st1.OutputImpulse[i]? = some 0 := by
        rw [hkeep i hev]
        simp [List.getElem?_replicate, hi]
      refine ⟨⟨fun h => absurd h hev, ?_⟩, Or.inl h0⟩
      rintro ⟨x, hx, hne⟩
      rw [h0] at hx
      exact absurd (Option.some.inj hx).symm hne
  · rw [← hexec]
    simp only [FClickOperator.Execute]
    exact (executeBlock_filter bip _ events _).symm

/-- C4 at a concrete block: 4 frames, stored polarity negative, a stale output
buffer, bipolar events at frames 1, 3 and 7 (the last beyond the block). -/
theorem click_output_nonzero_iff_event_witness :
    FClickOperator.Execute { OutputImpulse := [5, -1, 0, 2], SignalIsPositive := false }
        [1, 3, 7] true =
      some { OutputImpulse := [0, -1, 0, 1], SignalIsPositive := false } ∧
    ∃ st1, FClickOperator.Execute { OutputImpulse := [5, -1, 0, 2], SignalIsPositive := false }
        [1, 3, 7] true = some st1 ∧
      st1.OutputImpulse.length = 4 ∧
      (∀ i : Nat, i < 4 →
        ((i : Int) ∈ [1, 3, 7] ↔ ∃ x, st1.OutputImpulse[i]? = some x ∧ x ≠ 0) ∧
        (st1.OutputImpulse[i]? = some 0 ∨ st1.OutputImpulse[i]? = some 1 ∨
          st1.OutputImpulse[i]? = some (-1))) ∧
      (∀ (s : FClickOperator) (f : Int), (4 : Int) ≤ f →
        FClickOperator.onTrigger true 4 s f = some s) ∧
      FClickOperator.Execute { OutputImpulse := [5, -1, 0, 2], SignalIsPositive := false }
        ([1, 3, 7].filter fun f : Int => f < 4) true = some st1 :=
  ⟨by simp [FClickOperator.Execute, FTrigger.ExecuteBlock, FClickOperator.onTrigger, writeAtInt,
      writeAt, List.replicate],
    click_output_nonzero_iff_event { OutputImpulse := [5, -1, 0, 2], SignalIsPositive := false }
      [1, 3, 7] true (by decide)⟩

/-! ## Conversion to single precision -/

theorem lostBits_lt (n : Nat) : n < 2 ^ (24 + lostBits n) := by
  have h := @Nat.lt_log2_self n
  have hle : n.log2 + 1 ≤ 24 + lostBits n := by unfold lostBits; omega
  exact lt_of_lt_of_le h (Nat.pow_le_pow_right (by norm_num) hle)

theorem lostBits_le (n : Nat) (hs : 1 ≤ lostBits n) : 2 ^ (23 + lostBits n) ≤ n := by
  have hn : n ≠ 0 := by
    rintro rfl
    simp [lostBits, Nat.log2] at hs
  have h := Nat.log2_self_le hn
  have he : n.log2 = 23 + lostBits n := by unfold lostBits at hs ⊢; omega
  rw [he] at h
  exact h

theorem lostBits_small (n : Nat) (hn : n < 2 ^ 24) : lostBits n = 0 := by
  by_cases h0 : n = 0
  · subst h0; simp [lostBits, Nat.log2]
  · have := (Nat.log2_lt h0).2 hn
    unfold lostBits
    omega

theorem log2_two_pow_24 : Nat.log2 16777216 = 24 := by
  have h := @Nat.log2_two_pow 24
  norm_num at h
  exact h

/-- Up to `2 ^ 24` every natural number fits the significand. -/
theorem roundSingle_small (n : Nat) (hn : n ≤ 2 ^ 24) : roundSingle n = n := by
  rcases Nat.lt_or_ge n (2 ^ 24) with h | h
  · simp [roundSingle, lostBits_small n h, Nat.mod_one]
  · have he : n = 16777216 := by omega
    have hs : lostBits 16777216 = 1 := by
      rw [lostBits, log2_two_pow_24]
    rw [he, roundSingle]
    simp only [hs]
    norm_num

/-- The conversion is exact on `0 .. 2 ^ 24`. -/
theorem castToFloat_exact (n : Int) (h0 : 0 ≤ n) (h1 : n ≤ 2 ^ 24) : castToFloat n = (n : ℚ) := by
  have hn : n.toNat ≤ 2 ^ 24 := by omega
  rw [castToFloat, if_pos h0, roundSingle_small _ hn]
  have : ((n.toNat : Nat) : Int) = n := Int.toNat_of_nonneg h0
  exact_mod_cast this

theorem castToFloat_zero : castToFloat 0 = 0 := by
  have h := castToFloat_exact 0 (le_refl 0) (by norm_num)
  rw [h]
  norm_num

theorem castToFloat_nonpos (n : Int) (h : n ≤ 0) : castToFloat n ≤ 0 := by
  rw [castToFloat]
  split
  · have : n = 0 := by omega
    subst this
    simp [roundSingle_small]
  · have : (0 : ℚ) ≤ (roundSingle (-n).toNat : ℚ) := by positivity
    linarith

theorem quotient_lt (n : Nat) : n / 2 ^ lostBits n < 2 ^ 24 := by
  rw [Nat.div_lt_iff_lt_mul (by positivity)]
  have := lostBits_lt n
  rw [pow_add] at this
  exact this

theorem quotient_ge (n : Nat) (hs : 1 ≤ lostBits n) : 2 ^ 23 ≤ n / 2 ^ lostBits n := by
  rw [Nat.le_div_iff_mul_le (by positivity)]
  have := lostBits_le n hs
  rw [pow_add] at this
  exact this

/-- The rounded value is one of the two neighbours of `n` on the grid of spacing
`2 ^ lostBits n`, and the upper one only when `n` is off the grid. -/
theorem roundSingle_cases (n : Nat) :
    roundSingle n = n / 2 ^ lostBits n * 2 ^ lostBits n ∨
    (roundSingle n = (n / 2 ^ lostBits n + 1) * 2 ^ lostBits n ∧ 1 ≤ lostBits n ∧
      n / 2 ^ lostBits n * 2 ^ lostBits n < n) := by
  unfold roundSingle
  simp only
  split
  · rename_i h
    right
    refine ⟨rfl, ?_, ?_⟩
    · by_contra hs
      have hs0 : lostBits n = 0 := by omega
      rw [hs0] at h
      simp [Nat.mod_one] at h
    · have hr : 0 < n % 2 ^ lostBits n := by
        have hp : 0 < 2 ^ lostBits n := by positivity
        rcases h with h | h
        · omega
        · omega
      have := Nat.div_add_mod n (2 ^ lostBits n)
      rw [Nat.mul_comm] at this
      omega
  · left; rfl

/-- A single-precision value at or above the natural number `n` is at or above
the rounded `n`: no single-precision value lies strictly between the two. -/
theorem single_ge_roundSingle (n : Nat) (p : ℚ) (hp : IsSingle p) (h : (n : ℚ) ≤ p) :
    (roundSingle n : ℚ) ≤ p := by
  rcases roundSingle_cases n with hr | ⟨hr, hs, hlt⟩
  · rw [hr]
    have hle : n / 2 ^ lostBits n * 2 ^ lostBits n ≤ n := Nat.div_mul_le_self _ _
    have : ((n / 2 ^ lostBits n * 2 ^ lostBits n : Nat) : ℚ) ≤ (n : ℚ) := by exact_mod_cast hle
    linarith
  · rw [hr]
    by_contra hcon
    rw [not_le] at hcon
    obtain ⟨m, e, hm, hpe⟩ := hp
    have hq1 := quotient_lt n
    have hq2 := quotient_ge n hs
    have hlow : ((n / 2 ^ lostBits n : Nat) : ℚ) * (2 : ℚ) ^ lostBits n < p := by
      have : ((n / 2 ^ lostBits n * 2 ^ lostBits n : Nat) : ℚ) < (n : ℚ) := by exact_mod_cast hlt
      push_cast at this
      linarith
    have hhigh : p < (((n / 2 ^ lostBits n : Nat) : ℚ) + 1) * (2 : ℚ) ^ lostBits n := by
      push_cast at hcon
      exact hcon
    have hpow : (0 : ℚ) < (2 : ℚ) ^ lostBits n := by positivity
    rcases le_or_lt (lostBits n : Int) e with he | he
    · obtain ⟨j, hj⟩ : ∃ j : Nat, e = (lostBits n : Int) + (j : Int) :=
        ⟨(e - lostBits n).toNat, by omega⟩
      obtain ⟨k, hk⟩ : ∃ k : Int, k = m * (2 : Int) ^ j := ⟨_, rfl⟩
      have hpk : p = (k : ℚ) * (2 : ℚ) ^ lostBits n := by
        rw [hpe, hj, zpow_add₀ (by norm_num), zpow_natCast, zpow_natCast, hk]
        push_cast
        ring
      rw [hpk] at hlow hhigh
      have h1 : (((n / 2 ^ lostBits n : Nat) : Int) : ℚ) < (k : ℚ) := by
        rw [Int.cast_natCast]
        exact lt_of_mul_lt_mul_right hlow hpow.le
      have h2 : (k : ℚ) < ((((n / 2 ^ lostBits n : Nat) : Int) + 1 : Int) : ℚ) := by
        rw [Int.cast_add, Int.cast_natCast, Int.cast_one]
        exact lt_of_mul_lt_mul_right hhigh hpow.le
      have h1z := Int.cast_lt.1 h1
      have h2z := Int.cast_lt.1 h2
      omega
    · have he1 : e ≤ (lostBits n : Int) - 1 := by omega
      have hmq : (m : ℚ) ≤ 2 ^ 24 := by
        have : m < 2 ^ 24 := lt_of_le_of_lt (le_abs_self m) hm
        exact_mod_cast this.le
      have hple : (2 : ℚ) ^ e ≤ (2 : ℚ) ^ ((lostBits n : Int) - 1) :=
        zpow_le_zpow_right₀ (by norm_num) he1
      have hpos : (0 : ℚ) < (2 : ℚ) ^ e := by positivity
      have hp1 : p ≤ 2 ^ 24 * (2 : ℚ) ^ ((lostBits n : Int) - 1) := by
        rw [hpe]
        calc (m : ℚ) * (2 : ℚ) ^ e ≤ 2 ^ 24 * (2 : ℚ) ^ e :=
              mul_le_mul_of_nonneg_right hmq hpos.le
          _ ≤ 2 ^ 24 * (2 : ℚ) ^ ((lostBits n : Int) - 1) :=
              mul_le_mul_of_nonneg_left hple (by positivity)
      have hsplit : (2 : ℚ) ^ ((lostBits n : Int) - 1) * 2 = (2 : ℚ) ^ lostBits n := by
        rw [zpow_sub_one₀ (by norm_num), zpow_natCast]
        field_simp
      have hq2q : (2 : ℚ) ^ 23 ≤ ((n / 2 ^ lostBits n : Nat) : ℚ) := by exact_mod_cast hq2
      have : (2 : ℚ) ^ 24 * (2 : ℚ) ^ ((lostBits n : Int) - 1) ≤
          ((n / 2 ^ lostBits n : Nat) : ℚ) * (2 : ℚ) ^ lostBits n := by
        rw [← hsplit]
        have hz : (0 : ℚ) < (2 : ℚ) ^ ((lostBits n : Int) - 1) := by positivity
        nlinarith
      linarith

/-- Rounding is monotone against single-precision values: a non-negative
single-precision value at or above the integer `n` is at or above `(float)n`. -/
theorem single_ge_castToFloat (n : Int) (p : ℚ) (hp : IsSingle p) (hp0 : 0 ≤ p)
    (h : (n : ℚ) ≤ p) : castToFloat n ≤ p := by
  rcases le_or_lt 0 n with h0 | h0
  · rw [castToFloat, if_pos h0]
    apply single_ge_roundSingle _ _ hp
    have : ((n.toNat : Nat) : Int) = n := Int.toNat_of_nonneg h0
    have h2 : ((n.toNat : Nat) : ℚ) = (n : ℚ) := by exact_mod_cast this
    rw [h2]
    exact h
  · exact le_trans (castToFloat_nonpos n h0.le) hp0

/-- A natural number that is a single-precision value lies on the grid that
rounding keeps. -/
theorem single_dvd (n : Nat) (hn : IsSingle (n : ℚ)) : 2 ^ lostBits n ∣ n := by
  rcases Nat.eq_zero_or_pos (lostBits n) with hs0 | hs
  · rw [hs0]
    exact one_dvd _
  · obtain ⟨m, e, hm, hpe⟩ := hn
    rcases le_or_lt (lostBits n : Int) e with he | he
    · obtain ⟨j, hj⟩ : ∃ j : Nat, e = (lostBits n : Int) + (j : Int) :=
        ⟨(e - lostBits n).toNat, by omega⟩
      obtain ⟨k, hk⟩ : ∃ k : Int, k = m * (2 : Int) ^ j := ⟨_, rfl⟩
      have hpk : ((n : Int) : ℚ) = ((k * (2 : Int) ^ lostBits n : Int) : ℚ) := by
        rw [Int.cast_natCast, hpe, hj, zpow_add₀ (by norm_num), zpow_natCast, zpow_natCast, hk]
        push_cast
        ring
      have hz : (n : Int) = k * (2 : Int) ^ lostBits n := Int.cast_injective hpk
      have hdvd : ((2 ^ lostBits n : Nat) : Int) ∣ (n : Int) := by
        rw [hz]
        push_cast
        exact dvd_mul_left _ _
      exact Int.natCast_dvd_natCast.1 hdvd
    · exfalso
      have he1 : e ≤ (lostBits n : Int) - 1 := by omega
      have hmq : (m : ℚ) < 2 ^ 24 := by
        have : m < 2 ^ 24 := lt_of_le_of_lt (le_abs_self m) hm
        exact_mod_cast this
      have hple : (2 : ℚ) ^ e ≤ (2 : ℚ) ^ ((lostBits n : Int) - 1) :=
        zpow_le_zpow_right₀ (by norm_num) he1
      have hpos : (0 : ℚ) < (2 : ℚ) ^ e := by positivity
      have hp1 : (n : ℚ) < 2 ^ 24 * (2 : ℚ) ^ ((lostBits n : Int) - 1) := by
        rw [hpe]
        calc (m : ℚ) * (2 : ℚ) ^ e < 2 ^ 24 * (2 : ℚ) ^ e :=
              mul_lt_mul_of_pos_right hmq hpos
          _ ≤ 2 ^ 24 * (2 : ℚ) ^ ((lostBits n : Int) - 1) :=
              mul_le_mul_of_nonneg_left hple (by positivity)
      have hsplit : (2 : ℚ) ^ ((lostBits n : Int) - 1) * 2 = (2 : ℚ) ^ lostBits n := by
        rw [zpow_sub_one₀ (by norm_num), zpow_natCast]
        field_simp
      have hge : ((2 ^ (23 + lostBits n) : Nat) : ℚ) ≤ (n : ℚ) := by
        exact_mod_cast lostBits_le n hs
      rw [pow_add] at hge
      push_cast at hge
      rw [← hsplit] at hge
      have hz : (0 : ℚ) < (2 : ℚ) ^ ((lostBits n : Int) - 1) := by positivity
      nlinarith

/-- Rounding leaves a single-precision natural number as it is. -/
theorem roundSingle_of_single (n : Nat) (hn : IsSingle (n : ℚ)) : roundSingle n = n := by
  have hdvd := single_dvd n hn
  have heq : n / 2 ^ lostBits n * 2 ^ lostBits n = n := Nat.div_mul_cancel hdvd
  rcases roundSingle_cases n with hr | ⟨_, _, hlt⟩
  · rw [hr, heq]
  · omega

/-- The conversion leaves a non-negative single-precision integer as it is. -/
theorem castToFloat_of_single (n : Int) (h0 : 0 ≤ n) (hn : IsSingle (n : ℚ)) :
    castToFloat n = (n : ℚ) := by
  have hc : ((n.toNat : Nat) : Int) = n := Int.toNat_of_nonneg h0
  have h2 : ((n.toNat : Nat) : ℚ) = (n : ℚ) := by exact_mod_cast hc
  rw [castToFloat, if_pos h0, roundSingle_of_single _ (by rw [h2]; exact hn), h2]

/-- Every integer in `0 .. 2 ^ 24 - 1` is a single-precision value. -/
theorem isSingle_of_small (n : Int) (h0 : 0 ≤ n) (h1 : n < 2 ^ 24) : IsSingle (n : ℚ) :=
  ⟨n, 0, by rw [abs_of_nonneg h0]; exact h1, by simp⟩

/-- The floor of a non-negative single-precision value is a single-precision
value. -/
theorem isSingle_floor (p : ℚ) (hp : IsSingle p) (h0 : 0 ≤ p) : IsSingle ((⌊p⌋ : Int) : ℚ) := by
  obtain ⟨m, e, hm, hpe⟩ := hp
  rcases le_or_lt 0 e with he | he
  · obtain ⟨j, hj⟩ : ∃ j : Nat, e = (j : Int) := ⟨e.toNat, by omega⟩
    have hint : p = ((m * (2 : Int) ^ j : Int) : ℚ) := by
      rw [hpe, hj, zpow_natCast]
      push_cast
      ring
    have hfl : ((⌊p⌋ : Int) : ℚ) = p := by
      rw [hint, Int.floor_intCast]
    rw [hfl]
    exact ⟨m, e, hm, hpe⟩
  · have hpos : (0 : ℚ) < (2 : ℚ) ^ e := by positivity
    have hle1 : (2 : ℚ) ^ e ≤ 1 := by
      have := zpow_le_zpow_right₀ (show (1 : ℚ) ≤ 2 by norm_num) he.le
      simpa using this
    have hm0 : (0 : ℚ) ≤ (m : ℚ) := by
      by_contra hneg
      rw [not_le] at hneg
      have : (m : ℚ) * (2 : ℚ) ^ e < 0 := mul_neg_of_neg_of_pos hneg hpos
      linarith
    have hmq : (m : ℚ) < 2 ^ 24 := by
      have : m < 2 ^ 24 := lt_of_le_of_lt (le_abs_self m) hm
      exact_mod_cast this
    have hp24 : p < ((2 ^ 24 : Int) : ℚ) := by
      push_cast
      rw [hpe]
      nlinarith
    have hf1 : ⌊p⌋ < 2 ^ 24 := Int.floor_lt.2 hp24
    exact isSingle_of_small ⌊p⌋ (Int.floor_nonneg.2 h0) hf1

/-- A non-negative single-precision position below `(float)T` is below `T`, and
the conversion of its floor is exact. -/
theorem single_below_count (T : Int) (p : ℚ) (hp : IsSingle p) (h0 : 0 ≤ p)
    (h1 : p < castToFloat T) : p < (T : ℚ) ∧ castToFloat ⌊p⌋ = ((⌊p⌋ : Int) : ℚ) := by
  constructor
  · by_contra hcon
    rw [not_lt] at hcon
    exact absurd h1 (not_lt.2 (single_ge_castToFloat T p hp h0 hcon))
  · exact castToFloat_of_single ⌊p⌋ (Int.floor_nonneg.2 h0) (isSingle_floor p hp h0)

/-- The range test of the lookup under the conversion to single precision: a
position outside `[0, T)` that is negative, or a single-precision value, or
tested against a count of at most `2 ^ 24`, passes the test of the code. -/
theorem out_of_range_castToFloat (T : Int) (p : ℚ) (hp : p < 0 ∨ p ≥ (T : ℚ))
    (hs : p < 0 ∨ IsSingle p ∨ T ≤ 2 ^ 24) : p < 0 ∨ p ≥ castToFloat T := by
  rcases lt_or_le p 0 with hneg | hp0
  · exact Or.inl hneg
  · right
    have hge : (T : ℚ) ≤ p := by
      rcases hp with h | h
      · exact absurd hp0 (not_le.2 h)
      · exact h
    rcases hs with h | h | h
    · exact absurd hp0 (not_le.2 h)
    · exact single_ge_castToFloat T p h hp0 hge
    · rcases le_or_lt 0 T with hT | hT
      · rw [ge_iff_le, castToFloat_exact T hT h]
        exact hge
      · exact le_trans (castToFloat_nonpos T hT.le) hp0

/-! ## Wave reader: the table lookup -/

theorem FMath_Min_eq (a b : Int) : FMath.Min a b = min a b := by
  unfold FMath.Min
  split <;> omega

theorem FMath_Max_eq (a b : Int) : FMath.Max a b = max a b := by
  unfold FMath.Max
  split <;> omega

theorem FMath_Clamp_eq (x lo hi : Int) : FMath.Clamp x lo hi = max lo (min x hi) := by
  rw [FMath.Clamp, FMath_Max_eq, FMath_Min_eq, max_comm]

theorem readAtInt_eq {α : Type} (xs : List α) (i : Int) (h0 : 0 ≤ i) (h1 : i < xs.length) :
    ∃ a, readAtInt xs i = some a ∧ xs[i.toNat]? = some a := by
  have hlt : i.toNat < xs.length := by omega
  exact ⟨xs[i.toNat], by simp [readAtInt, h0, List.getElem?_eq_getElem hlt],
    List.getElem?_eq_getElem hlt⟩

/-- A position that passes the range test yields 0, whatever the table is. -/
theorem getSample_out_of_range (st : FWaveReaderOperator) (ToFloat : Int → ℚ) (p : ℚ)
    (hp : p < 0 ∨ p ≥ ToFloat st.TotalNumFrames) :
    st.GetSampleAtPosition ToFloat p = some 0 := by
  simp only [FWaveReaderOperator.GetSampleAtPosition, if_pos hp]

/-- The floor of a position inside the table is a valid index, so the clamp
leaves it as it is. -/
theorem floor_in_range (T : Int) (p : ℚ) (h0 : 0 ≤ p) (h1 : p < (T : ℚ)) :
    0 ≤ ⌊p⌋ ∧ ⌊p⌋ ≤ T - 1 ∧ max 0 (min ⌊p⌋ (T - 1)) = ⌊p⌋ := by
  have hf0 : 0 ≤ ⌊p⌋ := Int.floor_nonneg.2 h0
  have hf1 : ⌊p⌋ < T := Int.floor_lt.2 h1
  refine ⟨hf0, by omega, ?_⟩
  rw [min_eq_left (by omega), max_eq_right hf0]

/-- The clamped index and its successor, clamped again, are valid indices of a
table of at least one frame, whatever is clamped. -/
theorem clamp_in_range (T x : Int) (hT : 1 ≤ T) :
    0 ≤ max 0 (min x (T - 1)) ∧ max 0 (min x (T - 1)) ≤ T - 1 ∧
    max 0 (min x (T - 1)) ≤ min (max 0 (min x (T - 1)) + 1) (T - 1) ∧
    min (max 0 (min x (T - 1)) + 1) (T - 1) ≤ T - 1 := by
  have h1 : 0 ≤ max 0 (min x (T - 1)) := le_max_left _ _
  have h2 : max 0 (min x (T - 1)) ≤ T - 1 := max_le (by omega) (min_le_right _ _)
  exact ⟨h1, h2, le_min (by omega) h2, min_le_right _ _⟩

/-- A position that fails the range test, on a loaded reader: both indices are
in range and the sample is the linear interpolation of the two table samples,
the fraction being the position less the converted lower index. -/
theorem getSample_lookup (st : FWaveReaderOperator) (ToFloat : Int → ℚ) (p : ℚ)
    (hloaded : st.Loaded) (h0 : 0 ≤ p) (h1 : p < ToFloat st.TotalNumFrames) :
    ∃ ch0 A B, st.DeinterleavedWaveData[0]? = some ch0 ∧
      readAtInt ch0 (max 0 (min ⌊p⌋ (st.TotalNumFrames - 1))) = some A ∧
      readAtInt ch0 (min (max 0 (min ⌊p⌋ (st.TotalNumFrames - 1)) + 1)
        (st.TotalNumFrames - 1)) = some B ∧
      st.GetSampleAtPosition ToFloat p =
        some (A + (p - ToFloat (max 0 (min ⌊p⌋ (st.TotalNumFrames - 1)))) * (B - A)) := by
  obtain ⟨hT, ch0, hch0, hlen⟩ := hloaded
  obtain ⟨hc0, hc1, hc2, hc3⟩ := clamp_in_range st.TotalNumFrames ⌊p⌋ hT
  obtain ⟨A, hA, _⟩ := readAtInt_eq ch0 (max 0 (min ⌊p⌋ (st.TotalNumFrames - 1)))
    hc0 (by omega)
  obtain ⟨B, hB, _⟩ := readAtInt_eq ch0
    (min (max 0 (min ⌊p⌋ (st.TotalNumFrames - 1)) + 1) (st.TotalNumFrames - 1))
    (by omega) (by omega)
  refine ⟨ch0, A, B, hch0, hA, hB, ?_⟩
  have hcond : ¬ (p < 0 ∨ p ≥ ToFloat st.TotalNumFrames) := by
    rintro (h | h)
    · exact absurd h0 (not_le.2 h)
    · exact absurd h1 (not_lt.2 h)
  simp only [FWaveReaderOperator.GetSampleAtPosition, if_neg hcond, hch0, Option.some_bind,
    FMath.FloorToInt, FMath_Clamp_eq, FMath_Min_eq, hA, hB, FMath.Lerp]

/-- Over exact arithmetic, a position inside the table of a loaded reader: both
indices are in range and the sample is the linear interpolation of the two
table samples. -/
theorem getSample_in_range (st : FWaveReaderOperator) (p : ℚ) (hloaded : st.Loaded)
    (h0 : 0 ≤ p) (h1 : p < (st.TotalNumFrames : ℚ)) :
    ∃ ch0 A B, st.DeinterleavedWaveData[0]? = some ch0 ∧
      readAtInt ch0 (max 0 (min ⌊p⌋ (st.TotalNumFrames - 1))) = some A ∧
      readAtInt ch0 (min (max 0 (min ⌊p⌋ (st.TotalNumFrames - 1)) + 1)
        (st.TotalNumFrames - 1)) = some B ∧
      st.GetSampleAtPosition exactCast p =
        some (A + (p - ((max 0 (min ⌊p⌋ (st.TotalNumFrames - 1)) : Int) : ℚ)) * (B - A)) :=
  getSample_lookup st exactCast p hloaded h0 h1

/-- Under the conversion to single precision, a single-precision position that
fails the range test lies inside the table, the clamp leaves its floor as it
is, and the fraction is the position less its floor. -/
theorem getSample_single (st : FWaveReaderOperator) (p : ℚ) (hloaded : st.Loaded)
    (hs : IsSingle p) (h0 : 0 ≤ p) (h1 : p < castToFloat st.TotalNumFrames) :
    p < (st.TotalNumFrames : ℚ) ∧ max 0 (min ⌊p⌋ (st.TotalNumFrames - 1)) = ⌊p⌋ ∧
    ∃ ch0 A B, st.DeinterleavedWaveData[0]? = some ch0 ∧
      readAtInt ch0 (max 0 (min ⌊p⌋ (st.TotalNumFrames - 1))) = some A ∧
      readAtInt ch0 (min (max 0 (min ⌊p⌋ (st.TotalNumFrames - 1)) + 1)
        (st.TotalNumFrames - 1)) = some B ∧
      st.GetSampleAtPosition castToFloat p =
        some (A + (p - ((max 0 (min ⌊p⌋ (st.TotalNumFrames - 1)) : Int) : ℚ)) * (B - A)) := by
  obtain ⟨hlt, hconv⟩ := single_below_count st.TotalNumFrames p hs h0 h1
  obtain ⟨_, _, hclamp⟩ := floor_in_range st.TotalNumFrames p h0 hlt
  obtain ⟨ch0, A, B, hch0, hA, hB, hval⟩ := getSample_lookup st castToFloat p hloaded h0 h1
  refine ⟨hlt, hclamp, ch0, A, B, hch0, hA, hB, ?_⟩
  rw [hval, hclamp, hconv]

/-- In the state `Loaded` the lookup returns for every position, whatever the
conversion. -/
theorem getSample_total (st : FWaveReaderOperator) (ToFloat : Int → ℚ) (hloaded : st.Loaded)
    (p : ℚ) : ∃ v, st.GetSampleAtPosition ToFloat p = some v := by
  by_cases hp : p < 0 ∨ p ≥ ToFloat st.TotalNumFrames
  · exact ⟨0, getSample_out_of_range st ToFloat p hp⟩
  · rw [not_or, not_lt, not_le] at hp
    obtain ⟨_, _, _, _, _, _, h⟩ := getSample_lookup st ToFloat p hloaded hp.1 hp.2
    exact ⟨_, h⟩

/-- The frame loop run to the end of the block writes, from `FrameIndex` on,
the looked-up sample of each position. -/
theorem wave_frameLoop_eq (st : FWaveReaderOperator) (ToFloat : Int → ℚ) (pos : List ℚ)
    (g : ℚ → ℚ) (hg : ∀ p ∈ pos, st.GetSampleAtPosition ToFloat p = some (g p)) :
    ∀ (n i : Nat) (out : List ℚ), i + n = pos.length → out.length = pos.length →
      FWaveReaderOperator.frameLoop st ToFloat pos n i out =
        some (out.take i ++ (pos.drop i).map g) := by
  intro n
  induction n with
  | zero =>
    intro i out hi ho
    have h1 : pos.drop i = [] := List.drop_of_length_le (by omega)
    have h2 : out.take i = out := List.take_of_length_le (by omega)
    simp [FWaveReaderOperator.frameLoop, h1, h2]
  | succ n ih =>
    intro i out hi ho
    have hip : i < pos.length := by omega
    have hio : i < out.length := by omega
    rw [FWaveReaderOperator.frameLoop, List.getElem?_eq_getElem hip]
    simp only [Option.some_bind, hg _ (List.getElem_mem _), writeAt_eq _ _ _ hio]
    rw [ih (i + 1) _ (by omega) (by simp [ho]), take_succ_set _ _ _ hio,
      List.drop_eq_getElem_cons hip]
    simp only [List.map_cons, List.append_assoc, List.singleton_append]

/-- `Execute` on a loaded reader: every frame of the block gets the looked-up
sample of its position, and nothing but the output buffer changes. -/
theorem wave_Execute_loaded (st : FWaveReaderOperator) (ToFloat : Int → ℚ) (hloaded : st.Loaded)
    (PositionData : List ℚ) (hpos : PositionData.length = st.NumFramesPerBlock)
    (hout : st.BlockSized) :
    ∃ st1, st.Execute ToFloat PositionData = some st1 ∧
      st1 = { st with OutputSignal := st1.OutputSignal } ∧
      st1.OutputSignal.map some = PositionData.map (st.GetSampleAtPosition ToFloat) := by
  have hg : ∀ p ∈ PositionData, st.GetSampleAtPosition ToFloat p =
      some ((st.GetSampleAtPosition ToFloat p).getD 0) := by
    intro p _
    obtain ⟨v, hv⟩ := getSample_total st ToFloat hloaded p
    rw [hv]; rfl
  have hne : ¬ st.TotalNumFrames = 0 := by
    have := hloaded.1
    omega
  have hloop := wave_frameLoop_eq st ToFloat PositionData _ hg st.NumFramesPerBlock 0
    st.OutputSignal (by omega) (by rw [hpos]; exact hout)
  refine ⟨{ st with OutputSignal :=
      PositionData.map fun p => (st.GetSampleAtPosition ToFloat p).getD 0 }, ?_, rfl, ?_⟩
  · simp only [FWaveReaderOperator.Execute, if_neg hne, hloop]
    simp
  · simp only [List.map_map]
    apply List.map_congr_left
    intro p hp
    exact (hg p hp).symm

theorem wave_Execute_keeps_table (s : FWaveReaderOperator) (ToFloat : Int → ℚ) (pos : List ℚ)
    (s1 : FWaveReaderOperator) (h : s.Execute ToFloat pos = some s1) :
    s1 = { s with OutputSignal := s1.OutputSignal } := by
  unfold FWaveReaderOperator.Execute at h
  split at h
  · obtain ⟨out, _, rfl⟩ := Option.map_eq_some'.1 h
    rfl
  · obtain ⟨out, _, rfl⟩ := Option.map_eq_some'.1 h
    rfl

theorem wave_Execute_empty (st : FWaveReaderOperator) (ToFloat : Int → ℚ) (hempty : st.Empty)
    (hout : st.BlockSized) (PositionData : List ℚ) :
    st.Execute ToFloat PositionData =
      some { st with OutputSignal := List.replicate st.NumFramesPerBlock 0 } := by
  have hT : st.TotalNumFrames = 0 := hempty
  have hlen : st.OutputSignal.length = st.NumFramesPerBlock := hout
  have hdrop : st.OutputSignal.drop st.NumFramesPerBlock = [] :=
    List.drop_of_length_le (by omega)
  simp [FWaveReaderOperator.Execute, hT, memzero, hlen, hdrop]

theorem waveScenario_loaded : waveScenario.Loaded :=
  ⟨by decide, [0, 10, 20], rfl, rfl⟩

theorem isSingle_one_half : IsSingle (1 / 2) :=
  ⟨1, -1, by norm_num, by norm_num⟩

theorem isSingle_five_halves : IsSingle (5 / 2) :=
  ⟨5, -1, by norm_num, by norm_num⟩

/-! ## Wave reader: a table of `2 ^ 24 + 1` frames -/

/-- C7: for every reader state and every position `p` with `p < 0` or
`p ≥ TotalNumFrames`, `GetSampleAtPosition` returns exactly 0, and it does so
whatever the table is, an empty table included, so no table element is read.
This holds over exact arithmetic for every rational `p`, and under the
conversion of the frame count to single precision for every `p` that is
negative or a single-precision value, and for every `p` when the frame count is
at most `2 ^ 24`. -/
theorem wave_out_of_range_is_zero (st : FWaveReaderOperator) (p : ℚ)
    (hp : p < 0 ∨ p ≥ (st.TotalNumFrames : ℚ)) :
    (st.GetSampleAtPosition exactCast p = some 0 ∧
      ∀ table : List (List ℚ),
        FWaveReaderOperator.GetSampleAtPosition { st with DeinterleavedWaveData := table }
          exactCast p = some 0) ∧
    (p < 0 ∨ IsSingle p ∨ st.TotalNumFrames ≤ 2 ^ 24 →
      st.GetSampleAtPosition castToFloat p = some 0 ∧
      ∀ table : List (List ℚ),
        FWaveReaderOperator.GetSampleAtPosition { st with DeinterleavedWaveData := table }
          castToFloat p = some 0) :=
  ⟨⟨getSample_out_of_range st exactCast p hp, fun _ => getSample_out_of_range _ exactCast p hp⟩,
    fun hs =>
      ⟨getSample_out_of_range st castToFloat p (out_of_range_castToFloat _ p hp hs),
        fun _ => getSample_out_of_range _ castToFloat p (out_of_range_castToFloat _ p hp hs)⟩⟩

/-- C7 at the table `[0, 10, 20]`: position 3, the frame count, returns 0. -/
theorem wave_out_of_range_is_zero_witness :
    waveScenario.GetSampleAtPosition castToFloat 3 = some 0 ∧
    ∀ table : List (List ℚ),
      FWaveReaderOperator.GetSampleAtPosition
        { waveScenario with DeinterleavedWaveData := table } castToFloat 3 = some 0 :=
  (wave_out_of_range_is_zero waveScenario 3 (Or.inr (by norm_num [waveScenario]))).2
    (Or.inr (Or.inr (by norm_num [waveScenario])))

/-! ## C8 -/

/-- C8: in the state `Empty`, for every position block (of any length and
content, so no position is read and no lookup is made) `Execute` returns with
an all-zero output block and everything else unchanged; `Execute` never changes
`TotalNumFrames` or the decoded table in any state; so an empty reader stays
empty and emits all-zero blocks over every run of later blocks.  All of it
holds whatever the conversion from integer to sample is. -/
theorem wave_empty_is_silent (st : FWaveReaderOperator) (hempty : st.Empty)
    (hout : st.BlockSized) :
    (∀ (ToFloat : Int → ℚ) (PositionData : List ℚ), st.Execute ToFloat PositionData =
      some { st with OutputSignal := List.replicate st.NumFramesPerBlock 0 }) ∧
    (∀ (ToFloat : Int → ℚ) (s s1 : FWaveReaderOperator) (pos : List ℚ),
      s.Execute ToFloat pos = some s1 →
      s1.TotalNumFrames = s.TotalNumFrames ∧
      s1.DeinterleavedWaveData = s.DeinterleavedWaveData) ∧
    (∀ (ToFloat : Int → ℚ) (blocks : List (List ℚ)), ∃ states,
      st.ExecuteBlocks ToFloat blocks = some states ∧
      states.length = blocks.length ∧
      ∀ s ∈ states, s.OutputSignal = List.replicate st.NumFramesPerBlock 0 ∧
        s.TotalNumFrames = 0 ∧ s.DeinterleavedWaveData = st.DeinterleavedWaveData) := by
  refine ⟨fun ToFloat => wave_Execute_empty st ToFloat hempty hout, ?_, ?_⟩
  · intro ToFloat s s1 pos h
    have := wave_Execute_keeps_table s ToFloat pos s1 h
    rw [this]
    exact ⟨rfl, rfl⟩
  · intro ToFloat blocks
    have hgen : ∀ (blocks : List (List ℚ)) (s : FWaveReaderOperator), s.Empty → s.BlockSized →
        ∃ states, s.ExecuteBlocks ToFloat blocks = some states ∧
          states.length = blocks.length ∧
          ∀ s1 ∈ states, s1.OutputSignal = List.replicate s.NumFramesPerBlock 0 ∧
            s1.TotalNumFrames = 0 ∧ s1.DeinterleavedWaveData = s.DeinterleavedWaveData := by
      intro blocks
      induction blocks with
      | nil =>
        intro s _ _
        exact ⟨[], rfl, rfl, fun s1 h1 => absurd h1 (List.not_mem_nil _)⟩
      | cons pos rest ih =>
        intro s he ho
        have hrun := wave_Execute_empty s ToFloat he ho pos
        have he1 : FWaveReaderOperator.Empty
            { s with OutputSignal := List.replicate s.NumFramesPerBlock 0 } := he
        have ho1 : FWaveReaderOperator.BlockSized
            { s with OutputSignal := List.replicate s.NumFramesPerBlock 0 } := by
          simp [FWaveReaderOperator.BlockSized]
        obtain ⟨states, hruns, hl, hall⟩ := ih _ he1 ho1
        refine ⟨{ s with OutputSignal := List.replicate s.NumFramesPerBlock 0 } :: states, ?_,
          by simp [hl], ?_⟩
        · simp [FWaveReaderOperator.ExecuteBlocks, hrun, hruns]
        · intro s1 hs1
          rcases List.mem_cons.1 hs1 with h | h
          · rw [h]
            exact ⟨rfl, he, rfl⟩
          · exact hall s1 h
    exact hgen blocks st hempty hout

/-- C8 at a reader that decoded nothing and holds a stale output block: two
blocks of arbitrary positions, both emitted as `[0, 0]`. -/
theorem wave_empty_is_silent_witness :
    waveEmptyScenario.ExecuteBlocks castToFloat [[1 / 2, 5 / 2], []] =
      some [{ waveEmptyScenario with OutputSignal := [0, 0] },
            { waveEmptyScenario with OutputSignal := [0, 0] }] ∧
    ∀ PositionData : List ℚ, waveEmptyScenario.Execute castToFloat PositionData =
      some { waveEmptyScenario with
        OutputSignal := List.replicate waveEmptyScenario.NumFramesPerBlock 0 } := by
  have h := (wave_empty_is_silent waveEmptyScenario rfl rfl).1 castToFloat
  refine ⟨?_, h⟩
  simp [FWaveReaderOperator.ExecuteBlocks, h, wave_Execute_empty _ _ _, waveEmptyScenario,
    FWaveReaderOperator.Execute, memzero, List.replicate]

/-! ## Cross router: gains and the frame loop -/

theorem crossfadeFactor_eq {α : Type} [LinearOrderedField α] (x : α) :
    FCrossRouterOperator.CrossfadeFactor x = max 0 (min x 1) := by
  unfold FCrossRouterOperator.CrossfadeFactor FMath.Clamp FMath.Max FMath.Min
  by_cases h1 : x < 1
  · by_cases h0 : 0 < x
    · simp [h1, h0, min_eq_left h1.le, max_eq_right h0.le]
    · simp [h1, h0, min_eq_left h1.le, max_eq_left (not_lt.1 h0)]
  · simp [h1, min_eq_right (not_lt.1 h1)]

theorem crossfadeFactor_mem {α : Type} [LinearOrderedField α] (x : α) :
    0 ≤ FCrossRouterOperator.CrossfadeFactor x ∧ FCrossRouterOperator.CrossfadeFactor x ≤ 1 := by
  rw [crossfadeFactor_eq]
  exact ⟨le_max_left _ _, max_le zero_le_one (min_le_right _ _)⟩

theorem crossfadeFactor_low {α : Type} [LinearOrderedField α] (x : α) (hx : x ≤ 0) :
    FCrossRouterOperator.CrossfadeFactor x = 0 := by
  rw [crossfadeFactor_eq, min_eq_left (hx.trans zero_le_one), max_eq_left hx]

theorem crossfadeFactor_high {α : Type} [LinearOrderedField α] (x : α) (hx : 1 ≤ x) :
    FCrossRouterOperator.CrossfadeFactor x = 1 := by
  rw [crossfadeFactor_eq, min_eq_right hx, max_eq_right zero_le_one]

/-- The frame loop run to the end of the block: from frame `i` on, every output
sample is the input sample times the gain of its output pair. -/
theorem cross_frameLoop_eq {α : Type} [Mul α] (L R : List α) (g1 g2 : α) (N : Nat)
    (hL : L.length = N) (hR : R.length = N) :
    ∀ (n i : Nat) (st : FCrossRouterOperator α), i + n = N →
      st.OutputLeft1.length = N → st.OutputRight1.length = N →
      st.OutputLeft2.length = N → st.OutputRight2.length = N →
      FCrossRouterOperator.frameLoop L R g1 g2 n i st =
        some { OutputLeft1 := st.OutputLeft1.take i ++ (L.drop i).map fun x => x * g1
               OutputRight1 := st.OutputRight1.take i ++ (R.drop i).map fun x => x * g1
               OutputLeft2 := st.OutputLeft2.take i ++ (L.drop i).map fun x => x * g2
               OutputRight2 := st.OutputRight2.take i ++ (R.drop i).map fun x => x * g2 } := by
  intro n
  induction n with
  | zero =>
    intro i st hi h1 h2 h3 h4
    have dL : L.drop i = [] := List.drop_of_length_le (by omega)
    have dR : R.drop i = [] := List.drop_of_length_le (by omega)
    simp [FCrossRouterOperator.frameLoop, dL, dR,
      List.take_of_length_le (show st.OutputLeft1.length ≤ i by omega),
      List.take_of_length_le (show st.OutputRight1.length ≤ i by omega),
      List.take_of_length_le (show st.OutputLeft2.length ≤ i by omega),
      List.take_of_length_le (show st.OutputRight2.length ≤ i by omega)]
  | succ n ih =>
    intro i st hi h1 h2 h3 h4
    have hiL : i < L.length := by omega
    have hiR : i < R.length := by omega
    have w1 : i < st.OutputLeft1.length := by omega
    have w2 : i < st.OutputRight1.length := by omega
    have w3 : i < st.OutputLeft2.length := by omega
    have w4 : i < st.OutputRight2.length := by omega
    rw [FCrossRouterOperator.frameLoop, List.getElem?_eq_getElem hiL, List.getElem?_eq_getElem hiR]
    simp only [Option.some_bind, writeAt_eq _ _ _ w1, writeAt_eq _ _ _ w2, writeAt_eq _ _ _ w3,
      writeAt_eq _ _ _ w4]
    rw [ih (i + 1) _ (by omega) (by simp [h1]) (by simp [h2]) (by simp [h3]) (by simp [h4])]
    simp only [take_succ_set _ _ _ w1, take_succ_set _ _ _ w2, take_succ_set _ _ _ w3,
      take_succ_set _ _ _ w4]
    rw [List.drop_eq_getElem_cons hiL, List.drop_eq_getElem_cons hiR]
    simp only [List.map_cons, List.append_assoc, List.singleton_append]

/-- `Execute` on a well-shaped block returns with every output sample equal to
the input sample times the gain of its output pair. -/
theorem cross_Execute_eq {α : Type} [LinearOrderedField α] (Cos Sin : α → α) (HALF_PI : α)
    (N : Nat) (st : FCrossRouterOperator α) (L R : List α) (x : α) (hshape : st.Shaped N L R) :
    FCrossRouterOperator.Execute Cos Sin HALF_PI st L R x =
      some { OutputLeft1 := L.map fun s => s * FCrossRouterOperator.Gain1 Cos HALF_PI x
             OutputRight1 := R.map fun s => s * FCrossRouterOperator.Gain1 Cos HALF_PI x
             OutputLeft2 := L.map fun s => s * FCrossRouterOperator.Gain2 Sin HALF_PI x
             OutputRight2 := R.map fun s => s * FCrossRouterOperator.Gain2 Sin HALF_PI x } := by
  obtain ⟨hL, hR, h1, h2, h3, h4⟩ := hshape
  unfold FCrossRouterOperator.Execute
  simp only
  rw [cross_frameLoop_eq L R _ _ N hL hR L.length 0 st (by omega) h1 h2 h3 h4]
  simp

/-! ## C9 -/

/-- C9: over the reals, with `FMath::Cos`, `FMath::Sin` and `HALF_PI` read as
`cos`, `sin` and `π / 2`: for every crossfade control value `x`, inside or
outside `[0, 1]`, the gains computed by `Execute` are
`gain1 = cos(clamp(x, 0, 1) * π / 2)` and `gain2 = sin(clamp(x, 0, 1) * π / 2)`,
they satisfy `gain1 ^ 2 + gain2 ^ 2 = 1`, and both lie in `[0, 1]`. -/
theorem crossrouter_gains_equal_power (x : ℝ) :
    FCrossRouterOperator.Gain1 Real.cos (Real.pi / 2) x =
        Real.cos (max 0 (min x 1) * (Real.pi / 2)) ∧
    FCrossRouterOperator.Gain2 Real.sin (Real.pi / 2) x =
        Real.sin (max 0 (min x 1) * (Real.pi / 2)) ∧
    FCrossRouterOperator.Gain1 Real.cos (Real.pi / 2) x ^ 2 +
        FCrossRouterOperator.Gain2 Real.sin (Real.pi / 2) x ^ 2 = 1 ∧
    0 ≤ FCrossRouterOperator.Gain1 Real.cos (Real.pi / 2) x ∧
    FCrossRouterOperator.Gain1 Real.cos (Real.pi / 2) x ≤ 1 ∧
    0 ≤ FCrossRouterOperator.Gain2 Real.sin (Real.pi / 2) x ∧
    FCrossRouterOperator.Gain2 Real.sin (Real.pi / 2) x ≤ 1 := by
  obtain ⟨hc0, hc1⟩ := crossfadeFactor_mem x
  have hpi := Real.pi_pos
  have hlo : 0 ≤ FCrossRouterOperator.CrossfadeFactor x * (Real.pi / 2) := by positivity
  have hhi : FCrossRouterOperator.CrossfadeFactor x * (Real.pi / 2) ≤ Real.pi / 2 := by
    nlinarith
  unfold FCrossRouterOperator.Gain1 FCrossRouterOperator.Gain2
  refine ⟨by rw [crossfadeFactor_eq], by rw [crossfadeFactor_eq], Real.cos_sq_add_sin_sq _, ?_,
    Real.cos_le_one _, ?_, Real.sin_le_one _⟩
  · exact Real.cos_nonneg_of_neg_pi_div_two_le_of_le (by linarith) hhi
  · exact Real.sin_nonneg_of_nonneg_of_le_pi hlo (by linarith)

/-! ## C10 -/

/-- C10: over the reals, at crossfade 0 the gains are `gain1 = 1`, `gain2 = 0`
and at crossfade 1 they are `gain1 = 0`, `gain2 = 1`; on a block of `N` frames
every crossfade `x ≤ 0` makes `Execute` emit the input on output pair 1 and
zeros on output pair 2, and every crossfade `x ≥ 1` zeros on output pair 1 and
the input on output pair 2. -/
theorem crossrouter_endpoints (N : Nat) (st : FCrossRouterOperator ℝ) (L R : List ℝ)
    (hshape : st.Shaped N L R) :
    FCrossRouterOperator.Gain1 Real.cos (Real.pi / 2) 0 = 1 ∧
    FCrossRouterOperator.Gain2 Real.sin (Real.pi / 2) 0 = 0 ∧
    FCrossRouterOperator.Gain1 Real.cos (Real.pi / 2) 1 = 0 ∧
    FCrossRouterOperator.Gain2 Real.sin (Real.pi / 2) 1 = 1 ∧
    (∀ x : ℝ, x ≤ 0 →
      FCrossRouterOperator.Execute Real.cos Real.sin (Real.pi / 2) st L R x =
        some { OutputLeft1 := L, OutputRight1 := R
               OutputLeft2 := List.replicate N 0, OutputRight2 := List.replicate N 0 }) ∧
    (∀ x : ℝ, 1 ≤ x →
      FCrossRouterOperator.Execute Real.cos Real.sin (Real.pi / 2) st L R x =
        some { OutputLeft1 := List.replicate N 0, OutputRight1 := List.replicate N 0
               OutputLeft2 := L, OutputRight2 := R }) := by
  have glow : ∀ x : ℝ, x ≤ 0 → FCrossRouterOperator.Gain1 Real.cos (Real.pi / 2) x = 1 ∧
      FCrossRouterOperator.Gain2 Real.sin (Real.pi / 2) x = 0 := by
    intro x hx
    simp [FCrossRouterOperator.Gain1, FCrossRouterOperator.Gain2, crossfadeFactor_low x hx]
  have ghigh : ∀ x : ℝ, 1 ≤ x → FCrossRouterOperator.Gain1 Real.cos (Real.pi / 2) x = 0 ∧
      FCrossRouterOperator.Gain2 Real.sin (Real.pi / 2) x = 1 := by
    intro x hx
    simp [FCrossRouterOperator.Gain1, FCrossRouterOperator.Gain2, crossfadeFactor_high x hx]
  have hzero : ∀ l : List ℝ, l.length = N → l.map (fun s => s * 0) = List.replicate N 0 := by
    intro l hl
    rw [← hl]
    simp [List.eq_replicate_iff]
  refine ⟨(glow 0 le_rfl).1, (glow 0 le_rfl).2, (ghigh 1 le_rfl).1, (ghigh 1 le_rfl).2, ?_, ?_⟩
  · intro x hx
    rw [cross_Execute_eq Real.cos Real.sin _ N st L R x hshape, (glow x hx).1, (glow x hx).2,
      hzero L hshape.1, hzero R hshape.2.1]
    simp
  · intro x hx
    rw [cross_Execute_eq Real.cos Real.sin _ N st L R x hshape, (ghigh x hx).1, (ghigh x hx).2,
      hzero L hshape.1, hzero R hshape.2.1]
    simp

/-- C10 at a block of two frames, left `[1, 1]`, right `[2, 3]`: crossfade `-1`
routes the input to output pair 1 and crossfade 2 to output pair 2. -/
theorem crossrouter_endpoints_witness :
    FCrossRouterOperator.Execute Real.cos Real.sin (Real.pi / 2)
        (FCrossRouterOperator.Construct 2) [1, 1] [2, 3] (-1) =
      some { OutputLeft1 := [1, 1], OutputRight1 := [2, 3]
             OutputLeft2 := [0, 0], OutputRight2 := [0, 0] } ∧
    FCrossRouterOperator.Execute Real.cos Real.sin (Real.pi / 2)
        (FCrossRouterOperator.Construct 2) [1, 1] [2, 3] 2 =
      some { OutputLeft1 := [0, 0], OutputRight1 := [0, 0]
             OutputLeft2 := [1, 1], OutputRight2 := [2, 3] } := by
  have h := crossrouter_endpoints 2 (FCrossRouterOperator.Construct 2) [1, 1] [2, 3]
    (by simp [FCrossRouterOperator.Shaped, FCrossRouterOperator.Construct])
  exact ⟨h.2.2.2.2.1 (-1) (by norm_num), h.2.2.2.2.2 2 (by norm_num)⟩

/-! ## C11 -/

theorem crossfadeFactor_half : FCrossRouterOperator.CrossfadeFactor (1 / 2 : ℝ) = 1 / 2 := by
  rw [crossfadeFactor_eq, min_eq_left (by norm_num), max_eq_right (by norm_num)]

theorem gain1_half :
    FCrossRouterOperator.Gain1 Real.cos (Real.pi / 2) (1 / 2) = Real.sqrt 2 / 2 := by
  rw [FCrossRouterOperator.Gain1, crossfadeFactor_half, ← Real.cos_pi_div_four]
  congr 1
  ring

theorem gain2_half :
    FCrossRouterOperator.Gain2 Real.sin (Real.pi / 2) (1 / 2) = Real.sqrt 2 / 2 := by
  rw [FCrossRouterOperator.Gain2, crossfadeFactor_half, ← Real.sin_pi_div_four]
  congr 1
  ring

/-- C11: for every sample type, every `Cos`, `Sin` and `HALF_PI`, every block of
`N` frames and every crossfade value, `Execute` returns and at every frame `i`
`Out1L[i] = L[i] * gain1`, `Out1R[i] = R[i] * gain1`, `Out2L[i] = L[i] * gain2`
and `Out2R[i] = R[i] * gain2`, with the one gain pair that the crossfade value
fixes for the whole block.  The result does not depend on what the operator
held before the block; the left outputs do not depend on the right input and
the right outputs do not depend on the left input. -/
theorem crossrouter_samples_times_gain {α : Type} [LinearOrderedField α] (Cos Sin : α → α)
    (HALF_PI : α) (N : Nat) (st : FCrossRouterOperator α) (L R : List α) (x : α)
    (hshape : st.Shaped N L R) :
    ∃ st1, FCrossRouterOperator.Execute Cos Sin HALF_PI st L R x = some st1 ∧
      (∀ i : Nat,
        st1.OutputLeft1[i]? =
          (L[i]?).map (fun s => s * FCrossRouterOperator.Gain1 Cos HALF_PI x) ∧
        st1.OutputRight1[i]? =
          (R[i]?).map (fun s => s * FCrossRouterOperator.Gain1 Cos HALF_PI x) ∧
        st1.OutputLeft2[i]? =
          (L[i]?).map (fun s => s * FCrossRouterOperator.Gain2 Sin HALF_PI x) ∧
        st1.OutputRight2[i]? =
          (R[i]?).map (fun s => s * FCrossRouterOperator.Gain2 Sin HALF_PI x)) ∧
      (∀ st2 : FCrossRouterOperator α, st2.Shaped N L R →
        FCrossRouterOperator.Execute Cos Sin HALF_PI st2 L R x = some st1) ∧
      (∀ (st2 : FCrossRouterOperator α) (R2 : List α), st2.Shaped N L R2 →
        ∃ st3, FCrossRouterOperator.Execute Cos Sin HALF_PI st2 L R2 x = some st3 ∧
          st3.OutputLeft1 = st1.OutputLeft1 ∧ st3.OutputLeft2 = st1.OutputLeft2) ∧
      (∀ (st2 : FCrossRouterOperator α) (L2 : List α), st2.Shaped N L2 R →
        ∃ st3, FCrossRouterOperator.Execute Cos Sin HALF_PI st2 L2 R x = some st3 ∧
          st3.OutputRight1 = st1.OutputRight1 ∧ st3.OutputRight2 = st1.OutputRight2) := by
  refine ⟨_, cross_Execute_eq Cos Sin HALF_PI N st L R x hshape, ?_, ?_, ?_, ?_⟩
  · intro i
    simp only [List.getElem?_map, and_self]
  · intro st2 h2
    exact cross_Execute_eq Cos Sin HALF_PI N st2 L R x h2
  · intro st2 R2 h2
    exact ⟨_, cross_Execute_eq Cos Sin HALF_PI N st2 L R2 x h2, rfl, rfl⟩
  · intro st2 L2 h2
    exact ⟨_, cross_Execute_eq Cos Sin HALF_PI N st2 L2 R x h2, rfl, rfl⟩

/-- C11 at the scenario of the specification, over the reals: crossfade `0.5`
gives `gain1 = gain2 = sqrt 2 / 2`, and left `[1, 1]` comes out as
`[sqrt 2 / 2, sqrt 2 / 2]` on both left outputs. -/
theorem crossrouter_samples_times_gain_witness :
    FCrossRouterOperator.Gain1 Real.cos (Real.pi / 2) (1 / 2) = Real.sqrt 2 / 2 ∧
    FCrossRouterOperator.Gain2 Real.sin (Real.pi / 2) (1 / 2) = Real.sqrt 2 / 2 ∧
    ∃ st1, FCrossRouterOperator.Execute Real.cos Real.sin (Real.pi / 2)
        (FCrossRouterOperator.Construct 2) [1, 1] [2, 3] (1 / 2) = some st1 ∧
      st1.OutputLeft1 = [Real.sqrt 2 / 2, Real.sqrt 2 / 2] ∧
      st1.OutputLeft2 = [Real.sqrt 2 / 2, Real.sqrt 2 / 2] := by
  obtain ⟨st1, hrun, hpt, _⟩ := crossrouter_samples_times_gain Real.cos Real.sin (Real.pi / 2) 2
    (FCrossRouterOperator.Construct 2) [1, 1] [2, 3] (1 / 2)
    (by simp [FCrossRouterOperator.Shaped, FCrossRouterOperator.Construct])
  refine ⟨gain1_half, gain2_half, st1, hrun, ?_, ?_⟩
  · apply List.ext_getElem?
    intro i
    rw [(hpt i).1, gain1_half]
    rcases i with _ | _ | i <;> simp
  · apply List.ext_getElem?
    intro i
    rw [(hpt i).2.2.1, gain2_half]
    rcases i with _ | _ | i <;> simp

/-! ## SaH bank: one channel within one block -/

/-- The pair `(SampledValues[c], PreviousTriggerValues[c])` on entry to frame
`k`: the output sample and the comparator sample of the frame before. -/
theorem state_before (xs : List (ℚ × ℚ × ℚ)) (h p : ℚ) (k : Nat) (hk : k ≤ xs.length) :
    (xs.take k).foldl sahStep (h, p) =
      (sampleBefore h (sahTrace (h, p) xs) k, sampleBefore p (xs.map fun x => x.2.2) k) := by
  cases k with
  | zero => rfl
  | succ k =>
    have hk1 : k < xs.length := by omega
    have hout := sahTrace_getElem? xs (h, p) k hk1
    rw [foldl_take_succ xs _ k hk1] at hout ⊢
    simp only [sampleBefore, List.getD_eq_getElem?_getD, hout, Option.getD_some,
      List.getElem?_map, List.getElem?_eq_getElem hk1, Option.map_some']
    rfl

/-- The output sample at frame `k` is one frame-loop step from the pair on entry. -/
theorem trace_step (xs : List (ℚ × ℚ × ℚ)) (h p : ℚ) (k : Nat) (hk : k < xs.length) :
    (sahTrace (h, p) xs).getD k 0 =
      (sahStep (sampleBefore h (sahTrace (h, p) xs) k,
        sampleBefore p (xs.map fun x => x.2.2) k) xs[k]).1 := by
  rw [List.getD_eq_getElem?_getD, sahTrace_getElem? xs (h, p) k hk, foldl_take_succ xs _ k hk,
    state_before xs h p k (by omega)]
  rfl

theorem channelFrames_eq (n N : Nat) (inp : FSahBankInputs) (hinp : inp.Shaped n N) (c : Nat)
    (hc : c < n) :
    ∃ sig cmp, inp.InputSignals[c]? = some sig ∧ inp.InputTriggers[c]? = some cmp ∧
      sig.length = N ∧ cmp.length = N ∧
      inp.channelFrames c = List.zipWith (fun s t => (inp.InputThreshold, s, t)) sig cmp ∧
      (inp.channelFrames c).length = N ∧
      (inp.channelFrames c).map (fun x => x.2.2) = cmp ∧
      ∀ k (hk : k < (inp.channelFrames c).length),
        (inp.channelFrames c)[k] = (inp.InputThreshold, sig.getD k 0, cmp.getD k 0) := by
  obtain ⟨h1, h2, h3, h4⟩ := hinp
  have hcs : c < inp.InputSignals.length := by omega
  have hct : c < inp.InputTriggers.length := by omega
  have l1 : inp.InputSignals[c].length = N := h3 _ (List.getElem_mem _)
  have l2 : inp.InputTriggers[c].length = N := h4 _ (List.getElem_mem _)
  have hfr : inp.channelFrames c =
      List.zipWith (fun s t => (inp.InputThreshold, s, t)) inp.InputSignals[c]
        inp.InputTriggers[c] := by
    simp [FSahBankInputs.channelFrames, List.getElem?_eq_getElem hcs,
      List.getElem?_eq_getElem hct]
  refine ⟨_, _, List.getElem?_eq_getElem hcs, List.getElem?_eq_getElem hct, l1, l2, hfr, ?_, ?_,
    ?_⟩
  · rw [hfr]; simp [l1, l2]
  · rw [hfr]
    apply List.ext_getElem?
    intro i
    simp only [List.getElem?_map, List.getElem?_zipWith]
    by_cases hi : i < N
    · simp [List.getElem?_eq_getElem (show i < inp.InputSignals[c].length by omega),
        List.getElem?_eq_getElem (show i < inp.InputTriggers[c].length by omega)]
    · simp [List.getElem?_eq_none (show inp.InputSignals[c].length ≤ i by omega),
        List.getElem?_eq_none (show inp.InputTriggers[c].length ≤ i by omega)]
  · intro k hk
    have hkN : k < N := by
      rw [hfr] at hk
      simp [l1, l2] at hk
      exact hk
    simp only [hfr, List.getElem_zipWith, List.getD_eq_getElem?_getD,
      List.getElem?_eq_getElem (show k < inp.InputSignals[c].length by omega),
      List.getElem?_eq_getElem (show k < inp.InputTriggers[c].length by omega),
      Option.getD_some]

/-- What `Execute` writes at frame `k` of channel `c`: the signal sample when the
comparator rises through the threshold at `k`, the held value otherwise. -/
theorem Execute_frame (n N : Nat) (inp : FSahBankInputs) (st : FSahBankOperator) (c : Nat)
    (h p : ℚ) (hinp : inp.Shaped n N) (hst : st.Shaped n N) (hc : c < n)
    (hh : st.SampledValues[c]? = some h) (hp : st.PreviousTriggerValues[c]? = some p) :
    ∃ st1 out sig cmp, FSahBankOperator.Execute st inp = some st1 ∧
      st1.OutputSignals[c]? = some out ∧
      inp.InputSignals[c]? = some sig ∧ inp.InputTriggers[c]? = some cmp ∧
      out.length = N ∧ sig.length = N ∧ cmp.length = N ∧
      out = sahTrace (h, p) (inp.channelFrames c) ∧
      st1.SampledValues[c]? = some ((inp.channelFrames c).foldl sahStep (h, p)).1 ∧
      st1.PreviousTriggerValues[c]? = some ((inp.channelFrames c).foldl sahStep (h, p)).2 ∧
      ∀ k, k < N →
        out.getD k 0 =
          if sampleBefore p cmp k < inp.InputThreshold ∧ cmp.getD k 0 ≥ inp.InputThreshold
          then sig.getD k 0 else sampleBefore h out k := by
  have hn : 0 < n := by omega
  obtain ⟨st1, hrun, _, hpt⟩ := Execute_eq n N inp st hn hinp hst
  obtain ⟨ho, hs1, hp1⟩ := hpt c h p hh hp
  obtain ⟨sig, cmp, hsig, hcmp, l1, l2, _, hlen, hmap, hget⟩ := channelFrames_eq n N inp hinp c hc
  refine ⟨st1, _, sig, cmp, hrun, ho, hsig, hcmp, by rw [sahTrace_length, hlen], l1, l2, rfl,
    hs1, hp1, ?_⟩
  intro k hk
  have hk1 : k < (inp.channelFrames c).length := by omega
  rw [trace_step _ h p k hk1, hmap, hget k hk1]
  rfl

/-! ## C13 -/

/-- C13: `Execute` is edge-triggered.  For every channel `c` of a well-shaped
bank and every frame `k` of a block, the held value (the output sample at `k`)
differs from the held value on entry to `k` only if the preceding comparator
sample is below the threshold and the comparator sample at `k` is at or above
it, and then it is the signal sample at `k`.  Over any run of frames `a..b` of
the block on which the comparator stays at or above the threshold, no frame
after `a` captures and the output is constant from `a` to `b`, whatever the
signal is. -/
theorem sah_edge_triggered (n N : Nat) (inp : FSahBankInputs) (st : FSahBankOperator) (c : Nat)
    (h p : ℚ) (hinp : inp.Shaped n N) (hst : st.Shaped n N) (hc : c < n)
    (hh : st.SampledValues[c]? = some h) (hp : st.PreviousTriggerValues[c]? = some p) :
    ∃ st1 out sig cmp, FSahBankOperator.Execute st inp = some st1 ∧
      st1.OutputSignals[c]? = some out ∧
      inp.InputSignals[c]? = some sig ∧ inp.InputTriggers[c]? = some cmp ∧ out.length = N ∧
      (∀ k, k < N → out.getD k 0 ≠ sampleBefore h out k →
        sampleBefore p cmp k < inp.InputThreshold ∧ cmp.getD k 0 ≥ inp.InputThreshold ∧
        out.getD k 0 = sig.getD k 0) ∧
      (∀ a b, a ≤ b → b < N → (∀ j, a ≤ j → j ≤ b → cmp.getD j 0 ≥ inp.InputThreshold) →
        ∀ j, a < j → j ≤ b →
          ¬ (sampleBefore p cmp j < inp.InputThreshold ∧ cmp.getD j 0 ≥ inp.InputThreshold) ∧
          out.getD j 0 = sampleBefore h out j ∧ out.getD j 0 = out.getD a 0) := by
  obtain ⟨st1, out, sig, cmp, hrun, ho, hsig, hcmp, hlen, _, _, _, _, _, hstep⟩ :=
    Execute_frame n N inp st c h p hinp hst hc hh hp
  refine ⟨st1, out, sig, cmp, hrun, ho, hsig, hcmp, hlen, ?_, ?_⟩
  · intro k hk hne
    have hs := hstep k hk
    by_cases hedge :
        sampleBefore p cmp k < inp.InputThreshold ∧ cmp.getD k 0 ≥ inp.InputThreshold
    · rw [if_pos hedge] at hs
      exact ⟨hedge.1, hedge.2, hs⟩
    · rw [if_neg hedge] at hs
      exact absurd hs hne
  · intro a b hab hb hhigh
    have hno : ∀ j, a < j → j ≤ b →
        ¬ (sampleBefore p cmp j < inp.InputThreshold ∧ cmp.getD j 0 ≥ inp.InputThreshold) ∧
        out.getD j 0 = sampleBefore h out j := by
      intro j haj hjb
      obtain ⟨i, rfl⟩ : ∃ i, j = i + 1 := ⟨j - 1, by omega⟩
      have hprev : sampleBefore p cmp (i + 1) ≥ inp.InputThreshold :=
        hhigh i (by omega) (by omega)
      have hedge : ¬ (sampleBefore p cmp (i + 1) < inp.InputThreshold ∧
          cmp.getD (i + 1) 0 ≥ inp.InputThreshold) := fun hc => absurd hc.1 (not_lt.2 hprev)
      have hs := hstep (i + 1) (by omega)
      rw [if_neg hedge] at hs
      exact ⟨hedge, hs⟩
    have hconst : ∀ j, a ≤ j → j ≤ b → out.getD j 0 = out.getD a 0 := by
      intro j haj
      induction j, haj using Nat.le_induction with
      | base => intro _; rfl
      | succ j haj ih =>
        intro hjb
        rw [(hno (j + 1) (by omega) hjb).2]
        exact ih (by omega)
    intro j haj hjb
    exact ⟨(hno j haj hjb).1, (hno j haj hjb).2, hconst j (by omega) hjb⟩

/-- C13 at the scenario of the specification: comparator `[0,1,1,0]` stays at or
above the threshold `0.5` on frames 1 and 2; frame 2 does not capture and the
output holds 20 although the signal moves on to 30. -/
theorem sah_edge_triggered_witness :
    ∃ st1 out sig cmp,
      FSahBankOperator.Execute (FSahBankOperator.Construct [[0, 0, 0, 0]]) sahScenario =
        some st1 ∧
      st1.OutputSignals[0]? = some out ∧
      sahScenario.InputSignals[0]? = some sig ∧ sahScenario.InputTriggers[0]? = some cmp ∧
      out.length = 4 ∧
      (∀ k, k < 4 → out.getD k 0 ≠ sampleBefore 0 out k →
        sampleBefore 0 cmp k < sahScenario.InputThreshold ∧
        cmp.getD k 0 ≥ sahScenario.InputThreshold ∧ out.getD k 0 = sig.getD k 0) ∧
      (∀ a b, a ≤ b → b < 4 →
        (∀ j, a ≤ j → j ≤ b → cmp.getD j 0 ≥ sahScenario.InputThreshold) →
        ∀ j, a < j → j ≤ b →
          ¬ (sampleBefore 0 cmp j < sahScenario.InputThreshold ∧
            cmp.getD j 0 ≥ sahScenario.InputThreshold) ∧
          out.getD j 0 = sampleBefore 0 out j ∧ out.getD j 0 = out.getD a 0) :=
  sah_edge_triggered 1 4 sahScenario (FSahBankOperator.Construct [[0, 0, 0, 0]]) 0 0 0
    (by simp [FSahBankInputs.Shaped, sahScenario])
    (by simp [FSahBankOperator.Shaped, FSahBankOperator.Construct]) (by decide)
    (by simp [FSahBankOperator.Construct]) (by simp [FSahBankOperator.Construct])

/-! ## Click: the polarity flag -/

theorem polarityAfter_parity (m : Nat) :
    ∀ b, polarityAfter b m = if m % 2 = 0 then b else !b := by
  induction m with
  | zero => intro b; rfl
  | succ m ih =>
    intro b
    rw [polarityAfter, ih (!b)]
    rcases Nat.mod_two_eq_zero_or_one m with h | h
    · have : (m + 1) % 2 = 1 := by omega
      simp [h, this]
    · have : (m + 1) % 2 = 0 := by omega
      simp [h, this]

theorem polarityAfter_ne_iff (b : Bool) (m : Nat) : polarityAfter b m ≠ b ↔ m % 2 = 1 := by
  rw [polarityAfter_parity]
  rcases Nat.mod_two_eq_zero_or_one m with h | h
  · simp [h]
  · cases b <;> simp [h]

/-- The polarity flag after the events of one block: in bipolar mode it has been
flipped once per event inside the block, in unipolar mode it is untouched. -/
theorem executeBlock_polarity (bip : Bool) (N : Nat) :
    ∀ (events : List Int) (st : FClickOperator), st.OutputImpulse.length = N →
      (∀ f ∈ events, 0 ≤ f) →
      ∃ st1, FTrigger.ExecuteBlock (FClickOperator.onTrigger bip N) events st = some st1 ∧
        st1.OutputImpulse.length = N ∧
        st1.SignalIsPositive =
          if bip then polarityAfter st.SignalIsPositive (events.countP fun f : Int => f < N)
          else st.SignalIsPositive := by
  intro events
  induction events with
  | nil =>
    intro st hN _
    refine ⟨st, rfl, hN, ?_⟩
    cases bip <;> simp [polarityAfter]
  | cons f rest ih =>
    intro st hN hnn
    have h0 : 0 ≤ f := hnn f (List.mem_cons_self _ _)
    have hstep := onTrigger_eq bip N st f hN h0
    by_cases hfN : f < N
    · rw [if_pos hfN] at hstep
      obtain ⟨st1, hrun, hl, hpol⟩ := ih
        { OutputImpulse :=
            st.OutputImpulse.set f.toNat (if bip then impulseValue st.SignalIsPositive else 1)
          SignalIsPositive := if bip then !st.SignalIsPositive else st.SignalIsPositive }
        (by simpa using hN) (fun g hg => hnn g (List.mem_cons_of_mem _ hg))
      refine ⟨st1, ?_, hl, ?_⟩
      · simp only [FTrigger.ExecuteBlock, hstep, Option.some_bind]
        exact hrun
      · rw [hpol]
        cases bip
        · simp
        · simp [List.countP_cons, hfN, polarityAfter]
    · rw [if_neg hfN] at hstep
      obtain ⟨st1, hrun, hl, hpol⟩ := ih st hN (fun g hg => hnn g (List.mem_cons_of_mem _ hg))
      refine ⟨st1, ?_, hl, ?_⟩
      · simp only [FTrigger.ExecuteBlock, hstep, Option.some_bind]
        exact hrun
      · rw [hpol]
        simp [List.countP_cons, hfN]

theorem alternating_head (m : Nat) (x : ℚ) (h : (alternating true m).head? = some x) : x = 1 := by
  cases m with
  | zero => simp [alternating] at h
  | succ m =>
    simp only [alternating, List.head?_cons, Option.some.injEq, impulseValue, if_true] at h
    exact h.symm

/-- A unipolar `Execute` that returns leaves the polarity flag as it was. -/
theorem click_unipolar_flag (st : FClickOperator) (events : List Int) :
    ∀ st1, FClickOperator.Execute st events false = some st1 →
      st1.SignalIsPositive = st.SignalIsPositive := by
  intro st1 hrun
  have hrun1 : FTrigger.ExecuteBlock (FClickOperator.onTrigger false st.OutputImpulse.length)
      events { OutputImpulse := List.replicate st.OutputImpulse.length 0
               SignalIsPositive := st.SignalIsPositive } = some st1 := by
    simpa [FClickOperator.Execute] using hrun
  have hnn := executeBlock_some_nonneg false st.OutputImpulse.length events _ st1 hrun1
  obtain ⟨st2, hrun2, _, hpol⟩ := executeBlock_polarity false st.OutputImpulse.length events
    { OutputImpulse := List.replicate st.OutputImpulse.length 0
      SignalIsPositive := st.SignalIsPositive } (by simp) hnn
  rw [hrun1] at hrun2
  cases hrun2
  simpa using hpol

/-! ## C14 -/

/-- C14: the polarity flag of a click operator.  It is positive after
construction, and from a positive flag the first impulse of a bipolar block
(events non-negative and strictly increasing) is `+1`, so the first impulse of
every run of bipolar blocks from the constructed operator is `+1`.  The
on-trigger step of a bipolar event inside the block flips the flag; one bipolar
`Execute` leaves it flipped once per event inside the block, so it differs from
before if and only if the number of such events is odd.  The flag is unchanged
by a unipolar `Execute`, by a block without events, and by every event at or
beyond the block length. -/
theorem click_polarity_state (st : FClickOperator) :
    (∀ N : Nat, (FClickOperator.Construct N).SignalIsPositive = true) ∧
    (∀ events : List Int, st.SignalIsPositive = true → (∀ f ∈ events, 0 ≤ f) →
      (events.Pairwise fun f g => f < g) →
      ∃ st1, FClickOperator.Execute st events true = some st1 ∧
        ∀ x, (impulses st1.OutputImpulse).head? = some x → x = 1) ∧
    (∀ (N : Nat) (blocks : List (List Int)), (∀ ev ∈ blocks, ∀ f ∈ ev, 0 ≤ f) →
      (∀ ev ∈ blocks, ev.Pairwise fun f g => f < g) →
      ∃ states, FClickOperator.ExecuteBlocks (FClickOperator.Construct N)
          (blocks.map fun ev => (ev, true)) = some states ∧
        ∀ x, (impulses (clickLifetimeOutput states)).head? = some x → x = 1) ∧
    (∀ f : Int, 0 ≤ f → f < st.OutputImpulse.length →
      ∃ st1, FClickOperator.onTrigger true st.OutputImpulse.length st f = some st1 ∧
        st1.SignalIsPositive = !st.SignalIsPositive) ∧
    (∀ events : List Int, (∀ f ∈ events, 0 ≤ f) →
      ∃ st1, FClickOperator.Execute st events true = some st1 ∧
        st1.SignalIsPositive = polarityAfter st.SignalIsPositive
          (events.countP fun f : Int => f < st.OutputImpulse.length) ∧
        (st1.SignalIsPositive ≠ st.SignalIsPositive ↔
          (events.countP fun f : Int => f < st.OutputImpulse.length) % 2 = 1)) ∧
    (∀ (events : List Int) (st1 : FClickOperator),
      FClickOperator.Execute st events false = some st1 →
      st1.SignalIsPositive = st.SignalIsPositive) ∧
    (∀ bip : Bool, ∃ st1, FClickOperator.Execute st [] bip = some st1 ∧
      st1.SignalIsPositive = st.SignalIsPositive) ∧
    (∀ (bip : Bool) (f : Int), (st.OutputImpulse.length : Int) ≤ f →
      FClickOperator.onTrigger bip st.OutputImpulse.length st f = some st) := by
  refine ⟨fun _ => rfl, ?_, ?_, ?_, ?_, ?_, ?_, ?_⟩
  · intro events hpos hnn hsorted
    obtain ⟨st1, hrun, _, himp, _⟩ := Execute_bipolar_train st events hnn hsorted
    refine ⟨st1, hrun, fun x hx => ?_⟩
    rw [himp, hpos] at hx
    exact alternating_head _ x hx
  · intro N blocks hnn hsorted
    obtain ⟨states, hrun, _, htrain⟩ :=
      ExecuteBlocks_bipolar_train blocks (FClickOperator.Construct N) hnn hsorted
    refine ⟨states, hrun, fun x hx => ?_⟩
    rw [htrain] at hx
    exact alternating_head _ x hx
  · intro f h0 hfN
    refine ⟨_, onTrigger_eq true _ st f rfl h0, ?_⟩
    simp [hfN]
  · intro events hnn
    obtain ⟨st1, hrun, _, hpol⟩ := executeBlock_polarity true st.OutputImpulse.length events
      { OutputImpulse := List.replicate st.OutputImpulse.length 0
        SignalIsPositive := st.SignalIsPositive } (by simp) hnn
    simp only [if_true] at hpol
    refine ⟨st1, by simpa [FClickOperator.Execute] using hrun, hpol, ?_⟩
    rw [hpol]
    exact polarityAfter_ne_iff _ _
  · intro events st1 hrun
    exact click_unipolar_flag st events st1 hrun
  · intro bip
    exact ⟨_, rfl, rfl⟩
  · intro bip f hf
    exact onTrigger_beyond bip _ st f hf

/-- C14 at a constructed operator of 8 frames: bipolar events at frames 2, 5 and
9 (the last beyond the block) flip the flag twice, so it ends positive again. -/
theorem click_polarity_state_witness :
    FClickOperator.Execute (FClickOperator.Construct 8) [2, 5, 9] true =
      some { OutputImpulse := [0, 0, 1, 0, 0, -1, 0, 0], SignalIsPositive := true } ∧
    ∃ st1, FClickOperator.Execute (FClickOperator.Construct 8) [2, 5, 9] true = some st1 ∧
      st1.SignalIsPositive = polarityAfter (FClickOperator.Construct 8).SignalIsPositive
        ([2, 5, 9].countP fun f : Int => f < (FClickOperator.Construct 8).OutputImpulse.length) ∧
      (st1.SignalIsPositive ≠ (FClickOperator.Construct 8).SignalIsPositive ↔
        ([2, 5, 9].countP
          fun f : Int => f < (FClickOperator.Construct 8).OutputImpulse.length) % 2 = 1) :=
  ⟨by simp [FClickOperator.Execute, FTrigger.ExecuteBlock, FClickOperator.onTrigger, writeAtInt,
      writeAt, FClickOperator.Construct, List.replicate],
    (click_polarity_state (FClickOperator.Construct 8)).2.2.2.2.1 [2, 5, 9] (by decide)⟩

/-! ## C16 -/

theorem lerp_between (A B t : ℚ) (h0 : 0 ≤ t) (h1 : t < 1) :
    min A B ≤ A + t * (B - A) ∧ A + t * (B - A) ≤ max A B := by
  rcases le_total A B with h | h
  · rw [min_eq_left h, max_eq_right h]
    constructor <;> nlinarith
  · rw [min_eq_right h, max_eq_left h]
    constructor <;> nlinarith

theorem readAtInt_mem {α : Type} (xs : List α) (i : Int) (a : α) (h : readAtInt xs i = some a) :
    a ∈ xs := by
  unfold readAtInt at h
  split at h
  · exact List.getElem?_mem h
  · cases h

/-- The interpolation of two samples of a channel at the fraction of a
position above its floor lies between the two samples and within every pair of
bounds on the channel. -/
theorem lookup_within (ch0 : List ℚ) (A B q : ℚ) (i0 i1 : Int)
    (hA : readAtInt ch0 i0 = some A) (hB : readAtInt ch0 i1 = some B) (hi : i0 = ⌊q⌋) :
    min A B ≤ A + (q - (i0 : ℚ)) * (B - A) ∧ A + (q - (i0 : ℚ)) * (B - A) ≤ max A B ∧
    A ∈ ch0 ∧ B ∈ ch0 ∧
    ∀ lo hi : ℚ, (∀ x ∈ ch0, lo ≤ x ∧ x ≤ hi) →
      lo ≤ A + (q - (i0 : ℚ)) * (B - A) ∧ A + (q - (i0 : ℚ)) * (B - A) ≤ hi := by
  have ht0 : 0 ≤ q - (i0 : ℚ) := by
    rw [hi]
    linarith [Int.floor_le q]
  have ht1 : q - (i0 : ℚ) < 1 := by
    rw [hi]
    linarith [Int.lt_floor_add_one q]
  obtain ⟨hlo, hhi⟩ := lerp_between A B _ ht0 ht1
  have hAm := readAtInt_mem _ _ _ hA
  have hBm := readAtInt_mem _ _ _ hB
  refine ⟨hlo, hhi, hAm, hBm, ?_⟩
  intro lo hi hb
  have hmin : lo ≤ min A B := le_min (hb A hAm).1 (hb B hBm).1
  have hmax : max A B ≤ hi := max_le (hb A hAm).2 (hb B hBm).2
  exact ⟨le_trans hmin hlo, le_trans hhi hmax⟩

/-- C20: over exact arithmetic, in the state `Loaded` and for every position `p`
with `0 ≤ p < TotalNumFrames`, the sample returned lies between the two table
samples it interpolates, `min(A, B) ≤ v ≤ max(A, B)`; both are samples of
channel 0, so `v` lies within every pair of bounds on channel 0, in particular
between its minimum and its maximum.  For every position at all, the sample
returned is 0 or lies within every pair of bounds on channel 0; the same holds
for every single-precision position when the frame count and the lower index
are converted to single precision and the rest of the arithmetic is exact. -/
theorem wave_lerp_never_overshoots (st : FWaveReaderOperator) (p : ℚ) (hloaded : st.Loaded)
    (h0 : 0 ≤ p) (h1 : p < (st.TotalNumFrames : ℚ)) :
    (∃ ch0 A B v, st.DeinterleavedWaveData[0]? = some ch0 ∧
      readAtInt ch0 (max 0 (min ⌊p⌋ (st.TotalNumFrames - 1))) = some A ∧
      readAtInt ch0 (min (max 0 (min ⌊p⌋ (st.TotalNumFrames - 1)) + 1)
        (st.TotalNumFrames - 1)) = some B ∧
      st.GetSampleAtPosition exactCast p = some v ∧
      min A B ≤ v ∧ v ≤ max A B ∧ A ∈ ch0 ∧ B ∈ ch0 ∧
      ∀ lo hi : ℚ, (∀ x ∈ ch0, lo ≤ x ∧ x ≤ hi) → lo ≤ v ∧ v ≤ hi) ∧
    (∀ q : ℚ, ∃ ch0 v, st.DeinterleavedWaveData[0]? = some ch0 ∧
      st.GetSampleAtPosition exactCast q = some v ∧
      (v = 0 ∨ ∀ lo hi : ℚ, (∀ x ∈ ch0, lo ≤ x ∧ x ≤ hi) → lo ≤ v ∧ v ≤ hi)) ∧
    (∀ q : ℚ, IsSingle q → ∃ ch0 v, st.DeinterleavedWaveData[0]? = some ch0 ∧
      st.GetSampleAtPosition castToFloat q = some v ∧
      (v = 0 ∨ ∀ lo hi : ℚ, (∀ x ∈ ch0, lo ≤ x ∧ x ≤ hi) → lo ≤ v ∧ v ≤ hi)) := by
  have key : ∀ q : ℚ, 0 ≤ q → q < (st.TotalNumFrames : ℚ) →
      ∃ ch0 A B v, st.DeinterleavedWaveData[0]? = some ch0 ∧
        readAtInt ch0 (max 0 (min ⌊q⌋ (st.TotalNumFrames - 1))) = some A ∧
        readAtInt ch0 (min (max 0 (min ⌊q⌋ (st.TotalNumFrames - 1)) + 1)
          (st.TotalNumFrames - 1)) = some B ∧
        st.GetSampleAtPosition exactCast q = some v ∧
        min A B ≤ v ∧ v ≤ max A B ∧ A ∈ ch0 ∧ B ∈ ch0 ∧
        ∀ lo hi : ℚ, (∀ x ∈ ch0, lo ≤ x ∧ x ≤ hi) → lo ≤ v ∧ v ≤ hi := by
    intro q hq0 hq1
    obtain ⟨ch0, A, B, hch0, hA, hB, hval⟩ := getSample_in_range st q hloaded hq0 hq1
    obtain ⟨_, _, hclamp⟩ := floor_in_range st.TotalNumFrames q hq0 hq1
    obtain ⟨hlo, hhi, hAm, hBm, hb⟩ := lookup_within ch0 A B q _ _ hA hB hclamp
    exact ⟨ch0, A, B, _, hch0, hA, hB, hval, hlo, hhi, hAm, hBm, hb⟩
  refine ⟨key p h0 h1, ?_, ?_⟩
  · intro q
    by_cases hq : q < 0 ∨ q ≥ exactCast st.TotalNumFrames
    · obtain ⟨_, ch0, hch0, _⟩ := hloaded
      exact ⟨ch0, 0, hch0, getSample_out_of_range st exactCast q hq, Or.inl rfl⟩
    · rw [not_or, not_lt, not_le] at hq
      obtain ⟨ch0, _, _, v, hch0, _, _, hval, _, _, _, _, hb⟩ := key q hq.1 hq.2
      exact ⟨ch0, v, hch0, hval, Or.inr hb⟩
  · intro q hs
    by_cases hq : q < 0 ∨ q ≥ castToFloat st.TotalNumFrames
    · obtain ⟨_, ch0, hch0, _⟩ := hloaded
      exact ⟨ch0, 0, hch0, getSample_out_of_range st castToFloat q hq, Or.inl rfl⟩
    · rw [not_or, not_lt, not_le] at hq
      obtain ⟨_, hclamp, ch0, A, B, hch0, hA, hB, hval⟩ :=
        getSample_single st q hloaded hs hq.1 hq.2
      obtain ⟨_, _, _, _, hb⟩ := lookup_within ch0 A B q _ _ hA hB hclamp
      exact ⟨ch0, _, hch0, hval, Or.inr hb⟩

/-- C20 at the table `[0, 10, 20]`: position `0.5` yields 5, between the table
samples 0 and 10. -/
theorem wave_lerp_never_overshoots_witness :
    ∃ ch0 A B v, waveScenario.DeinterleavedWaveData[0]? = some ch0 ∧
      readAtInt ch0 (max 0 (min ⌊(1 / 2 : ℚ)⌋ (waveScenario.TotalNumFrames - 1))) = some A ∧
      readAtInt ch0 (min (max 0 (min ⌊(1 / 2 : ℚ)⌋ (waveScenario.TotalNumFrames - 1)) + 1)
        (waveScenario.TotalNumFrames - 1)) = some B ∧
      waveScenario.GetSampleAtPosition exactCast (1 / 2) = some v ∧
      min A B ≤ v ∧ v ≤ max A B ∧ A ∈ ch0 ∧ B ∈ ch0 ∧
      ∀ lo hi : ℚ, (∀ x ∈ ch0, lo ≤ x ∧ x ≤ hi) → lo ≤ v ∧ v ≤ hi :=
  (wave_lerp_never_overshoots waveScenario (1 / 2) waveScenario_loaded (by norm_num)
    (by norm_num [waveScenario])).1

/-! ## C17 -/

/-- C17, refuted as stated: on a bank constructed with zero signal/comparator
pairs `Execute` does not complete as a no-op; its read of `InputSignals[0]` is
out of range. -/
theorem sah_zero_channels_not_guarded :
    FSahBankOperator.Execute (FSahBankOperator.Construct []) sahEmptyBank = none ∧
    ¬ ∃ st1, FSahBankOperator.Execute (FSahBankOperator.Construct []) sahEmptyBank = some st1 := by
  have h : FSahBankOperator.Execute (FSahBankOperator.Construct []) sahEmptyBank = none := rfl
  refine ⟨h, ?_⟩
  rintro ⟨st1, h1⟩
  rw [h] at h1
  cases h1

/-- C17 as amended: for a bank with zero signal/comparator pairs `Execute` is
not guarded: it indexes `InputSignals[0]` for the frame count before the
channel loop, and that index is out of range.  The channel loop that follows is
the part that is safe on zero channels: it runs no iteration and returns the
operator as it was, whatever the frame count. -/
theorem sah_zero_channels_first_read (st : FSahBankOperator) (inp : FSahBankInputs)
    (h : inp.InputSignals = []) :
    inp.InputSignals[0]? = none ∧
    FSahBankOperator.Execute st inp = none ∧
    ∀ NumFrames : Nat,
      FSahBankOperator.channelLoop inp NumFrames inp.InputSignals.length 0 st = some st := by
  refine ⟨by rw [h]; rfl, ?_, ?_⟩
  · simp [FSahBankOperator.Execute, h]
  · intro NumFrames
    rw [h]
    rfl

/-- C17 as amended, at the empty bank. -/
theorem sah_zero_channels_first_read_witness :
    sahEmptyBank.InputSignals[0]? = none ∧
    FSahBankOperator.Execute (FSahBankOperator.Construct []) sahEmptyBank = none ∧
    ∀ NumFrames : Nat,
      FSahBankOperator.channelLoop sahEmptyBank NumFrames sahEmptyBank.InputSignals.length 0
        (FSahBankOperator.Construct []) = some (FSahBankOperator.Construct []) :=
  sah_zero_channels_first_read (FSahBankOperator.Construct []) sahEmptyBank rfl

/-! ## SaH bank: two blocks against their concatenation -/

theorem append_shaped (n N M : Nat) (A B : FSahBankInputs) (hA : A.Shaped n N)
    (hB : B.Shaped n M) : (A.append B).Shaped n (N + M) := by
  obtain ⟨a1, a2, a3, a4⟩ := hA
  obtain ⟨b1, b2, b3, b4⟩ := hB
  refine ⟨by simp [FSahBankInputs.append, a1, b1], by simp [FSahBankInputs.append, a2, b2], ?_, ?_⟩
  · intro s hs
    obtain ⟨i, hi, rfl⟩ := List.getElem_of_mem hs
    simp only [FSahBankInputs.append, List.length_zipWith] at hi
    simp only [FSahBankInputs.append, List.getElem_zipWith, List.length_append]
    rw [a3 _ (List.getElem_mem _), b3 _ (List.getElem_mem _)]
  · intro s hs
    obtain ⟨i, hi, rfl⟩ := List.getElem_of_mem hs
    simp only [FSahBankInputs.append, List.length_zipWith] at hi
    simp only [FSahBankInputs.append, List.getElem_zipWith, List.length_append]
    rw [a4 _ (List.getElem_mem _), b4 _ (List.getElem_mem _)]

theorem append_channelFrames (n N M : Nat) (A B : FSahBankInputs) (hA : A.Shaped n N)
    (hB : B.Shaped n M) (hthr : B.InputThreshold = A.InputThreshold) (c : Nat) (hc : c < n) :
    (A.append B).channelFrames c = A.channelFrames c ++ B.channelFrames c := by
  obtain ⟨a1, a2, a3, a4⟩ := hA
  obtain ⟨b1, b2, b3, b4⟩ := hB
  have ca1 : c < A.InputSignals.length := by omega
  have ca2 : c < A.InputTriggers.length := by omega
  have cb1 : c < B.InputSignals.length := by omega
  have cb2 : c < B.InputTriggers.length := by omega
  have la : A.InputSignals[c].length = A.InputTriggers[c].length := by
    rw [a3 _ (List.getElem_mem _), a4 _ (List.getElem_mem _)]
  simp only [FSahBankInputs.channelFrames, FSahBankInputs.append, List.getElem?_zipWith,
    List.getElem?_eq_getElem ca1, List.getElem?_eq_getElem ca2, List.getElem?_eq_getElem cb1,
    List.getElem?_eq_getElem cb2, Option.getD_some, hthr]
  exact List.zipWith_append _ _ _ _ _ la

theorem list_eq_of_getElem? {α : Type} (n : Nat) (l1 l2 : List α) (h1 : l1.length = n)
    (h2 : l2.length = n) (h : ∀ c, c < n → l1[c]? = l2[c]?) : l1 = l2 := by
  apply List.ext_getElem?
  intro c
  by_cases hc : c < n
  · exact h c hc
  · rw [List.getElem?_eq_none (by omega), List.getElem?_eq_none (by omega)]

/-- The pair a channel is left with after a block of at least one frame: the
last output sample and the last comparator sample. -/
theorem foldl_last (xs : List (ℚ × ℚ × ℚ)) (h p : ℚ) (hne : 0 < xs.length) :
    xs.foldl sahStep (h, p) =
      ((sahTrace (h, p) xs).getD (xs.length - 1) 0,
        (xs.map fun x => x.2.2).getD (xs.length - 1) 0) := by
  have := state_before xs h p xs.length le_rfl
  rw [List.take_length] at this
  rw [this]
  obtain ⟨k, hk⟩ : ∃ k, xs.length = k + 1 := ⟨xs.length - 1, by omega⟩
  rw [hk]
  rfl

/-! ## C19 -/

/-- C19: block-size independence.  For a well-shaped bank of `n ≥ 1` channels,
every starting state and every two consecutive blocks `A` and `B` of `N` frames
under the same threshold: `Execute` on `A` and then on `B` returns, `Execute`
on the block `A ++ B` (by an operator with the same state arrays and output
buffers of `N + N` frames) returns, every channel of the latter emits the
output of `A` followed by the output of `B`, and both leave the same
`SampledValues` and `PreviousTriggerValues`.  After a block of at least one
frame, `PreviousTriggerValues[c]` is the last comparator sample of the block
and `SampledValues[c]` is its last output sample. -/
theorem sah_block_size_independent (n N : Nat) (A B : FSahBankInputs) (st : FSahBankOperator)
    (outs2 : List (List ℚ)) (hn : 0 < n) (hA : A.Shaped n N) (hB : B.Shaped n N)
    (hst : st.Shaped n N) (hthr : B.InputThreshold = A.InputThreshold)
    (hl2 : outs2.length = n) (ho2 : ∀ o ∈ outs2, o.length = N + N) :
    ∃ stA stB stAB, FSahBankOperator.Execute st A = some stA ∧
      FSahBankOperator.Execute stA B = some stB ∧
      FSahBankOperator.Execute { st with OutputSignals := outs2 } (A.append B) = some stAB ∧
      stAB.SampledValues = stB.SampledValues ∧
      stAB.PreviousTriggerValues = stB.PreviousTriggerValues ∧
      (∀ c, c < n → ∃ oA oB, stA.OutputSignals[c]? = some oA ∧
        stB.OutputSignals[c]? = some oB ∧ stAB.OutputSignals[c]? = some (oA ++ oB)) ∧
      (0 < N → ∀ c, c < n → ∃ oA cmp, stA.OutputSignals[c]? = some oA ∧
        A.InputTriggers[c]? = some cmp ∧
        stA.PreviousTriggerValues[c]? = some (cmp.getD (N - 1) 0) ∧
        stA.SampledValues[c]? = some (oA.getD (N - 1) 0)) := by
  have hst2 : FSahBankOperator.Shaped n (N + N) { st with OutputSignals := outs2 } :=
    ⟨hl2, ho2, hst.2.2.1, hst.2.2.2⟩
  obtain ⟨stA, hrunA, hshA, hptA⟩ := Execute_eq n N A st hn hA hst
  obtain ⟨stB, hrunB, hshB, hptB⟩ := Execute_eq n N B stA hn hB hshA
  obtain ⟨stAB, hrunAB, hshAB, hptAB⟩ :=
    Execute_eq n (N + N) (A.append B) _ hn (append_shaped n N N A B hA hB) hst2
  have hsv : ∀ c, c < n → st.SampledValues[c]? = some st.SampledValues[c]! ∧
      st.PreviousTriggerValues[c]? = some st.PreviousTriggerValues[c]! := by
    intro c hc
    have h1 : c < st.SampledValues.length := by rw [hst.2.2.1]; exact hc
    have h2 : c < st.PreviousTriggerValues.length := by rw [hst.2.2.2]; exact hc
    simp [List.getElem?_eq_getElem h1, List.getElem?_eq_getElem h2, getElem!_pos, h1, h2]
  have hchan : ∀ c, c < n →
      stAB.SampledValues[c]? = stB.SampledValues[c]? ∧
      stAB.PreviousTriggerValues[c]? = stB.PreviousTriggerValues[c]? ∧
      ∃ oA oB, stA.OutputSignals[c]? = some oA ∧ stB.OutputSignals[c]? = some oB ∧
        stAB.OutputSignals[c]? = some (oA ++ oB) := by
    intro c hc
    obtain ⟨hh, hp⟩ := hsv c hc
    obtain ⟨a1, a2, a3⟩ := hptA c _ _ hh hp
    obtain ⟨b1, b2, b3⟩ := hptB c _ _ a2 a3
    obtain ⟨c1, c2, c3⟩ := hptAB c _ _ hh hp
    rw [append_channelFrames n N N A B hA hB hthr c hc] at c1 c2 c3
    rw [List.foldl_append] at c2 c3
    rw [sahTrace_append] at c1
    exact ⟨by rw [c2, b2], by rw [c3, b3], _, _, a1, b1, c1⟩
  refine ⟨stA, stB, stAB, hrunA, hrunB, hrunAB, ?_, ?_, ?_, ?_⟩
  · exact list_eq_of_getElem? n _ _ hshAB.2.2.1 hshB.2.2.1 (fun c hc => (hchan c hc).1)
  · exact list_eq_of_getElem? n _ _ hshAB.2.2.2 hshB.2.2.2 (fun c hc => (hchan c hc).2.1)
  · exact fun c hc => (hchan c hc).2.2
  · intro hN c hc
    obtain ⟨hh, hp⟩ := hsv c hc
    obtain ⟨a1, a2, a3⟩ := hptA c _ _ hh hp
    obtain ⟨sig, cmp, _, hcmp, _, _, _, hlen, hmap, _⟩ := channelFrames_eq n N A hA c hc
    have hlast := foldl_last (A.channelFrames c) st.SampledValues[c]!
      st.PreviousTriggerValues[c]! (by omega)
    rw [hlen, hmap] at hlast
    refine ⟨_, cmp, a1, hcmp, ?_, ?_⟩
    · rw [a3, hlast]
    · rw [a2, hlast]

/-- C19 at the scenario of the specification cut into two blocks of two frames:
the blocks emit `[0,20]` and `[20,20]`, their concatenation emits
`[0,20,20,20]`, and both runs end with held value 20 and previous comparator
sample 0. -/
theorem sah_block_size_independent_witness :
    FSahBankOperator.ExecuteBlocks (FSahBankOperator.Construct [[0, 0]]) [sahBlockA, sahBlockB] =
      some [{ OutputSignals := [[0, 20]], SampledValues := [20], PreviousTriggerValues := [1] },
            { OutputSignals := [[20, 20]], SampledValues := [20], PreviousTriggerValues := [0] }] ∧
    FSahBankOperator.Execute
        { FSahBankOperator.Construct [[0, 0]] with OutputSignals := [[0, 0, 0, 0]] }
        (sahBlockA.append sahBlockB) =
      some { OutputSignals := [[0, 20, 20, 20]], SampledValues := [20],
             PreviousTriggerValues := [0] } ∧
    ∃ stA stB stAB,
      FSahBankOperator.Execute (FSahBankOperator.Construct [[0, 0]]) sahBlockA = some stA ∧
      FSahBankOperator.Execute stA sahBlockB = some stB ∧
      FSahBankOperator.Execute
        { FSahBankOperator.Construct [[0, 0]] with OutputSignals := [[0, 0, 0, 0]] }
        (sahBlockA.append sahBlockB) = some stAB ∧
      stAB.SampledValues = stB.SampledValues ∧
      stAB.PreviousTriggerValues = stB.PreviousTriggerValues ∧
      (∀ c, c < 1 → ∃ oA oB, stA.OutputSignals[c]? = some oA ∧
        stB.OutputSignals[c]? = some oB ∧ stAB.OutputSignals[c]? = some (oA ++ oB)) ∧
      (0 < 2 → ∀ c, c < 1 → ∃ oA cmp, stA.OutputSignals[c]? = some oA ∧
        sahBlockA.InputTriggers[c]? = some cmp ∧
        stA.PreviousTriggerValues[c]? = some (cmp.getD (2 - 1) 0) ∧
        stA.SampledValues[c]? = some (oA.getD (2 - 1) 0)) := by
  refine ⟨?_, ?_, sah_block_size_independent 1 2 sahBlockA sahBlockB
    (FSahBankOperator.Construct [[0, 0]]) [[0, 0, 0, 0]] (by decide)
    (by simp [FSahBankInputs.Shaped, sahBlockA]) (by simp [FSahBankInputs.Shaped, sahBlockB])
    (by simp [FSahBankOperator.Shaped, FSahBankOperator.Construct]) rfl rfl (by simp)⟩
  · norm_num [FSahBankOperator.ExecuteBlocks, FSahBankOperator.Execute,
      FSahBankOperator.Construct, FSahBankOperator.channelLoop, FSahBankOperator.channelBody,
      FSahBankOperator.frameLoop, FSahBankOperator.frameBody, writeAt, List.replicate,
      sahBlockA, sahBlockB]
  · norm_num [FSahBankOperator.Execute, FSahBankOperator.Construct,
      FSahBankOperator.channelLoop, FSahBankOperator.channelBody, FSahBankOperator.frameLoop,
      FSahBankOperator.frameBody, writeAt, List.replicate, sahBlockA, sahBlockB,
      FSahBankInputs.append]

/-! ## Wave reader: de-interleaving -/

theorem rowsShaped_of_getElem? (C F : Nat) (tbl : List (List ℚ)) (hlen : tbl.length = C)
    (h : ∀ c, c < C → ∀ row, tbl[c]? = some row → row.length = F) : RowsShaped C F tbl := by
  refine ⟨hlen, fun row hrow => ?_⟩
  obtain ⟨i, hi, rfl⟩ := List.getElem_of_mem hrow
  exact h i (by omega) _ (List.getElem?_eq_getElem hi)

theorem rowsShaped_getElem? (C F : Nat) (tbl : List (List ℚ)) (h : RowsShaped C F tbl) (c : Nat)
    (hc : c < C) : ∃ row, tbl[c]? = some row ∧ row.length = F := by
  have hlt : c < tbl.length := by rw [h.1]; exact hc
  exact ⟨tbl[c], List.getElem?_eq_getElem hlt, h.2 _ (List.getElem_mem _)⟩

theorem rowsShaped_set (C F : Nat) (tbl : List (List ℚ)) (h : RowsShaped C F tbl) (c : Nat)
    (row : List ℚ) (hrow : row.length = F) : RowsShaped C F (tbl.set c row) := by
  refine ⟨by simpa using h.1, fun r hr => ?_⟩
  rcases List.mem_or_eq_of_mem_set hr with h1 | h1
  · exact h.2 r h1
  · rw [h1]; exact hrow

theorem setNum_length (row : List ℚ) (F : Nat) :
    ∃ row1, setNum row (F : Int) 0 = some row1 ∧ row1.length = F := by
  refine ⟨row.take F ++ List.replicate (F - row.length) 0, by simp [setNum], ?_⟩
  simp only [List.length_append, List.length_take, List.length_replicate]
  omega

/-- The sizing loop gives every channel array from `c0` on `F` samples. -/
theorem sizeLoop_shaped (C F : Nat) :
    ∀ (n c0 : Nat) (tbl : List (List ℚ)), c0 + n = C → tbl.length = C →
      (∀ c, c < c0 → ∀ row, tbl[c]? = some row → row.length = F) →
      ∃ tbl1, FWaveReaderOperator.sizeLoop (F : Int) n c0 tbl = some tbl1 ∧
        RowsShaped C F tbl1 := by
  intro n
  induction n with
  | zero =>
    intro c0 tbl hc0 hlen hdone
    exact ⟨tbl, rfl, rowsShaped_of_getElem? C F tbl hlen (fun c hc => hdone c (by omega))⟩
  | succ n ih =>
    intro c0 tbl hc0 hlen hdone
    have hlt : c0 < tbl.length := by omega
    obtain ⟨row1, hset, hl1⟩ := setNum_length tbl[c0] F
    obtain ⟨tbl1, hrun, hshape⟩ := ih (c0 + 1) (tbl.set c0 row1) (by omega) (by simpa using hlen)
      (by
        intro c hc row hrow
        by_cases hcc : c0 = c
        · subst hcc
          rw [List.getElem?_set_self hlt] at hrow
          cases hrow
          exact hl1
        · rw [List.getElem?_set_ne hcc] at hrow
          exact hdone c (by omega) row hrow)
    refine ⟨tbl1, ?_, hshape⟩
    simp only [FWaveReaderOperator.sizeLoop, List.getElem?_eq_getElem hlt, Option.some_bind, hset]
    exact hrun

theorem cell_set (tbl : List (List ℚ)) (c : Nat) (row : List ℚ) (f : Nat) (v : ℚ)
    (hrow : tbl[c]? = some row) (hf : f < row.length) (c1 g : Nat) :
    cell (tbl.set c (row.set f v)) c1 g =
      if c1 = c ∧ g = f then some v else cell tbl c1 g := by
  have hc := getElem?_lt_length _ _ _ hrow
  unfold cell
  by_cases h1 : c1 = c
  · subst h1
    rw [List.getElem?_set_self hc, hrow]
    simp only [Option.some_bind, true_and]
    by_cases h2 : g = f
    · subst h2
      simp [List.getElem?_set_self hf]
    · have : ¬ f = g := fun e => h2 e.symm
      simp [List.getElem?_set_ne this, h2]
  · have : ¬ c = c1 := fun e => h1 e.symm
    simp [List.getElem?_set_ne this, h1]

theorem readAtInt_natCast {α : Type} (xs : List α) (f C c : Nat) :
    readAtInt xs ((f : Int) * (C : Int) + (c : Int)) = xs[f * C + c]? := by
  have : (f : Int) * (C : Int) + (c : Int) = ((f * C + c : Nat) : Int) := by push_cast; ring
  rw [this, readAtInt, if_pos (Int.ofNat_nonneg _), Int.toNat_ofNat]

/-- The inner loop at frame `f`, from channel `c0` to the last one: it stores
`Interleaved[f * C + c]` at frame `f` of every channel `c ≥ c0` and changes no
other cell. -/
theorem deinterleaveChannelLoop_eq (inter : List ℚ) (C F f : Nat) (hf : f < F)
    (hS : f * C + C ≤ inter.length) :
    ∀ (n c0 : Nat) (tbl : List (List ℚ)), c0 + n = C → RowsShaped C F tbl →
      ∃ tbl1, FWaveReaderOperator.deinterleaveChannelLoop inter (C : Int) f n c0 tbl =
          some tbl1 ∧
        RowsShaped C F tbl1 ∧
        ∀ c g, cell tbl1 c g =
          if g = f ∧ c0 ≤ c ∧ c < C then inter[f * C + c]? else cell tbl c g := by
  intro n
  induction n with
  | zero =>
    intro c0 tbl hc0 hshape
    refine ⟨tbl, rfl, hshape, fun c g => ?_⟩
    have : ¬ (g = f ∧ c0 ≤ c ∧ c < C) := by omega
    rw [if_neg this]
  | succ n ih =>
    intro c0 tbl hc0 hshape
    obtain ⟨row, hrow, hrl⟩ := rowsShaped_getElem? C F tbl hshape c0 (by omega)
    have hidx : f * C + c0 < inter.length := by omega
    have hfr : f < row.length := by omega
    obtain ⟨tbl1, hrun, hsh1, hcell⟩ := ih (c0 + 1) (tbl.set c0 (row.set f inter[f * C + c0]))
      (by omega) (rowsShaped_set C F tbl hshape c0 _ (by simpa using hrl))
    refine ⟨tbl1, ?_, hsh1, fun c g => ?_⟩
    · simp only [FWaveReaderOperator.deinterleaveChannelLoop, readAtInt_natCast,
        List.getElem?_eq_getElem hidx, Option.some_bind, hrow, writeAt_eq _ _ _ hfr]
      exact hrun
    · rw [hcell c g, cell_set tbl c0 row f _ hrow hfr]
      by_cases hg : g = f
      · by_cases hc1 : c0 + 1 ≤ c ∧ c < C
        · rw [if_pos ⟨hg, hc1⟩, if_pos ⟨hg, by omega, hc1.2⟩]
        · rw [if_neg (fun h => hc1 h.2)]
          by_cases hc2 : c = c0
          · subst hc2
            rw [if_pos ⟨rfl, hg⟩, if_pos ⟨hg, le_rfl, by omega⟩, List.getElem?_eq_getElem hidx]
          · rw [if_neg (fun h => hc2 h.1), if_neg (fun h => by omega)]
      · rw [if_neg (fun h => hg h.1), if_neg (fun h => hg h.2), if_neg (fun h => hg h.1)]

/-- The outer loop from frame `f0` to the last one: every cell `(c, g)` with
`f0 ≤ g` holds `Interleaved[g * C + c]`, the cells of earlier frames are
untouched. -/
theorem deinterleaveFrameLoop_eq (inter : List ℚ) (C F : Nat) (hS : F * C ≤ inter.length) :
    ∀ (n f0 : Nat) (tbl : List (List ℚ)), f0 + n = F → RowsShaped C F tbl →
      ∃ tbl1, FWaveReaderOperator.deinterleaveFrameLoop inter (C : Int) n f0 tbl = some tbl1 ∧
        RowsShaped C F tbl1 ∧
        ∀ c g, cell tbl1 c g =
          if f0 ≤ g ∧ g < F ∧ c < C then inter[g * C + c]? else cell tbl c g := by
  intro n
  induction n with
  | zero =>
    intro f0 tbl hf0 hshape
    refine ⟨tbl, rfl, hshape, fun c g => ?_⟩
    have : ¬ (f0 ≤ g ∧ g < F ∧ c < C) := by omega
    rw [if_neg this]
  | succ n ih =>
    intro f0 tbl hf0 hshape
    have hfF : f0 < F := by omega
    have hS1 : f0 * C + C ≤ inter.length := by
      have : (f0 + 1) * C ≤ F * C := Nat.mul_le_mul_right C (by omega)
      have h2 : (f0 + 1) * C = f0 * C + C := by ring
      omega
    obtain ⟨tbl1, hrun1, hsh1, hcell1⟩ :=
      deinterleaveChannelLoop_eq inter C F f0 hfF hS1 C 0 tbl (by omega) hshape
    obtain ⟨tbl2, hrun2, hsh2, hcell2⟩ := ih (f0 + 1) tbl1 (by omega) hsh1
    refine ⟨tbl2, ?_, hsh2, fun c g => ?_⟩
    · simp only [FWaveReaderOperator.deinterleaveFrameLoop, Int.toNat_ofNat, hrun1,
        Option.some_bind]
      exact hrun2
    · rw [hcell2 c g, hcell1 c g]
      by_cases hin : g < F ∧ c < C
      · by_cases hg1 : f0 + 1 ≤ g
        · rw [if_pos ⟨hg1, hin⟩, if_pos ⟨by omega, hin⟩]
        · rw [if_neg (fun h => hg1 h.1)]
          by_cases hg2 : g = f0
          · subst hg2
            rw [if_pos ⟨rfl, Nat.zero_le _, hin.2⟩, if_pos ⟨le_rfl, hin⟩]
          · rw [if_neg (fun h => hg2 h.1), if_neg (fun h => by omega)]
      · rw [if_neg (fun h => hin h.2), if_neg (fun h => hin ⟨by omega, h.2.2⟩),
          if_neg (fun h => hin h.2)]

theorem setNum_table (tbl : List (List ℚ)) (C : Nat) :
    ∃ tbl0, setNum tbl (C : Int) [] = some tbl0 ∧ tbl0.length = C := by
  refine ⟨tbl.take C ++ List.replicate (C - tbl.length) [], by simp [setNum], ?_⟩
  simp only [List.length_append, List.length_take, List.length_replicate]
  omega

/-- `DeinterleaveWaveData` with `C ≥ 1` channels: it returns, and changes only
the frame count, which becomes `S / C`, and the table, which becomes `C` arrays
of `S / C` samples with `Interleaved[f * C + c]` at frame `f` of channel `c`. -/
theorem DeinterleaveWaveData_eq (st : FWaveReaderOperator) (C : Nat) (hC : 1 ≤ C)
    (hch : st.NumChannels = (C : Int)) :
    ∃ tbl, st.DeinterleaveWaveData =
        some { st with TotalNumFrames := ((st.InterleavedWaveData.length / C : Nat) : Int)
                       DeinterleavedWaveData := tbl } ∧
      RowsShaped C (st.InterleavedWaveData.length / C) tbl ∧
      ∀ c f, c < C → f < st.InterleavedWaveData.length / C →
        cell tbl c f = st.InterleavedWaveData[f * C + c]? := by
  have hdiv : Int.tdiv (st.InterleavedWaveData.length : Int) (C : Int) =
      ((st.InterleavedWaveData.length / C : Nat) : Int) := rfl
  obtain ⟨tbl0, hset, hl0⟩ := setNum_table st.DeinterleavedWaveData C
  obtain ⟨tbl1, hsize, hsh1⟩ := sizeLoop_shaped C (st.InterleavedWaveData.length / C) C 0 tbl0
    (by omega) hl0 (fun c hc => absurd hc (by omega))
  obtain ⟨tbl2, hloop, hsh2, hcell⟩ := deinterleaveFrameLoop_eq st.InterleavedWaveData C
    (st.InterleavedWaveData.length / C) (Nat.div_mul_le_self _ _)
    (st.InterleavedWaveData.length / C) 0 tbl1 (by omega) hsh1
  refine ⟨tbl2, ?_, hsh2, fun c f hc hf => ?_⟩
  · have hne1 : ¬ (C : Int) = 0 := by omega
    simp only [FWaveReaderOperator.DeinterleaveWaveData, hch, if_neg hne1, hdiv, hset,
      Option.some_bind, Int.toNat_ofNat, hsize, hloop, Option.map_some']
  · rw [hcell c f, if_pos ⟨Nat.zero_le _, hf, hc⟩]

/-! ## C15 -/

/-- C15: for every interleaved buffer of `S` samples and every channel count
`C ≥ 1`, `DeinterleaveWaveData` returns with total frame count `S / C`
(rounded down), exactly `C` channel arrays, each of `S / C` samples, and
`channel[c][f] = interleaved[f * C + c]` for every `c < C` and `f < S / C`, so
that re-interleaving the channel arrays gives the first `(S / C) * C` samples
of the input; nothing else of the reader changes.  With channel count 0 the
reader is returned as it is: nothing is divided or indexed and the frame count
keeps its value. -/
theorem wave_deinterleave (st : FWaveReaderOperator) (C : Nat) (hC : 1 ≤ C)
    (hch : st.NumChannels = (C : Int)) :
    (∃ st1, st.DeinterleaveWaveData = some st1 ∧
      st1.TotalNumFrames = ((st.InterleavedWaveData.length / C : Nat) : Int) ∧
      st1.DeinterleavedWaveData.length = C ∧
      (∀ Row ∈ st1.DeinterleavedWaveData, Row.length = st.InterleavedWaveData.length / C) ∧
      (∀ c f, c < C → f < st.InterleavedWaveData.length / C →
        cell st1.DeinterleavedWaveData c f = st.InterleavedWaveData[f * C + c]?) ∧
      (List.range (st.InterleavedWaveData.length / C * C)).map
          (fun i => cell st1.DeinterleavedWaveData (i % C) (i / C)) =
        (st.InterleavedWaveData.take (st.InterleavedWaveData.length / C * C)).map some ∧
      st1 = { st with TotalNumFrames := st1.TotalNumFrames
                      DeinterleavedWaveData := st1.DeinterleavedWaveData }) ∧
    (∀ st0 : FWaveReaderOperator, st0.NumChannels = 0 → st0.DeinterleaveWaveData = some st0) := by
  obtain ⟨tbl, hrun, hshape, hcell⟩ := DeinterleaveWaveData_eq st C hC hch
  refine ⟨⟨_, hrun, rfl, hshape.1, hshape.2, hcell, ?_, rfl⟩, ?_⟩
  · apply List.ext_getElem?
    intro i
    simp only [List.getElem?_map, List.getElem?_take]
    by_cases hi : i < st.InterleavedWaveData.length / C * C
    · have hmod : i % C < C := Nat.mod_lt _ (by omega)
      have hdiv : i / C < st.InterleavedWaveData.length / C :=
        Nat.div_lt_of_lt_mul (by rw [Nat.mul_comm]; exact hi)
      have hidx : i / C * C + i % C = i := by
        rw [Nat.mul_comm]; exact Nat.div_add_mod i C
      have hlt : i < st.InterleavedWaveData.length :=
        lt_of_lt_of_le hi (Nat.div_mul_le_self _ _)
      rw [List.getElem?_range hi, if_pos hi]
      simp only [Option.map_some']
      rw [hcell _ _ hmod hdiv, hidx, List.getElem?_eq_getElem hlt]
      rfl
    · rw [List.getElem?_eq_none (by simpa using hi), if_neg hi]
      rfl
  · intro st0 h0
    simp [FWaveReaderOperator.DeinterleaveWaveData, h0]

/-- C15 at five samples `[1,2,3,4,5]` in two channels: two frames, channel
arrays `[1,3]` and `[2,4]`, the fifth sample dropped. -/
theorem wave_deinterleave_witness :
    waveInterleavedScenario.DeinterleaveWaveData =
      some { waveInterleavedScenario with
        TotalNumFrames := 2, DeinterleavedWaveData := [[1, 3], [2, 4]] } ∧
    ∃ st1, waveInterleavedScenario.DeinterleaveWaveData = some st1 ∧
      st1.TotalNumFrames = ((waveInterleavedScenario.InterleavedWaveData.length / 2 : Nat) : Int) ∧
      st1.DeinterleavedWaveData.length = 2 ∧
      (∀ Row ∈ st1.DeinterleavedWaveData,
        Row.length = waveInterleavedScenario.InterleavedWaveData.length / 2) ∧
      (∀ c f, c < 2 → f < waveInterleavedScenario.InterleavedWaveData.length / 2 →
        cell st1.DeinterleavedWaveData c f =
          waveInterleavedScenario.InterleavedWaveData[f * 2 + c]?) ∧
      (List.range (waveInterleavedScenario.InterleavedWaveData.length / 2 * 2)).map
          (fun i => cell st1.DeinterleavedWaveData (i % 2) (i / 2)) =
        (waveInterleavedScenario.InterleavedWaveData.take
          (waveInterleavedScenario.InterleavedWaveData.length / 2 * 2)).map some ∧
      st1 = { waveInterleavedScenario with
        TotalNumFrames := st1.TotalNumFrames
        DeinterleavedWaveData := st1.DeinterleavedWaveData } :=
  ⟨rfl, (wave_deinterleave waveInterleavedScenario 2 (by decide) rfl).1⟩

/-! ## Wave reader: `Initialize` -/

/-- A failure reported at some chunk, after chunks that each delivered frames
without failure, makes the decode loop leave through `HasFailed()`. -/
theorem popLoop_fail (bad : FDecodedChunk) (rest : List FDecodedChunk)
    (hbad : bad.HasFailed = true) :
    ∀ (pre : List FDecodedChunk) (data : List ℚ),
      (∀ ch ∈ pre, ch.HasFailed = false ∧ 0 < ch.NumFramesRead) →
      (FWaveReaderOperator.popLoop (pre ++ bad :: rest) data).1 = true := by
  intro pre
  induction pre with
  | nil =>
    intro data _
    simp [FWaveReaderOperator.popLoop, hbad]
  | cons ch pre ih =>
    intro data hpre
    obtain ⟨h1, h2⟩ := hpre ch (List.mem_cons_self _ _)
    simp only [List.cons_append, FWaveReaderOperator.popLoop, h1, gt_iff_lt, h2, if_true]
    exact ih _ (fun c hc => hpre c (List.mem_cons_of_mem _ hc))

/-- What a returning `DeinterleaveWaveData` leaves behind: with channel count 0
the reader as it was, otherwise a channel count `C ≥ 1`, frame count `S / C`
and a table of `C` arrays of `S / C` samples. -/
theorem DeinterleaveWaveData_cases (st0 st : FWaveReaderOperator)
    (h : st0.DeinterleaveWaveData = some st) :
    (st0.NumChannels = 0 ∧ st = st0) ∨
    ∃ C : Nat, 1 ≤ C ∧ st0.NumChannels = (C : Int) ∧
      RowsShaped C (st0.InterleavedWaveData.length / C) st.DeinterleavedWaveData ∧
      st = { st0 with TotalNumFrames := ((st0.InterleavedWaveData.length / C : Nat) : Int)
                      DeinterleavedWaveData := st.DeinterleavedWaveData } := by
  by_cases h0 : st0.NumChannels = 0
  · left
    simp only [FWaveReaderOperator.DeinterleaveWaveData, h0, if_true, Option.some.injEq] at h
    exact ⟨h0, h.symm⟩
  · right
    by_cases hneg : st0.NumChannels < 0
    · have hn : ¬ 0 ≤ st0.NumChannels := by omega
      simp [FWaveReaderOperator.DeinterleaveWaveData, h0, setNum, hn] at h
    · have hch : st0.NumChannels = ((st0.NumChannels.toNat : Nat) : Int) := by omega
      obtain ⟨tbl, hrun, hshape, _⟩ :=
        DeinterleaveWaveData_eq st0 st0.NumChannels.toNat (by omega) hch
      rw [hrun] at h
      cases h
      exact ⟨st0.NumChannels.toNat, by omega, hch, hshape, rfl⟩

/-- Every reader the constructor can produce has an output buffer of one
zeroed block and is either empty (frame count 0) or loaded. -/
theorem Construct_cases (N : Nat) (asset : FWaveAsset) (st : FWaveReaderOperator)
    (h : FWaveReaderOperator.Construct N asset = some st) :
    st.NumFramesPerBlock = N ∧ st.OutputSignal = List.replicate N 0 ∧
    (st.TotalNumFrames = 0 ∨ st.Loaded) := by
  unfold FWaveReaderOperator.Construct FWaveReaderOperator.Initialize at h
  split at h
  · split at h
    · cases h
      exact ⟨rfl, rfl, Or.inl rfl⟩
    · simp only at h
      split at h
      · cases h
        exact ⟨rfl, rfl, Or.inl rfl⟩
      · rcases DeinterleaveWaveData_cases _ st h with ⟨_, hst⟩ | ⟨C, hC, _, hshape, hst⟩
        · rw [hst]
          exact ⟨rfl, rfl, Or.inl rfl⟩
        · refine ⟨by rw [hst]; rfl, by rw [hst]; rfl, ?_⟩
          have hT : st.TotalNumFrames =
              (((FWaveReaderOperator.popLoop asset.Chunks []).2.length / C : Nat) : Int) := by
            rw [hst]
          by_cases hz : (FWaveReaderOperator.popLoop asset.Chunks []).2.length / C = 0
          · left
            rw [hT, hz]
            rfl
          · right
            have hshape1 : RowsShaped C ((FWaveReaderOperator.popLoop asset.Chunks []).2.length / C)
                st.DeinterleavedWaveData := hshape
            have hpos : 1 ≤ (FWaveReaderOperator.popLoop asset.Chunks []).2.length / C :=
              Nat.pos_of_ne_zero hz
            obtain ⟨row, hrow, hrl⟩ := rowsShaped_getElem? C _ _ hshape1 0 (by omega)
            refine ⟨by rw [hT]; exact_mod_cast hpos, row, hrow, ?_⟩
            rw [hT, hrl]
  · cases h
    exact ⟨rfl, rfl, Or.inl rfl⟩

/-! ## C12 -/

/-- C12, refuted as stated: a valid stereo asset that decodes without failure
to zero samples leaves the reader with frame count 0 but channel count 2, not
the state with channel count 0. -/
theorem wave_empty_asset_keeps_channel_count :
    waveSilentStereoAsset.ProxyIsValid = true ∧ waveSilentStereoAsset.ReaderIsValid = true ∧
    FWaveReaderOperator.popLoop waveSilentStereoAsset.Chunks [] = (false, []) ∧
    ∃ st, FWaveReaderOperator.Construct 2 waveSilentStereoAsset = some st ∧
      st.TotalNumFrames = 0 ∧ st.NumChannels = 2 ∧ ¬ st.NumChannels = 0 :=
  ⟨rfl, rfl, rfl, _, rfl, rfl, rfl, by decide⟩

/-- C12 as amended: for every asset handle, if the handle is invalid, or the
decoder cannot be created, or decoding reports a failure at any chunk (after
chunks that each delivered frames without failure), the constructed reader has
channel count 0 and total frame count 0.  If the asset decodes without failure
to zero samples and reports a channel count that is not negative, the
constructed reader has total frame count 0, so it is in the state `Empty`, and
its channel count is the one the decoder reports. -/
theorem wave_initialize_failure_is_empty (N : Nat) (asset : FWaveAsset) :
    (asset.ProxyIsValid = false →
      ∃ st, FWaveReaderOperator.Construct N asset = some st ∧
        st.NumChannels = 0 ∧ st.TotalNumFrames = 0) ∧
    (asset.ProxyIsValid = true → asset.ReaderIsValid = false →
      ∃ st, FWaveReaderOperator.Construct N asset = some st ∧
        st.NumChannels = 0 ∧ st.TotalNumFrames = 0) ∧
    (asset.ProxyIsValid = true → asset.ReaderIsValid = true →
      ∀ (pre : List FDecodedChunk) (bad : FDecodedChunk) (rest : List FDecodedChunk),
        asset.Chunks = pre ++ bad :: rest →
        (∀ ch ∈ pre, ch.HasFailed = false ∧ 0 < ch.NumFramesRead) → bad.HasFailed = true →
        ∃ st, FWaveReaderOperator.Construct N asset = some st ∧
          st.NumChannels = 0 ∧ st.TotalNumFrames = 0) ∧
    (asset.ProxyIsValid = true → asset.ReaderIsValid = true →
      FWaveReaderOperator.popLoop asset.Chunks [] = (false, []) → 0 ≤ asset.NumChannels →
      ∃ st, FWaveReaderOperator.Construct N asset = some st ∧
        st.NumChannels = asset.NumChannels ∧ st.TotalNumFrames = 0 ∧ st.Empty) := by
  refine ⟨?_, ?_, ?_, ?_⟩
  · intro h1
    have hrun : FWaveReaderOperator.Construct N asset =
        some { FWaveReaderOperator.Defaults N with NumChannels := 0, TotalNumFrames := 0 } := by
      simp [FWaveReaderOperator.Construct, FWaveReaderOperator.Initialize, h1]
    exact ⟨_, hrun, rfl, rfl⟩
  · intro h1 h2
    have hrun : FWaveReaderOperator.Construct N asset =
        some { FWaveReaderOperator.Defaults N with NumChannels := 0, TotalNumFrames := 0 } := by
      simp [FWaveReaderOperator.Construct, FWaveReaderOperator.Initialize, h1, h2]
    exact ⟨_, hrun, rfl, rfl⟩
  · intro h1 h2 pre bad rest hchunks hpre hbad
    have hfail : (FWaveReaderOperator.popLoop asset.Chunks []).1 = true := by
      rw [hchunks]
      exact popLoop_fail bad rest hbad pre [] hpre
    have hrun : FWaveReaderOperator.Construct N asset =
        some { FWaveReaderOperator.Defaults N with
          InterleavedWaveData := (FWaveReaderOperator.popLoop asset.Chunks []).2
          NumChannels := 0, TotalNumFrames := 0 } := by
      simp [FWaveReaderOperator.Construct, FWaveReaderOperator.Initialize, h1, h2, hfail]
    exact ⟨_, hrun, rfl, rfl⟩
  · intro h1 h2 hpop hch
    have hinit : FWaveReaderOperator.Construct N asset =
        FWaveReaderOperator.DeinterleaveWaveData
          { FWaveReaderOperator.Defaults N with
            InterleavedWaveData := [], NumChannels := asset.NumChannels
            WaveSampleRate := asset.SampleRate } := by
      simp [FWaveReaderOperator.Construct, FWaveReaderOperator.Initialize, h1, h2, hpop]
    rw [hinit]
    by_cases h0 : asset.NumChannels = 0
    · have hrun : FWaveReaderOperator.DeinterleaveWaveData
          { FWaveReaderOperator.Defaults N with
            InterleavedWaveData := [], NumChannels := asset.NumChannels
            WaveSampleRate := asset.SampleRate } =
          some { FWaveReaderOperator.Defaults N with
            InterleavedWaveData := [], NumChannels := asset.NumChannels
            WaveSampleRate := asset.SampleRate } := by
        simp [FWaveReaderOperator.DeinterleaveWaveData, h0]
      exact ⟨_, hrun, rfl, rfl, rfl⟩
    · have hC : asset.NumChannels = ((asset.NumChannels.toNat : Nat) : Int) := by omega
      obtain ⟨tbl, hrun, _, _⟩ := DeinterleaveWaveData_eq
        { FWaveReaderOperator.Defaults N with
          InterleavedWaveData := [], NumChannels := asset.NumChannels
          WaveSampleRate := asset.SampleRate } asset.NumChannels.toNat (by omega) hC
      refine ⟨_, hrun, rfl, ?_, ?_⟩
      · simp
      · simp [FWaveReaderOperator.Empty]

/-- C12 as amended, at a stereo asset whose decoder fails at its second chunk:
the constructed reader has channel count 0 and frame count 0. -/
theorem wave_initialize_failure_is_empty_witness :
    ∃ st, FWaveReaderOperator.Construct 2 waveFailingAsset = some st ∧
      st.NumChannels = 0 ∧ st.TotalNumFrames = 0 :=
  (wave_initialize_failure_is_empty 2 waveFailingAsset).2.2.1 rfl rfl
    [{ NumFramesRead := 2, TempBuffer := [1, 2, 3, 4], HasFailed := false }]
    { NumFramesRead := 1, TempBuffer := [5, 6], HasFailed := true }
    [{ NumFramesRead := 0, TempBuffer := [], HasFailed := false }] rfl
    (by
      intro ch hch
      rw [List.mem_singleton] at hch
      subst hch
      exact ⟨rfl, by decide⟩)
    rfl

/-! ## C18 -/

/-- A reader that is empty or loaded, with a conversion that sends 0 to 0: the
lookup returns for every position and `Execute` returns for every block of
positions. -/
theorem wave_step_total (st : FWaveReaderOperator) (ToFloat : Int → ℚ) (hz : ToFloat 0 = 0)
    (hstate : st.Empty ∨ st.Loaded) (hsized : st.BlockSized) :
    (∀ p : ℚ, ∃ v, st.GetSampleAtPosition ToFloat p = some v) ∧
    (∀ PositionData : List ℚ, PositionData.length = st.NumFramesPerBlock →
      ∃ st1, st.Execute ToFloat PositionData = some st1) := by
  constructor
  · intro p
    rcases hstate with h0 | hl
    · refine ⟨0, getSample_out_of_range st ToFloat p ?_⟩
      have hT : st.TotalNumFrames = 0 := h0
      rw [hT, hz]
      rcases lt_or_le p 0 with hp | hp
      · exact Or.inl hp
      · exact Or.inr hp
    · exact getSample_total st ToFloat hl p
  · intro pos hpos
    rcases hstate with h0 | hl
    · exact ⟨_, wave_Execute_empty st ToFloat h0 hsized pos⟩
    · obtain ⟨st1, hrun, _⟩ := wave_Execute_loaded st ToFloat hl pos hpos hsized
      exact ⟨st1, hrun⟩

/-- C18: for every reader the constructor (through `Initialize`) can produce,
whatever the chunks, the channel count and the point of failure, the per-block
step never indexes out of range.  The lookup returns for every position and
`Execute` returns for every block of positions, under the conversion to single
precision and over exact arithmetic alike.  If the frame count is 0, `Execute`
returns the zeroed block whatever the table and the conversion are, so no table
is indexed.  If the frame count is at least 1, the table has at least one
channel, channel 0 has exactly `TotalNumFrames` samples, and for every position
`p` with `0 ≤ p < TotalNumFrames` the indices `i0` and `i1` the lookup computes
satisfy `i0 = floor p` (the clamp changes nothing),
`0 ≤ i0 ≤ i1 ≤ TotalNumFrames - 1` and `0 ≤ p - i0 < 1`, and both reads are in
range.  Every position that reaches the indexing under the conversion to
single precision, `0 ≤ p < (float)TotalNumFrames`, has
`0 ≤ i0 ≤ i1 ≤ TotalNumFrames - 1` and both reads in range, and if it is a
single-precision value it lies below `TotalNumFrames`. -/
theorem wave_index_safety (N : Nat) (asset : FWaveAsset) (st : FWaveReaderOperator)
    (h : FWaveReaderOperator.Construct N asset = some st) :
    st.BlockSized ∧ st.NumFramesPerBlock = N ∧ 0 ≤ st.TotalNumFrames ∧
    (∀ p : ℚ, ∃ v, st.GetSampleAtPosition castToFloat p = some v) ∧
    (∀ PositionData : List ℚ, PositionData.length = N →
      ∃ st1, st.Execute castToFloat PositionData = some st1) ∧
    (∀ p : ℚ, ∃ v, st.GetSampleAtPosition exactCast p = some v) ∧
    (∀ PositionData : List ℚ, PositionData.length = N →
      ∃ st1, st.Execute exactCast PositionData = some st1) ∧
    (st.TotalNumFrames = 0 →
      ∀ (ToFloat : Int → ℚ) (PositionData : List ℚ) (Table : List (List ℚ)),
      FWaveReaderOperator.Execute { st with DeinterleavedWaveData := Table } ToFloat
          PositionData =
        some { st with DeinterleavedWaveData := Table, OutputSignal := List.replicate N 0 }) ∧
    (1 ≤ st.TotalNumFrames →
      1 ≤ st.DeinterleavedWaveData.length ∧
      ∃ ch0, st.DeinterleavedWaveData[0]? = some ch0 ∧ (ch0.length : Int) = st.TotalNumFrames ∧
        (∀ p : ℚ, 0 ≤ p → p < (st.TotalNumFrames : ℚ) →
          FMath.Clamp (FMath.FloorToInt p) 0 (st.TotalNumFrames - 1) = ⌊p⌋ ∧
          0 ≤ FMath.Clamp (FMath.FloorToInt p) 0 (st.TotalNumFrames - 1) ∧
          FMath.Clamp (FMath.FloorToInt p) 0 (st.TotalNumFrames - 1) ≤
            FMath.Min (FMath.Clamp (FMath.FloorToInt p) 0 (st.TotalNumFrames - 1) + 1)
              (st.TotalNumFrames - 1) ∧
          FMath.Min (FMath.Clamp (FMath.FloorToInt p) 0 (st.TotalNumFrames - 1) + 1)
              (st.TotalNumFrames - 1) ≤ st.TotalNumFrames - 1 ∧
          0 ≤ p - ((FMath.Clamp (FMath.FloorToInt p) 0 (st.TotalNumFrames - 1) : Int) : ℚ) ∧
          p - ((FMath.Clamp (FMath.FloorToInt p) 0 (st.TotalNumFrames - 1) : Int) : ℚ) < 1 ∧
          ∃ A B, readAtInt ch0 (FMath.Clamp (FMath.FloorToInt p) 0 (st.TotalNumFrames - 1)) =
              some A ∧
            readAtInt ch0
              (FMath.Min (FMath.Clamp (FMath.FloorToInt p) 0 (st.TotalNumFrames - 1) + 1)
                (st.TotalNumFrames - 1)) = some B) ∧
        (∀ p : ℚ, 0 ≤ p → p < castToFloat st.TotalNumFrames →
          0 ≤ FMath.Clamp (FMath.FloorToInt p) 0 (st.TotalNumFrames - 1) ∧
          FMath.Clamp (FMath.FloorToInt p) 0 (st.TotalNumFrames - 1) ≤
            FMath.Min (FMath.Clamp (FMath.FloorToInt p) 0 (st.TotalNumFrames - 1) + 1)
              (st.TotalNumFrames - 1) ∧
          FMath.Min (FMath.Clamp (FMath.FloorToInt p) 0 (st.TotalNumFrames - 1) + 1)
              (st.TotalNumFrames - 1) ≤ st.TotalNumFrames - 1 ∧
          (∃ A B, readAtInt ch0 (FMath.Clamp (FMath.FloorToInt p) 0 (st.TotalNumFrames - 1)) =
              some A ∧
            readAtInt ch0
              (FMath.Min (FMath.Clamp (FMath.FloorToInt p) 0 (st.TotalNumFrames - 1) + 1)
                (st.TotalNumFrames - 1)) = some B) ∧
          (IsSingle p → p < (st.TotalNumFrames : ℚ)))) := by
  obtain ⟨hN, hout, hstate⟩ := Construct_cases N asset st h
  have hsized : st.BlockSized := by
    simp [FWaveReaderOperator.BlockSized, hout, hN]
  have hT0 : 0 ≤ st.TotalNumFrames := by
    rcases hstate with h0 | hl
    · omega
    · have := hl.1
      omega
  have hloadedOf : 1 ≤ st.TotalNumFrames → st.Loaded := by
    intro h1
    rcases hstate with h0 | hl
    · omega
    · exact hl
  obtain ⟨hc1, hc2⟩ := wave_step_total st castToFloat castToFloat_zero hstate hsized
  obtain ⟨he1, he2⟩ := wave_step_total st exactCast (by simp [exactCast]) hstate hsized
  refine ⟨hsized, hN, hT0, hc1, fun pos hpos => hc2 pos (by rw [hpos, hN]), he1,
    fun pos hpos => he2 pos (by rw [hpos, hN]), ?_, ?_⟩
  · intro h0 ToFloat pos tbl
    have := wave_Execute_empty { st with DeinterleavedWaveData := tbl } ToFloat h0 hsized pos
    rw [this, hN]
  · intro h1
    obtain ⟨_, ch0, hch0, hlen⟩ := hloadedOf h1
    refine ⟨?_, ch0, hch0, hlen, ?_, ?_⟩
    · have := getElem?_lt_length _ _ _ hch0
      omega
    · intro p hp0 hp1
      obtain ⟨hf0, hf1, hclamp⟩ := floor_in_range st.TotalNumFrames p hp0 hp1
      have hi0 : FMath.Clamp (FMath.FloorToInt p) 0 (st.TotalNumFrames - 1) = ⌊p⌋ := by
        rw [FMath_Clamp_eq, FMath.FloorToInt, hclamp]
      rw [hi0, FMath_Min_eq]
      obtain ⟨A, hA, _⟩ := readAtInt_eq ch0 ⌊p⌋ hf0 (by omega)
      obtain ⟨B, hB, _⟩ := readAtInt_eq ch0 (min (⌊p⌋ + 1) (st.TotalNumFrames - 1))
        (by omega) (by omega)
      refine ⟨rfl, hf0, by omega, min_le_right _ _, ?_, ?_, A, B, hA, hB⟩
      · linarith [Int.floor_le p]
      · linarith [Int.lt_floor_add_one p]
    · intro p hp0 hp1
      obtain ⟨hk0, hk1, hk2, hk3⟩ := clamp_in_range st.TotalNumFrames ⌊p⌋ h1
      rw [FMath_Clamp_eq, FMath_Min_eq, FMath.FloorToInt]
      obtain ⟨A, hA, _⟩ := readAtInt_eq ch0 (max 0 (min ⌊p⌋ (st.TotalNumFrames - 1)))
        hk0 (by omega)
      obtain ⟨B, hB, _⟩ := readAtInt_eq ch0
        (min (max 0 (min ⌊p⌋ (st.TotalNumFrames - 1)) + 1) (st.TotalNumFrames - 1))
        (by omega) (by omega)
      exact ⟨hk0, hk2, hk3, ⟨A, B, hA, hB⟩,
        fun hs => (single_below_count st.TotalNumFrames p hs hp0 hp1).1⟩

/-- C18 at a stereo asset of five samples: the constructed reader is loaded
with two frames and `Execute` returns on a block of positions inside and
outside the table. -/
theorem wave_index_safety_witness :
    FWaveReaderOperator.Construct 2 waveStereoAsset =
      some { NumFramesPerBlock := 2, OutputSignal := [0, 0],
             InterleavedWaveData := [1, 2, 3, 4, 5], DeinterleavedWaveData := [[1, 3], [2, 4]],
             NumChannels := 2, WaveSampleRate := 48000, TotalNumFrames := 2 } ∧
    ∀ PositionData : List ℚ, PositionData.length = 2 →
      ∃ st1, FWaveReaderOperator.Execute
        { NumFramesPerBlock := 2, OutputSignal := [0, 0],
          InterleavedWaveData := [1, 2, 3, 4, 5], DeinterleavedWaveData := [[1, 3], [2, 4]],
          NumChannels := 2, WaveSampleRate := 48000, TotalNumFrames := 2 } castToFloat
          PositionData = some st1 :=
  ⟨rfl, (wave_index_safety 2 waveStereoAsset _ rfl).2.2.2.2.1⟩

end Metasound
